import Mathlib

/-!
Verification development for the cardworks reference / document engine.

Strings are modelled as lists of characters (`Str`).  JavaScript string
operations used by the source (indexOf, lastIndexOf, slice, startsWith,
split, trim, ...) are reproduced on `Str` with their JavaScript semantics.
-/

set_option maxRecDepth 10000
set_option linter.unnecessarySeqFocus false

namespace Cardworks

abbrev Str := List Char

/-- Embed a Lean string literal as a `Str`. -/
def str (s : String) : Str := s.data

/-- JavaScript whitespace (the characters relevant to this code base:
space, tab, newline, carriage return, form feed, vertical tab). -/
def isJsWs (c : Char) : Bool :=
  c = ' ' || c = '\t' || c = '\n' || c = '\r' || c = '\x0c' || c = '\x0b'

/-- `String.prototype.indexOf` for a single character: index of the first
occurrence, or `none`. -/
def indexOfChar (s : Str) (c : Char) : Option Nat :=
  match s with
  | [] => none
  | d :: rest =>
    if d = c then some 0
    else match indexOfChar rest c with
      | some i => some (i + 1)
      | none => none

/-- `String.prototype.lastIndexOf` for a single character: index of the last
occurrence, or `none`. -/
def lastIndexOfChar (s : Str) (c : Char) : Option Nat :=
  match s with
  | [] => none
  | d :: rest =>
    match lastIndexOfChar rest c with
    | some i => some (i + 1)
    | none => if d = c then some 0 else none

/-- `s.slice(a)` (JavaScript, nonnegative index). -/
def sliceFrom (s : Str) (a : Nat) : Str := s.drop a

/-- `s.slice(a, b)` (JavaScript, nonnegative indices). -/
def slice (s : Str) (a b : Nat) : Str := (s.take b).drop a

/-- `String.prototype.startsWith`. -/
def startsWith (s pre : Str) : Bool := s.take pre.length = pre

/-- `String.prototype.endsWith`. -/
def endsWith (s suf : Str) : Bool := s.drop (s.length - suf.length) = suf && suf.length ≤ s.length

/-- `String.prototype.trimStart` (JavaScript whitespace). -/
def trimStart (s : Str) : Str := s.dropWhile (fun c => isJsWs c)

/-- `String.prototype.trimEnd` (JavaScript whitespace). -/
def trimEnd (s : Str) : Str := (trimStart s.reverse).reverse

/-- `String.prototype.trim` (JavaScript whitespace). -/
def trim (s : Str) : Str := trimEnd (trimStart s)

/-- `s.split(sep)` for a one-character separator (JavaScript semantics:
the result always has one more part than there are separators). -/
def splitOnChar (s : Str) (sep : Char) : List Str :=
  match s with
  | [] => [[]]
  | c :: rest =>
    let parts := splitOnChar rest sep
    if c = sep then [] :: parts
    else match parts with
      | p :: ps => (c :: p) :: ps
      | [] => [[c]]

/-- `parts.join(sep)` for a one-character separator. -/
def joinChar (parts : List Str) (sep : Char) : Str :=
  match parts with
  | [] => []
  | [p] => p
  | p :: rest => p ++ sep :: joinChar rest sep

/-- Helper for `splitWs`: `acc` holds the reversed current token. -/
def splitWsAux : Str → Str → List Str
  | [], acc => if acc = [] then [] else [acc.reverse]
  | c :: rest, acc =>
    if isJsWs c then
      if acc = [] then splitWsAux rest []
      else acc.reverse :: splitWsAux rest []
    else splitWsAux rest (c :: acc)

/-- Split on runs of whitespace, dropping empty tokens
(the behaviour of `trim().split(/\s+/)` on non-blank input, and of the
token enumeration the multi-reference parser performs). -/
def splitWs (s : Str) : List Str := splitWsAux s []

/-- Decimal rendering of a natural number (JavaScript `String(n)`). -/
def natToStr (n : Nat) : Str := (Nat.repr n).data

end Cardworks

namespace Cardworks

/-! ## Reference grammar (src/refs/parse-ref.ts) -/

/-- Fragment kind: `'id'`, `'query'` or `'query-all'` (src/refs/types.ts). -/
inductive FragType where
  | id
  | query
  | queryAll
deriving DecidableEq, Repr

/-- Fragment specifier in a reference (src/refs/types.ts `RefFragment`). -/
structure RefFragment where
  type : FragType
  value : Str
deriving DecidableEq, Repr

/-- Parsed reference structure (src/refs/types.ts `ParsedRef`). -/
structure ParsedRef where
  path : Str
  isAbsolute : Bool
  version : Option Str
  fragment : Option RefFragment
  original : Str
deriving DecidableEq, Repr

/-- `parseFragment` from src/refs/parse-ref.ts: `query(...)` is recognised,
anything else is treated as an ID.  (Note: the source has no case for
`query-all(`.) -/
def parseFragment (fragmentStr : Str) : RefFragment :=
  if startsWith fragmentStr (str "query(") && endsWith fragmentStr (str ")") then
    { type := FragType.query
      value := slice fragmentStr 6 (fragmentStr.length - 1) }
  else
    { type := FragType.id, value := fragmentStr }

/-- Does the text after an `@` look like a version (starts with a digit, or
`v` followed by a digit)?  This is `/^[\d]/.test(afterAt) || /^v\d/.test(afterAt)`
from src/refs/parse-ref.ts. -/
def looksLikeVersion (afterAt : Str) : Bool :=
  match afterAt with
  | [] => false
  | c :: rest =>
    c.isDigit ||
      (c = 'v' && (match rest with
        | [] => false
        | d :: _ => d.isDigit))

/-- `parseRef` from src/refs/parse-ref.ts. -/
def parseRef (ref : Str) : ParsedRef :=
  let remaining0 := ref
  -- Extract fragment (after #)
  let fragRes : Str × Option RefFragment :=
    match indexOfChar remaining0 '#' with
    | some fragmentIndex =>
      let fragmentStr := sliceFrom remaining0 (fragmentIndex + 1)
      (slice remaining0 0 fragmentIndex, some (parseFragment fragmentStr))
    | none => (remaining0, none)
  let remaining1 := fragRes.1
  let fragment := fragRes.2
  -- Extract version (after @)
  let verRes : Str × Option Str :=
    match lastIndexOfChar remaining1 '@' with
    | some versionIndex =>
      let afterAt := sliceFrom remaining1 (versionIndex + 1)
      if looksLikeVersion afterAt then
        (slice remaining1 0 versionIndex, some afterAt)
      else (remaining1, none)
    | none => (remaining1, none)
  let path := verRes.1
  let version := verRes.2
  { path := path
    isAbsolute := startsWith path (str "/")
    version := version
    fragment := fragment
    original := ref }

/-- Modelled from the spec: the companion multi-reference parser is not
present under src/ (only its callers and tests are).  Per §4.1 it "splits on
runs of whitespace, trims, and returns an empty sequence for
blank/whitespace-only input". -/
def parseRefs (refs : Str) : List ParsedRef :=
  (splitWs refs).map parseRef

end Cardworks

namespace Cardworks

/-! ## Document model (src/parser/provenance.ts) -/

/-- Source location information (src/parser/provenance.ts `Location`).
Positions come from the external DOM builder, which this development does
not model; the parser adapter below fills in a default location. -/
structure Location where
  source : Str
  startLine : Nat
  startColumn : Nat
  endLine : Nat
  endColumn : Nat
deriving DecidableEq, Repr

/-- `emptyLocation` from src/parser/provenance.ts. -/
def emptyLocation (source : Str) : Location :=
  { source := source, startLine := 0, startColumn := 0, endLine := 0, endColumn := 0 }

/-- Comment information attached to an element (src/parser/provenance.ts
`Comments`).  The source field `end` is spelled `endc` because `end` is
reserved in Lean. -/
structure Comments where
  start : Option Str := none
  endc : Option Str := none
deriving DecidableEq, Repr

mutual
/-- An element node in the parsed XML structure
(src/parser/provenance.ts `ElementNode`). -/
inductive ENode where
  | mk (tagName : Str) (attrs : List (Str × Str)) (comments : Comments)
       (text : Option Str) (mixed : Option (List MixedItem))
       (children : List ENode) (location : Location) (dirty : Bool)

/-- An item of mixed content: raw text, a comment, or a child element
(src/parser/provenance.ts `MixedContent`). -/
inductive MixedItem where
  | str (s : Str)
  | comment (c : Str)
  | elem (e : ENode)
end

def ENode.tagName : ENode → Str
  | .mk t _ _ _ _ _ _ _ => t

def ENode.attrs : ENode → List (Str × Str)
  | .mk _ a _ _ _ _ _ _ => a

def ENode.comments : ENode → Comments
  | .mk _ _ c _ _ _ _ _ => c

def ENode.text : ENode → Option Str
  | .mk _ _ _ t _ _ _ _ => t

def ENode.mixed : ENode → Option (List MixedItem)
  | .mk _ _ _ _ m _ _ _ => m

def ENode.children : ENode → List ENode
  | .mk _ _ _ _ _ ch _ _ => ch

def ENode.location : ENode → Location
  | .mk _ _ _ _ _ _ l _ => l

def ENode.dirty : ENode → Bool
  | .mk _ _ _ _ _ _ _ d => d

/-- Record lookup `attrs[name]` (attribute keys are unique). -/
def lookupAttr (attrs : List (Str × Str)) (name : Str) : Option Str :=
  (attrs.find? (fun p => p.1 = name)).map (fun p => p.2)

/-! ## DOM-to-object transform (src/parser/dom-to-object.ts) -/

/-- The tree handed back by the external DOM builder: elements with
attributes, text nodes, and comment nodes. -/
inductive Dom where
  | element (tagName : Str) (attrs : List (Str × Str)) (children : List Dom)
  | text (s : Str)
  | comment (s : Str)

/-- Length of the leading whitespace of a line (`/^(\s*)/` match). -/
def leadingWsCount (line : Str) : Nat :=
  (line.takeWhile (fun c => isJsWs c)).length

/-- `dedent` from src/parser/dom-to-object.ts: remove the common leading
whitespace of the non-blank lines, blank the whitespace-only lines,
trim line ends and trim the result. -/
def dedent (text : Str) : Str :=
  let lines := splitOnChar text '\n'
  let nonEmptyLines := lines.filter (fun line => 0 < (trim line).length)
  match nonEmptyLines.map leadingWsCount with
  | [] => []
  | n :: ns =>
    let minIndent := ns.foldl Nat.min n
    if minIndent = 0 then
      trim (joinChar (lines.map trimEnd) '\n')
    else
      trim (joinChar (lines.map (fun line =>
        if (trim line).length = 0 then []
        else trimEnd (sliceFrom line minIndent))) '\n')

/-- Set `comments.end` of the last element of a children list (the
`lastChild.comments.end = commentText` mutation). -/
def setLastEndc (children : List ENode) (c : Str) : List ENode :=
  match children with
  | [] => []
  | [ENode.mk t a cm tx mx ch l d] => [ENode.mk t a { cm with endc := some c } tx mx ch l d]
  | x :: rest => x :: setLastEndc rest c

/-- The same mutation seen through the `mixedContent` list, which holds the
same element object (JavaScript aliasing): update the last `.elem` item. -/
def setLastElemEndc (mixed : List MixedItem) (c : Str) : List MixedItem :=
  match mixed with
  | [] => []
  | x :: rest =>
    if (rest.any (fun i => match i with | .elem _ => true | _ => false)) then
      x :: setLastElemEndc rest c
    else
      match x with
      | .elem (ENode.mk t a cm tx mx ch l d) =>
        MixedItem.elem (ENode.mk t a { cm with endc := some c } tx mx ch l d) :: rest
      | _ => x :: setLastElemEndc rest c

/-- Loop state of the `childNodes` loop in `domToObject`. -/
structure DomState where
  children : List ENode
  mixedContent : List MixedItem
  pendingComment : Option Str
  hasNonWhitespaceText : Bool
  hasComments : Bool

mutual
/-- `domToObject` from src/parser/dom-to-object.ts (the mixed-content
version).  Only ever called on element nodes; the other constructors give a
placeholder.  Source locations come from the external DOM builder and are
modelled by the default location. -/
def domToObject (d : Dom) (precedingComment : Option Str) : ENode :=
  match d with
  | .element tagName attrs kids =>
    let comments : Comments := { start := precedingComment }
    let st := processChildNodes kids
      { children := [], mixedContent := [], pendingComment := none
        hasNonWhitespaceText := false, hasComments := false }
    -- Handle text content
    let textF : Option Str :=
      if st.hasNonWhitespaceText && st.children.isEmpty && !st.hasComments then
        some (dedent ((st.mixedContent.filterMap (fun i =>
          match i with | .str s => some s | _ => none)).flatten))
      else none
    let mixedF : Option (List MixedItem) :=
      if st.hasNonWhitespaceText && st.children.isEmpty && !st.hasComments then none
      else if st.hasNonWhitespaceText || st.hasComments then some st.mixedContent
      else none
    ENode.mk tagName attrs comments textF mixedF st.children
      (emptyLocation []) false
  | .text _ => ENode.mk [] [] {} none none [] (emptyLocation []) false
  | .comment _ => ENode.mk [] [] {} none none [] (emptyLocation []) false

/-- The `childNodes` loop of `domToObject`. -/
def processChildNodes (kids : List Dom) (st : DomState) : DomState :=
  match kids with
  | [] => st
  | child :: rest =>
    match child with
    | .comment ctext =>
      let commentText := dedent ctext
      let mixed1 := st.mixedContent ++ [MixedItem.comment commentText]
      if st.children.isEmpty && !st.hasNonWhitespaceText then
        processChildNodes rest
          { st with mixedContent := mixed1, hasComments := true
                    pendingComment := some commentText }
      else
        processChildNodes rest
          { st with
              children := setLastEndc st.children commentText
              mixedContent := setLastElemEndc st.mixedContent commentText
                ++ [MixedItem.comment commentText]
              hasComments := true
              pendingComment := some commentText }
    | .element t a k =>
      let childNode := domToObject (Dom.element t a k) st.pendingComment
      processChildNodes rest
        { st with
            children := st.children ++ [childNode]
            mixedContent := st.mixedContent ++ [MixedItem.elem childNode]
            pendingComment := none }
    | .text text =>
      processChildNodes rest
        { st with
            hasNonWhitespaceText := st.hasNonWhitespaceText || 0 < (trim text).length
            mixedContent := st.mixedContent ++ [MixedItem.str text] }
end

end Cardworks

namespace Cardworks

/-! ## The external DOM builder

Modelled from the spec: the raw markup tokenizer / DOM builder is an
external collaborator (xmldom), not code of this repository.  Per §6 the
Parser Adapter contract is `parse(markup, sourceId) -> ElementNode |
ParseFailure`.  The model below is a strict recursive-descent parser for
the XML constructs this code base reads and writes: elements with
double- or single-quoted attributes, text, comments, self-closing tags,
the five standard entities, and an optional leading XML declaration.
Failures are `none`; source positions are not modelled. -/

def isNameStart (c : Char) : Bool := c.isAlpha || c = '_' || c = ':'

def isNameChar (c : Char) : Bool := isNameStart c || c.isDigit || c = '-' || c = '.'

/-- Parse an XML name (nonempty run of name characters). -/
def parseXName (s : Str) : Option (Str × Str) :=
  let name := s.takeWhile (fun c => isNameChar c)
  if name = [] then none
  else some (name, s.drop name.length)

/-- Decode an entity reference; `s` is positioned after the `&`. -/
def parseEntity (s : Str) : Option (Char × Str) :=
  if startsWith s (str "amp;") then some ('&', s.drop 4)
  else if startsWith s (str "lt;") then some ('<', s.drop 3)
  else if startsWith s (str "gt;") then some ('>', s.drop 3)
  else if startsWith s (str "quot;") then some ('"', s.drop 5)
  else if startsWith s (str "apos;") then some ('\'', s.drop 5)
  else none

/-- Parse an attribute value after the opening quote `q`, decoding
entities; a raw `<` is rejected. -/
def parseAttrValue (fuel : Nat) (q : Char) (s : Str) : Option (Str × Str) :=
  match fuel with
  | 0 => none
  | fuel + 1 =>
    match s with
    | [] => none
    | c :: rest =>
      if c = q then some ([], rest)
      else if c = '<' then none
      else if c = '&' then
        match parseEntity rest with
        | none => none
        | some (d, rest') =>
          match parseAttrValue fuel q rest' with
          | none => none
          | some (v, r) => some (d :: v, r)
      else
        match parseAttrValue fuel q rest with
        | none => none
        | some (v, r) => some (c :: v, r)

/-- Parse the attribute list of a start tag; stops before `/` or `>`.
Duplicate attribute names are rejected (well-formedness). -/
def parseAttrList (fuel : Nat) (s : Str) (acc : List (Str × Str)) :
    Option (List (Str × Str) × Str) :=
  match fuel with
  | 0 => none
  | fuel + 1 =>
    let s := trimStart s
    match s with
    | [] => none
    | c :: _ =>
      if c = '/' || c = '>' then some (acc, s)
      else
        match parseXName s with
        | none => none
        | some (name, r1) =>
          if (acc.any (fun p => p.1 = name)) then none
          else
            let r2 := trimStart r1
            match r2 with
            | '=' :: r3 =>
              let r4 := trimStart r3
              match r4 with
              | q :: r5 =>
                if q = '"' || q = '\'' then
                  match parseAttrValue r5.length.succ q r5 with
                  | none => none
                  | some (v, r6) => parseAttrList fuel r6 (acc ++ [(name, v)])
                else none
              | [] => none
            | _ => none

/-- Parse a text run up to the next `<` (or the end of input), decoding
entities.  Never called on input starting with `<`. -/
def parseTextRun (fuel : Nat) (s : Str) : Option (Str × Str) :=
  match fuel with
  | 0 => none
  | fuel + 1 =>
    match s with
    | [] => some ([], [])
    | c :: rest =>
      if c = '<' then some ([], c :: rest)
      else if c = '&' then
        match parseEntity rest with
        | none => none
        | some (d, rest') =>
          match parseTextRun fuel rest' with
          | none => none
          | some (t, r) => some (d :: t, r)
      else
        match parseTextRun fuel rest with
        | none => none
        | some (t, r) => some (c :: t, r)

/-- Consume a comment after its `<!--` opener: everything up to `-->`. -/
def parseCommentBody (fuel : Nat) (s : Str) : Option (Str × Str) :=
  match fuel with
  | 0 => none
  | fuel + 1 =>
    if startsWith s (str "-->") then some ([], s.drop 3)
    else
      match s with
      | [] => none
      | c :: rest =>
        match parseCommentBody fuel rest with
        | none => none
        | some (t, r) => some (c :: t, r)

mutual
/-- Parse one element; the input must start with `<` followed by a name. -/
def parseElement (fuel : Nat) (s : Str) : Option (Dom × Str) :=
  match fuel with
  | 0 => none
  | fuel + 1 =>
    match s with
    | '<' :: r0 =>
      match parseXName r0 with
      | none => none
      | some (name, r1) =>
        match parseAttrList r1.length.succ r1 [] with
        | none => none
        | some (attrs, r2) =>
          match r2 with
          | '/' :: '>' :: r3 => some (Dom.element name attrs [], r3)
          | '>' :: r3 =>
            match parseContentList fuel r3 with
            | none => none
            | some (kids, r4) =>
              -- expect the matching close tag
              match r4 with
              | '<' :: '/' :: r5 =>
                match parseXName r5 with
                | none => none
                | some (cname, r6) =>
                  if cname = name then
                    match trimStart r6 with
                    | '>' :: r7 => some (Dom.element name attrs kids, r7)
                    | _ => none
                  else none
              | _ => none
          | _ => none
    | _ => none

/-- Parse element content: a sequence of text runs, comments and child
elements, stopping (successfully) right before a close tag. -/
def parseContentList (fuel : Nat) (s : Str) : Option (List Dom × Str) :=
  match fuel with
  | 0 => none
  | fuel + 1 =>
    match s with
    | [] => none
    | c :: rest =>
      if startsWith (c :: rest) (str "</") then some ([], c :: rest)
      else if startsWith (c :: rest) (str "<!--") then
        match parseCommentBody ((c :: rest).length) ((c :: rest).drop 4) with
        | none => none
        | some (t, r) =>
          match parseContentList fuel r with
          | none => none
          | some (ds, r') => some (Dom.comment t :: ds, r')
      else if c = '<' then
        match parseElement fuel (c :: rest) with
        | none => none
        | some (d, r) =>
          match parseContentList fuel r with
          | none => none
          | some (ds, r') => some (d :: ds, r')
      else
        match parseTextRun (c :: rest).length.succ (c :: rest) with
        | none => none
        | some (t, r) =>
          match parseContentList fuel r with
          | none => none
          | some (ds, r') => some (Dom.text t :: ds, r')
end

/-- Skip whitespace and comments occurring outside the root element. -/
def skipMisc (fuel : Nat) (s : Str) : Option Str :=
  match fuel with
  | 0 => none
  | fuel + 1 =>
    let s := trimStart s
    if startsWith s (str "<!--") then
      match parseCommentBody s.length (s.drop 4) with
      | none => none
      | some (_, r) => skipMisc fuel r
    else some s

/-- Skip an optional XML declaration `<?xml ... ?>`. -/
def skipDecl (s : Str) : Option Str :=
  if startsWith s (str "<?") then
    let rec go (fuel : Nat) (t : Str) : Option Str :=
      match fuel with
      | 0 => none
      | fuel + 1 =>
        if startsWith t (str "?>") then some (t.drop 2)
        else match t with
          | [] => none
          | _ :: r => go fuel r
    go s.length (s.drop 2)
  else some s

/-- The modelled external DOM builder: whole-document parse, returning the
root element.  Trailing content other than whitespace and comments is
rejected. -/
def parseDomDoc (xml : Str) : Option Dom :=
  match skipMisc xml.length.succ xml with
  | none => none
  | some s1 =>
    match skipDecl s1 with
    | none => none
    | some s2 =>
      match skipMisc s2.length.succ s2 with
      | none => none
      | some s3 =>
        match parseElement s3.length.succ s3 with
        | none => none
        | some (root, rest) =>
          match skipMisc rest.length.succ rest with
          | none => none
          | some [] => some root
          | some (_ :: _) => none

/-! ## parseXml (src/parser/parse.ts) -/

/-- Error thrown when XML parsing fails (src/parser/parse.ts `ParseError`).
Only the message is modelled; locations come from the external parser. -/
structure ParseErr where
  message : Str
deriving DecidableEq, Repr

/-- The regular expression `/^\d+\.\d+\.\d+$/` from src/parser/parse.ts. -/
def versionPattern (s : Str) : Bool :=
  let d1 := s.takeWhile (fun c => c.isDigit)
  let r1 := s.drop d1.length
  match d1, r1 with
  | [], _ => false
  | _, '.' :: r2 =>
    let d2 := r2.takeWhile (fun c => c.isDigit)
    let r3 := r2.drop d2.length
    match d2, r3 with
    | [], _ => false
    | _, '.' :: r4 =>
      let d3 := r4.takeWhile (fun c => c.isDigit)
      let r5 := r4.drop d3.length
      d3 ≠ [] && r5 = []
    | _, _ => false
  | _, _ => false

/-- `parseXml` from src/parser/parse.ts: delegate to the external DOM
builder, transform with `domToObject`, then validate the root `version`
attribute (if present and nonempty) against `/^\d+\.\d+\.\d+$/`.
The external builder's failure message is modelled as a fixed string. -/
def parseXml (xml : Str) (source : Str) : Except ParseErr ENode :=
  match parseDomDoc xml with
  | none => Except.error { message := source ++ str ": parse error" }
  | some dom =>
    let result := domToObject dom none
    match lookupAttr result.attrs (str "version") with
    | some v =>
      if v ≠ [] then
        if versionPattern v then Except.ok result
        else
          let msg := str "Invalid version \"" ++ v ++
            str "\" - must be in X.Y.Z format (e.g., \"1.0.0\")"
          Except.error { message := msg }
      else Except.ok result
    | none => Except.ok result

end Cardworks

namespace Cardworks

/-! ## In-memory filesystem (src/fs/memory-fs.ts) -/

/-- Collapse runs of `/` (`/\/+/g` replacement); the flag records whether
the previous character was a slash. -/
def collapseSlashesAux : Bool → Str → Str
  | _, [] => []
  | prevSlash, c :: rest =>
    if c = '/' then
      if prevSlash then collapseSlashesAux true rest
      else '/' :: collapseSlashesAux true rest
    else c :: collapseSlashesAux false rest

/-- Collapse runs of `/` (`/\/+/g` replacement). -/
def collapseSlashes (s : Str) : Str := collapseSlashesAux false s

/-- `normalizePath` from src/fs/memory-fs.ts: backslashes become slashes,
then runs of slashes collapse. -/
def normalizePath (path : Str) : Str :=
  collapseSlashes (path.map (fun c => if c = '\\' then '/' else c))

/-- In-memory filesystem: a text-file map and a binary-file map, keyed by
normalized paths (src/fs/memory-fs.ts `MemoryFileSystem`). -/
structure MemoryFileSystem where
  files : List (Str × Str)
  binaryFiles : List (Str × List Nat) := []

/-- `exists` from src/fs/memory-fs.ts: present in either map.  It resolves
(never rejects). -/
def MemoryFileSystem.existsPath (fs : MemoryFileSystem) (path : Str) : Bool :=
  let normalized := normalizePath path
  (fs.files.any (fun p => p.1 = normalized)) ||
    (fs.binaryFiles.any (fun p => p.1 = normalized))

/-- `read` from src/fs/memory-fs.ts: text files only; a missing file
rejects with `File not found: path`. -/
def MemoryFileSystem.read (fs : MemoryFileSystem) (path : Str) : Except Str Str :=
  let normalized := normalizePath path
  match (fs.files.find? (fun p => p.1 = normalized)).map (fun p => p.2) with
  | some content => Except.ok content
  | none => Except.error (str "File not found: " ++ path)

/-- One step of the `resolve` loop: `..` pops (a pop on an empty array is a
no-op), `.` is skipped, anything else is pushed. -/
def resolveStep (baseParts : List Str) (part : Str) : List Str :=
  if part = str ".." then baseParts.dropLast
  else if part = str "." then baseParts
  else baseParts ++ [part]

/-- `resolve(base, relative)` from src/fs/memory-fs.ts: absolute `relative`
wins; otherwise drop the filename from `base` and walk the relative
segments. -/
def MemoryFileSystem.resolve (base relative : Str) : Str :=
  if startsWith relative (str "/") then relative
  else
    let baseParts := (splitOnChar base '/').dropLast
    let relativeParts := splitOnChar relative '/'
    joinChar (relativeParts.foldl resolveStep baseParts) '/'

/-! ## Reference resolution (src/refs/resolve.ts, full version) -/

/-- Context for resolving references (`RefResolver`). -/
structure RefResolver where
  fs : MemoryFileSystem
  projectRoot : Str
  currentFile : Str

/-- Result of resolving a reference (src/refs/types.ts `ResolvedRef`).
The TypeScript field `exists` is spelled `existsF` (`exists` is reserved
in Lean); it is an `Option` so that "the field is set" is expressible:
every return site of the source sets it explicitly. -/
structure ResolvedRef where
  original : Str
  parsed : ParsedRef
  resolvedPath : Str
  existsF : Option Bool
  error : Option Str := none
  fragment : Option ENode := none
  fragments : Option (List ENode) := none
  fragmentError : Option Str := none
  fragmentWarning : Option Str := none
  requestedVersion : Option Str := none
  actualVersion : Option Str := none
  versionMismatch : Bool

/-- Outcome of the external `xpath.select` call together with the
DOM-to-`ElementNode` mapping of src/refs/xpath.ts: the call can throw, can
return a non-array value, or yields the ordered list of matched element
nodes mapped back into the tree (§6: the external XPath evaluator returns
an ordered element sequence). -/
inductive XPathSelect where
  | throws (msg : Str)
  | nonNodes
  | nodes (ns : List ENode)

/-- The external evaluator, abstracted. -/
abbrev XPathOracle := Str → ENode → XPathSelect

/-- Result of an XPath query (src/refs/xpath.ts `XPathResult`). -/
structure XPathResult where
  nodes : List ENode
  error : Option Str := none
  warning : Option Str := none

/-- `executeXPath` from src/refs/xpath.ts, with the external select call
abstracted by the oracle: a throw or a non-array result become errors, and
with `expectOne` a warning names the match count when more than one
element matched. -/
def executeXPath (oracle : XPathOracle) (expr : Str) (root : ENode)
    (expectOne : Bool) : XPathResult :=
  match oracle expr root with
  | .throws m => { nodes := [], error := some (str "XPath error: " ++ m) }
  | .nonNodes =>
    { nodes := []
      error := some (str "XPath expression \"" ++ expr ++
        str "\" did not return nodes") }
  | .nodes ns =>
    if ns.isEmpty then { nodes := [] }
    else
      { nodes := ns
        warning :=
          if expectOne && 1 < ns.length then
            some (str "XPath query \"" ++ expr ++ str "\" matched " ++
              natToStr ns.length ++ str " elements, expected 1")
          else none }

/-- `formatFragment` from src/refs/resolve.ts. -/
def formatFragment (fragment : RefFragment) : Str :=
  match fragment.type with
  | .id => str "#" ++ fragment.value
  | .query => str "#query(" ++ fragment.value ++ str ")"
  | .queryAll => str "#query-all(" ++ fragment.value ++ str ")"

/-- `resolvePath` from src/refs/resolve.ts. -/
def resolvePath (parsed : ParsedRef) (resolver : RefResolver) : Str :=
  if parsed.isAbsolute then resolver.projectRoot ++ parsed.path
  else MemoryFileSystem.resolve resolver.currentFile parsed.path

mutual
/-- `findById` from src/refs/resolve.ts: depth-first search for the first
node whose `id` attribute matches. -/
def findById : ENode → Str → Option ENode
  | ENode.mk t a cm tx mx ch l d, id =>
    if lookupAttr a (str "id") = some id then some (ENode.mk t a cm tx mx ch l d)
    else findByIdList ch id

/-- The `for (const child of node.children)` loop of `findById`. -/
def findByIdList : List ENode → Str → Option ENode
  | [], _ => none
  | n :: rest, id =>
    match findById n id with
    | some found => some found
    | none => findByIdList rest id
end

/-- `FragmentResult` from src/refs/resolve.ts. -/
structure FragmentResult where
  nodes : List ENode
  error : Option Str := none
  warning : Option Str := none

/-- `resolveFragment` from src/refs/resolve.ts. -/
def resolveFragment (oracle : XPathOracle) (fragment : RefFragment)
    (root : ENode) : FragmentResult :=
  match fragment.type with
  | .id =>
    { nodes := match findById root fragment.value with
        | some node => [node]
        | none => [] }
  | _ =>
    let expectOne := fragment.type = FragType.query
    let xpathResult := executeXPath oracle fragment.value root expectOne
    { nodes := xpathResult.nodes
      error := xpathResult.error
      warning := xpathResult.warning }

/-- `resolveRef` from src/refs/resolve.ts.  The result is wrapped in
`Except Str`: an `Except.error` would model an uncaught rejection.  The
only awaited calls are `fs.exists` (which always resolves) and the
`fs.read` / `parseXml` pair, which the source wraps in try/catch; the
definition therefore returns `Except.ok` on every path, which is the
content of the totality claim. -/
def resolveRef (oracle : XPathOracle) (ref : Str) (resolver : RefResolver) :
    Except Str ResolvedRef :=
  let parsed := parseRef ref
  let resolvedPath := resolvePath parsed resolver
  let ex := resolver.fs.existsPath resolvedPath
  if !ex then
    Except.ok
      { original := ref, parsed := parsed, resolvedPath := resolvedPath
        existsF := some false
        error := some (str "File not found: " ++ resolvedPath)
        versionMismatch := false }
  else
    -- try { read + parse } catch (e) { ... }
    let loaded : Except Str ENode :=
      match resolver.fs.read resolvedPath with
      | .error e => .error e
      | .ok content =>
        match parseXml content resolvedPath with
        | .error e => .error e.message
        | .ok node => .ok node
    match loaded with
    | .error emsg =>
      Except.ok
        { original := ref, parsed := parsed, resolvedPath := resolvedPath
          existsF := some true
          error := some (str "Failed to parse " ++ resolvedPath ++ str ": " ++ emsg)
          versionMismatch := false }
    | .ok targetNode =>
      let actualVersion := lookupAttr targetNode.attrs (str "version")
      let versionMismatch :=
        parsed.version.isSome && actualVersion.isSome &&
          parsed.version ≠ actualVersion
      -- Resolve fragment if specified
      let fr : Option ENode × Option (List ENode) × Option Str × Option Str :=
        match parsed.fragment with
        | none => (none, none, none, none)
        | some frag =>
          let fragmentResult := resolveFragment oracle frag targetNode
          let fragmentError0 := fragmentResult.error
          let fragmentWarning0 :=
            if fragmentResult.error.isSome then none else fragmentResult.warning
          if frag.type = FragType.queryAll then
            let fragments := fragmentResult.nodes
            let fragmentWarning1 :=
              if fragments.isEmpty && fragmentError0.isNone then
                some (str "No elements matched query-all: #query-all(" ++
                  frag.value ++ str ")")
              else fragmentWarning0
            (none, some fragments, fragmentError0, fragmentWarning1)
          else
            let fragment := fragmentResult.nodes.head?
            let fragmentError1 :=
              if fragment.isNone && fragmentError0.isNone then
                some (str "Fragment not found: " ++ formatFragment frag)
              else fragmentError0
            (fragment, none, fragmentError1, fragmentWarning0)
      Except.ok
        { original := ref, parsed := parsed, resolvedPath := resolvedPath
          existsF := some true
          fragment := fr.1
          fragments := fr.2.1
          fragmentError := fr.2.2.1
          fragmentWarning := fr.2.2.2
          requestedVersion := parsed.version
          actualVersion := actualVersion
          versionMismatch := versionMismatch }

/-- `resolveRefs` from src/refs/resolve.ts: parse the whitespace-separated
list and resolve each token independently. -/
def resolveRefs (oracle : XPathOracle) (refs : Str) (resolver : RefResolver) :
    Except Str (List ResolvedRef) :=
  (parseRefs refs).mapM (fun parsed => resolveRef oracle parsed.original resolver)

end Cardworks

namespace Cardworks

/-! ## Serializer (src/serialize/serialize.ts) -/

/-- Options for XML serialization (`SerializeOptions`). -/
structure SerializeOptions where
  indent : Option Str := none
  xmlDeclaration : Bool := false

/-- `escapeText`: `&`, `<`, `>` become entities (the chained global
replaces of the source, charwise). -/
def escapeText : Str → Str
  | [] => []
  | c :: rest =>
    (if c = '&' then str "&amp;"
     else if c = '<' then str "&lt;"
     else if c = '>' then str "&gt;"
     else [c]) ++ escapeText rest

/-- `escapeAttr`: like `escapeText` plus `"` becomes `&quot;`. -/
def escapeAttr : Str → Str
  | [] => []
  | c :: rest =>
    (if c = '&' then str "&amp;"
     else if c = '<' then str "&lt;"
     else if c = '>' then str "&gt;"
     else if c = '"' then str "&quot;"
     else [c]) ++ escapeAttr rest

/-- `indent.repeat(depth)`. -/
def repeatStr (s : Str) (n : Nat) : Str :=
  match n with
  | 0 => []
  | n + 1 => s ++ repeatStr s n

/-- `serializeAttrs`: `key="value"` pairs joined by single spaces. -/
def serializeAttrs (attrs : List (Str × Str)) : Str :=
  joinChar (attrs.map (fun p => p.1 ++ str "=\"" ++ escapeAttr p.2 ++ str "\"")) ' '

/-- `serializeTextContent`: single-line text is returned as is; multiline
text is re-indented one level deeper, each line escaped. -/
def serializeTextContent (text : Str) (depth : Nat) (indent : Str) : Str :=
  let lines := splitOnChar text '\n'
  match lines with
  | [_] => text
  | _ =>
    let padding := repeatStr indent (depth + 1)
    joinChar (lines.map (fun line => padding ++ escapeText line)) '\n'

/-- JavaScript truthiness of an optional string (`if (item.text)`). -/
def truthy (s : Option Str) : Bool :=
  match s with
  | some t => t ≠ []
  | none => false

mutual
/-- `serializeNode` from src/serialize/serialize.ts: append the lines of
one node (and its comments) to `lines`. -/
def serializeNode : ENode → List Str → Nat → Str → List Str
  | ENode.mk tagName attrs comments text mixed children _ _, lines, depth, indent =>
    let padding := repeatStr indent depth
    -- Add comment at start if present
    let lines :=
      match comments.start with
      | some c => lines ++ [padding ++ str "<!-- " ++ trim c ++ str " -->"]
      | none => lines
    let attrsStr := serializeAttrs attrs
    let tagOpen :=
      if attrsStr ≠ [] then str "<" ++ tagName ++ str " " ++ attrsStr
      else str "<" ++ tagName
    let hasChildren := !children.isEmpty
    let hasText := truthy text
    let hasMixedContent :=
      match mixed with
      | some m => !m.isEmpty
      | none => false
    let lines :=
      if !hasChildren && !hasText && !hasMixedContent then
        -- Self-closing tag
        lines ++ [padding ++ tagOpen ++ str "/>"]
      else if hasText && !hasChildren then
        let textContent := serializeTextContent (text.getD []) depth indent
        if textContent.contains '\n' then
          lines ++ [padding ++ tagOpen ++ str ">"] ++ [textContent] ++
            [padding ++ str "</" ++ tagName ++ str ">"]
        else
          lines ++ [padding ++ tagOpen ++ str ">" ++ escapeText textContent ++
            str "</" ++ tagName ++ str ">"]
      else if hasMixedContent then
        let mixedContent :=
          match mixed with
          | some m => serializeMixedContent m
          | none => []
        lines ++ [padding ++ tagOpen ++ str ">" ++ mixedContent ++
          str "</" ++ tagName ++ str ">"]
      else
        let lines := lines ++ [padding ++ tagOpen ++ str ">"]
        let lines := serializeChildren children lines (depth + 1) indent
        lines ++ [padding ++ str "</" ++ tagName ++ str ">"]
    -- Add comment at end if present
    match comments.endc with
    | some c => lines ++ [padding ++ str "<!-- " ++ trim c ++ str " -->"]
    | none => lines

/-- The `for (const child of node.children)` loop of `serializeNode`. -/
def serializeChildren : List ENode → List Str → Nat → Str → List Str
  | [], lines, _, _ => lines
  | child :: rest, lines, depth, indent =>
    serializeChildren rest (serializeNode child lines depth indent) depth indent

/-- `serializeMixedContent` from src/serialize/serialize.ts: inline
serialization of interleaved text, comments and elements. -/
def serializeMixedContent : List MixedItem → Str
  | [] => []
  | item :: rest =>
    (match item with
     | .str s => escapeText s
     | .comment c => str "<!-- " ++ c ++ str " -->"
     | .elem (ENode.mk tagName attrs _ text _ children _ _) =>
       let attrsStr := serializeAttrs attrs
       let tagOpen :=
         if attrsStr ≠ [] then str "<" ++ tagName ++ str " " ++ attrsStr
         else str "<" ++ tagName
       if truthy text then
         tagOpen ++ str ">" ++ escapeText (text.getD []) ++
           str "</" ++ tagName ++ str ">"
       else if !children.isEmpty then
         let childLines := serializeChildren children [] 0 []
         tagOpen ++ str ">" ++ childLines.flatten ++ str "</" ++ tagName ++ str ">"
       else
         tagOpen ++ str "/>") ++ serializeMixedContent rest
end

/-- `serialize` from src/serialize/serialize.ts. -/
def serialize (node : ENode) (options : SerializeOptions := {}) : Str :=
  let indent := options.indent.getD (str "  ")
  let lines : List Str :=
    if options.xmlDeclaration then [str "<?xml version=\"1.0\" encoding=\"UTF-8\"?>"]
    else []
  joinChar (serializeNode node lines 0 indent) '\n'

end Cardworks

namespace Cardworks

/-! ## Duplicate-id lint (src/lint/lint.ts) -/

/-- A lint issue (src/lint/lint.ts `LintIssue`). -/
structure LintIssue where
  type : Str
  severity : Str
  message : Str
  location : Option Location := none
deriving DecidableEq, Repr

/-- Collected ID information (src/lint/lint.ts `IdOccurrence`). -/
structure IdOccurrence where
  id : Str
  location : Location
deriving DecidableEq, Repr

mutual
/-- `collectIds` from src/lint/lint.ts: depth-first collection of all
(truthy) `id` attributes. -/
def collectIds : ENode → List IdOccurrence → List IdOccurrence
  | ENode.mk _ a _ _ _ ch l _, occurrences =>
    let occurrences :=
      match lookupAttr a (str "id") with
      | some id => if id ≠ [] then occurrences ++ [{ id := id, location := l }]
                   else occurrences
      | none => occurrences
    collectIdsList ch occurrences

/-- The `for (const child of node.children)` loop of `collectIds`. -/
def collectIdsList : List ENode → List IdOccurrence → List IdOccurrence
  | [], occurrences => occurrences
  | n :: rest, occurrences => collectIdsList rest (collectIds n occurrences)
end

/-- The warning message of a duplicate-id finding. -/
def dupMessage (id : Str) (line : Nat) : Str :=
  str "Duplicate id \"" ++ id ++ str "\" (first defined at line " ++
    natToStr line ++ str ")"

/-- The duplicate-detection loop of `checkDuplicateIds`: `seen` maps each
id to its first occurrence; every later occurrence warns, citing the first
occurrence's line and carrying its own location. -/
def checkDupLoop : List IdOccurrence → List (Str × IdOccurrence) →
    List LintIssue → List LintIssue
  | [], _, warnings => warnings
  | occurrence :: rest, seen, warnings =>
    match seen.find? (fun p => p.1 = occurrence.id) with
    | some existing =>
      checkDupLoop rest seen (warnings ++
        [{ type := str "id", severity := str "warning"
           message := dupMessage occurrence.id existing.2.location.startLine
           location := some occurrence.location }])
    | none => checkDupLoop rest (seen ++ [(occurrence.id, occurrence)]) warnings

/-- `checkDuplicateIds` from src/lint/lint.ts (the `warnings` array is
threaded instead of mutated). -/
def checkDuplicateIds (root : ENode) (warnings : List LintIssue) : List LintIssue :=
  checkDupLoop (collectIds root []) [] warnings

end Cardworks

namespace Cardworks

/-! ## Statement vocabulary -/

/-- The pre-fragment text of a reference: everything before the first `#`. -/
def preFragment (ref : Str) : Str :=
  match indexOfChar ref '#' with
  | some i => slice ref 0 i
  | none => ref

/-- The boundary the spec describes: the index of the *last* `@` whose
following text looks version-like. -/
def lastVersionLikeAt : Str → Option Nat
  | [] => none
  | c :: rest =>
    match lastVersionLikeAt rest with
    | some i => some (i + 1)
    | none => if c = '@' && looksLikeVersion rest then some 0 else none

/-- Extract the node of a successful parse (placeholder otherwise). -/
def okOrDummy (e : Except ParseErr ENode) : ENode :=
  match e with
  | .ok n => n
  | .error _ => ENode.mk [] [] {} none none [] (emptyLocation []) false

/-- Example project shared by several witnesses. -/
def exFiles : MemoryFileSystem :=
  { files := [
      (str "/project/cards/Main.card",
       str "<card version=\"1.0.0\"><title>Main</title></card>"),
      (str "/project/cards/Other.card",
       str "<card version=\"2.0.0\"><section id=\"intro\">Introduction</section><section id=\"body\">Body</section></card>"),
      (str "/project/cards/Multi.card",
       str "<card version=\"1.0.0\"><example>First</example><example>Second</example><example>Third</example></card>"),
      (str "/project/cards/Broken.card",
       str "<card version=")] }

/-- Example resolver context rooted at `/project`, resolving from
`Main.card`. -/
def exResolver : RefResolver :=
  { fs := exFiles, projectRoot := str "/project"
    currentFile := str "/project/cards/Main.card" }

/-- An XPath oracle with no matches. -/
def noMatchOracle : XPathOracle := fun _ _ => XPathSelect.nodes []

/-- The `ElementNode` of `<example>T</example>` as parsed. -/
def exExample (t : Str) : ENode :=
  ENode.mk (str "example") [] {} (some t) none [] (emptyLocation []) false

/-- An XPath oracle matching the three `<example>` elements of
`Multi.card` (a cooperative external evaluator). -/
def threeOracle : XPathOracle := fun _ _ =>
  XPathSelect.nodes
    [exExample (str "First"), exExample (str "Second"), exExample (str "Third")]

/-- Extract the result of a resolution that did not throw
(placeholder otherwise). -/
def okOrDummyRes (e : Except Str ResolvedRef) : ResolvedRef :=
  match e with
  | .ok r => r
  | .error _ =>
    { original := [], parsed := parseRef [], resolvedPath := []
      existsF := none, versionMismatch := false }

/-- The reference string of the query-multiplicity scenario. -/
def C5ref : Str := str "./Multi.card#query(//example)"

/-- The content of `Multi.card`. -/
def C5content : Str :=
  str "<card version=\"1.0.0\"><example>First</example><example>Second</example><example>Third</example></card>"

/-- `Multi.card` as parsed. -/
def C5target : ENode :=
  okOrDummy (parseXml C5content (resolvePath (parseRef C5ref) exResolver))

/-- The three matches the cooperative oracle returns. -/
def C5ns : List ENode :=
  [exExample (str "First"), exExample (str "Second"), exExample (str "Third")]

/-- The warning `checkDuplicateIds` emits for a duplicate occurrence
`occ` whose first occurrence is `f`. -/
def mkDupWarning (occ f : IdOccurrence) : LintIssue :=
  { type := str "id", severity := str "warning"
    message := dupMessage occ.id f.location.startLine
    location := some occ.location }

/-- First occurrence of id `v` in a list. -/
def firstOccOf (os : List IdOccurrence) (v : Str) : Option IdOccurrence :=
  os.find? (fun o => o.id = v)

/-- Specification-side description of the duplicate-id warnings: walk the
occurrence list keeping the prefix already seen; every occurrence with an
earlier same-id occurrence warns, citing the first one. -/
def dupWarningsSpecAux : List IdOccurrence → List IdOccurrence → List LintIssue
  | [], _ => []
  | occ :: rest, seenPrefix =>
    (match firstOccOf seenPrefix occ.id with
     | some f => [mkDupWarning occ f]
     | none => []) ++ dupWarningsSpecAux rest (seenPrefix ++ [occ])

/-- Specification-side description of all duplicate-id warnings of an
occurrence list. -/
def dupWarningsSpec (os : List IdOccurrence) : List LintIssue :=
  dupWarningsSpecAux os []

/-- Invariant tying the seen map of `checkDupLoop` to the processed
prefix. -/
def SeenInv (S : List (Str × IdOccurrence)) (P : List IdOccurrence) : Prop :=
  ∀ v, S.find? (fun p => p.1 = v) = (firstOccOf P v).map (fun f => (f.id, f))

mutual
/-- Number of nodes in the tree whose `id` attribute equals `v`. -/
def countIdIn : ENode → Str → Nat
  | ENode.mk _ a _ _ _ ch _ _, v =>
    (if lookupAttr a (str "id") = some v then 1 else 0) + countIdInList ch v

/-- `countIdIn` over a forest. -/
def countIdInList : List ENode → Str → Nat
  | [], _ => 0
  | n :: rest, v => countIdIn n v + countIdInList rest v
end

/-- A leaf with the *empty* id attribute value. -/
def C8emptyIdLeaf : ENode :=
  ENode.mk (str "a") [(str "id", str "")] {} none none [] (emptyLocation []) false

/-- A card with two occurrences of the empty id attribute value. -/
def C8emptyIdTree : ENode :=
  ENode.mk (str "r") [] {} none none [C8emptyIdLeaf, C8emptyIdLeaf]
    (emptyLocation []) false

/-- Location on line `n` of the witness card. -/
def C8loc (n : Nat) : Location :=
  { source := str "t", startLine := n, startColumn := 1, endLine := n, endColumn := 1 }

/-- A node with `id="x"` at line `n`. -/
def C8node (n : Nat) : ENode :=
  ENode.mk (str "s") [(str "id", str "x")] {} none none [] (C8loc n) false

/-- A card with three occurrences of `id="x"` at lines 2, 5 and 9. -/
def C8tree : ENode :=
  ENode.mk (str "r") [] {} none none [C8node 2, C8node 5, C8node 9]
    (emptyLocation (str "t")) false

/-- The id occurrence of `id="x"` at line `n`. -/
def C8occ (n : Nat) : IdOccurrence := { id := str "x", location := C8loc n }

/-! ## Move (spec-modelled)

Modelled from the spec: the move-and-rewrite operation (`move`) of §4.3 is
not present under src/ — only its tests (`loader.test.ts`) and the spec
describe it.  Cards are modelled at the tree level: a project file either
parses to an `ENode` (a card) or carries no tree (attached media, or an
unparseable card, which the scan skips best-effort).  The path helpers
`dirname`/`basename`/`extname`/`basenameWithoutExt` are from
src/card/card.ts. -/

/-- `dirname` from src/card/card.ts. -/
def dirname (path : Str) : Str :=
  match lastIndexOfChar path '/' with
  | none => str "."
  | some lastSlash => slice path 0 lastSlash

/-- `basename` from src/card/card.ts. -/
def basename (path : Str) : Str :=
  match lastIndexOfChar path '/' with
  | none => path
  | some lastSlash => sliceFrom path (lastSlash + 1)

/-- `extname` from src/card/card.ts (includes the dot). -/
def extname (filename : Str) : Str :=
  match lastIndexOfChar filename '.' with
  | none => []
  | some lastDot => sliceFrom filename lastDot

/-- `basenameWithoutExt` from src/card/card.ts. -/
def basenameWithoutExt (filename : Str) : Str :=
  match lastIndexOfChar filename '.' with
  | none => filename
  | some lastDot => slice filename 0 lastDot

/-- Well-formed absolute path: a leading `/`, then at least one segment,
every segment nonempty and none equal to `.` or `..`. -/
def wfPath (p : Str) : Bool :=
  match splitOnChar p '/' with
  | [] => false
  | s0 :: segs =>
    s0 = [] && !segs.isEmpty &&
      segs.all (fun s => !s.isEmpty && s ≠ str "." && s ≠ str "..")

/-- Strip the common prefix of two segment lists; returns how many
segments of the first remain (to climb out of) and the remaining segments
of the second (to descend into). -/
def relSegments : List Str → List Str → Nat × List Str
  | d :: ds, t :: ts =>
    if d = t then relSegments ds ts else ((d :: ds).length, t :: ts)
  | [], ts => (0, ts)
  | ds, [] => (ds.length, [])

/-- Modelled from the spec (§4.3 c): "recompute a new relative path from
the referencing card's directory" — the directory of `fromFile` is its
segment list without the final (file) segment; the result climbs with
`..` segments or starts with `.`. -/
def mkRelative (fromFile target : Str) : Str :=
  let r := relSegments ((splitOnChar fromFile '/').dropLast) (splitOnChar target '/')
  if r.1 = 0 then joinChar (str "." :: r.2) '/'
  else joinChar (List.replicate r.1 (str "..") ++ r.2) '/'

/-- The resolved target of one reference token occurring in the card at
`cardPath` (§4.2 step 1, shared with `resolveRef` via `resolvePath`). -/
def resolveTokenTarget (projectRoot cardPath token : Str) : Str :=
  resolvePath (parseRef token)
    { fs := { files := [] }, projectRoot := projectRoot, currentFile := cardPath }

/-- Rebuild a token from a new path part, preserving the original
version/fragment suffix verbatim (§4.3 c). -/
def rebuildToken (parsed : ParsedRef) (newPathPart : Str) : Str :=
  newPathPart ++ sliceFrom parsed.original parsed.path.length

/-- Rewrite one token if its resolved target is the old path; returns the
(possibly unchanged) token and whether it changed. -/
def rewriteToken (projectRoot cardPath oldPath newPath token : Str) : Str × Bool :=
  if resolveTokenTarget projectRoot cardPath token = oldPath then
    (rebuildToken (parseRef token) (mkRelative cardPath newPath), true)
  else (token, false)

/-- Update an attribute value in place (JavaScript object-key update:
order preserved). -/
def setAttr (attrs : List (Str × Str)) (name newVal : Str) : List (Str × Str) :=
  attrs.map (fun p => if p.1 = name then (p.1, newVal) else p)

/-- Rewrite the `ref` and `refs` attributes of one attribute list;
returns the new attribute list and the number of tokens rewritten. -/
def rewriteAttrs (projectRoot cardPath oldPath newPath : Str)
    (attrs : List (Str × Str)) : List (Str × Str) × Nat :=
  let refStep : List (Str × Str) × Nat :=
    match lookupAttr attrs (str "ref") with
    | some token =>
      let r := rewriteToken projectRoot cardPath oldPath newPath token
      if r.2 then (setAttr attrs (str "ref") r.1, 1) else (attrs, 0)
    | none => (attrs, 0)
  match lookupAttr refStep.1 (str "refs") with
  | some refsVal =>
    let results := (splitWs refsVal).map
      (fun token => rewriteToken projectRoot cardPath oldPath newPath token)
    let changed := (results.filter (fun r => r.2)).length
    if changed ≠ 0 then
      (setAttr refStep.1 (str "refs") (joinChar (results.map (fun r => r.1)) ' '),
        refStep.2 + changed)
    else (refStep.1, refStep.2)
  | none => refStep

mutual
/-- Rewrite every `ref`/`refs` token in a card tree whose resolved target
is the old path (§4.3 c); returns the new tree and the rewrite count. -/
def rewriteNode (projectRoot cardPath oldPath newPath : Str) :
    ENode → ENode × Nat
  | ENode.mk t a cm tx mx ch l d =>
    let ra := rewriteAttrs projectRoot cardPath oldPath newPath a
    let rch := rewriteNodeList projectRoot cardPath oldPath newPath ch
    (ENode.mk t ra.1 cm tx mx rch.1 l d, ra.2 + rch.2)

/-- `rewriteNode` over the children list. -/
def rewriteNodeList (projectRoot cardPath oldPath newPath : Str) :
    List ENode → List ENode × Nat
  | [] => ([], 0)
  | n :: rest =>
    let rn := rewriteNode projectRoot cardPath oldPath newPath n
    let rrest := rewriteNodeList projectRoot cardPath oldPath newPath rest
    (rn.1 :: rrest.1, rn.2 + rrest.2)
end

mutual
/-- All `ref`/`refs` tokens of a card tree, in document order (§4.3
Outgoing: the `ref` attribute yields one token, `refs` one per
whitespace-separated token; recurse into children). -/
def nodeTokens : ENode → List Str
  | ENode.mk _ a _ _ _ ch _ _ =>
    (match lookupAttr a (str "ref") with
     | some token => [token]
     | none => []) ++
    (match lookupAttr a (str "refs") with
     | some refsVal => splitWs refsVal
     | none => []) ++
    nodeTokensList ch

/-- `nodeTokens` over the children list. -/
def nodeTokensList : List ENode → List Str
  | [] => []
  | n :: rest => nodeTokens n ++ nodeTokensList rest
end

/-- A project file as the move model sees it: a parsed card tree, or no
tree for non-card files and unparseable cards. -/
structure ProjectFile where
  path : Str
  tree : Option ENode

/-- A project: its files and the project root. -/
structure Project where
  projectRoot : Str
  files : List ProjectFile

/-- One renamed file of a `MoveResult`. -/
structure MovedFile where
  fromPath : Str
  toPath : Str

/-- One updated card of a `MoveResult`. -/
structure UpdatedCard where
  path : Str
  refsUpdated : Nat

/-- Result of a move (§3 `MoveResult`). -/
structure MoveResult where
  movedFiles : List MovedFile
  updatedCards : List UpdatedCard

/-- The new path of a sibling file: the new basename with the sibling's
original extension, in the new directory (§4.3 b). -/
def siblingNewPath (newPath sibling : Str) : Str :=
  dirname newPath ++ str "/" ++ basenameWithoutExt (basename newPath) ++
    extname (basename sibling)

/-- Is `f` a sibling of the old card: same directory, same basename,
different extension (§4.3 b)? -/
def isSibling (oldPath : Str) (f : ProjectFile) : Bool :=
  f.path ≠ oldPath && dirname f.path = dirname oldPath &&
    basenameWithoutExt (basename f.path) = basenameWithoutExt (basename oldPath) &&
    extname (basename f.path) ≠ extname (basename oldPath)

/-- Modelled from the spec (§4.3 Move): reject an extension change;
stage the card and its siblings for rename; rewrite, in every *other*
card, each token whose resolved target equals the old path, preserving
the version/fragment suffix verbatim; report only cards whose token count
changed; then perform the renames. -/
def move (proj : Project) (oldPath newPath : Str) :
    Except Str (MoveResult × Project) :=
  if extname (basename oldPath) ≠ extname (basename newPath) then
    Except.error (str "Cannot change extension")
  else if !(proj.files.any (fun f => f.path = oldPath)) then
    Except.error (str "Source missing")
  else
    let siblings := proj.files.filter (isSibling oldPath)
    -- c. rewrite referencing cards before any rename
    let rewritten : List (ProjectFile × Nat) := proj.files.map (fun f =>
      if f.path = oldPath then (f, 0)
      else match f.tree with
        | some tree =>
          let r := rewriteNode proj.projectRoot f.path oldPath newPath tree
          ({ f with tree := some r.1 }, r.2)
        | none => (f, 0))
    let updatedCards := rewritten.filterMap (fun fn =>
      if fn.2 ≠ 0 then some { path := fn.1.path, refsUpdated := fn.2 } else none)
    -- d. physical renames last
    let movedFiles := { fromPath := oldPath, toPath := newPath } ::
      siblings.map (fun sib =>
        { fromPath := sib.path, toPath := siblingNewPath newPath sib.path })
    let finalFiles := rewritten.map (fun fn =>
      if fn.1.path = oldPath then { fn.1 with path := newPath }
      else if isSibling oldPath fn.1 then
        { fn.1 with path := siblingNewPath newPath fn.1.path }
      else fn.1)
    Except.ok ({ movedFiles := movedFiles, updatedCards := updatedCards },
      { proj with files := finalFiles })

/-- All `(cardPath, token)` pairs of a project, each card's tokens in
document order. -/
def projTokens (proj : Project) : List (Str × Str) :=
  proj.files.flatMap (fun f =>
    match f.tree with
    | some tree => (nodeTokens tree).map (fun tok => (f.path, tok))
    | none => [])

/-- Helper definitions for reasoning about `rewriteAttrs`: the `ref`
attribute's token list, the `refs` attribute's token list, and one
attribute list's combined tokens. -/
def refTokens (attrs : List (Str × Str)) : List Str :=
  match lookupAttr attrs (str "ref") with
  | some token => [token]
  | none => []

def refsTokens (attrs : List (Str × Str)) : List Str :=
  match lookupAttr attrs (str "refs") with
  | some refsVal => splitWs refsVal
  | none => []

def attrsTokens (attrs : List (Str × Str)) : List Str :=
  refTokens attrs ++ refsTokens attrs

/-- The `ref` stage of `rewriteAttrs`, factored out. -/
def refStepF (root cp old new : Str) (attrs : List (Str × Str)) :
    List (Str × Str) × Nat :=
  match lookupAttr attrs (str "ref") with
  | some token =>
    if (rewriteToken root cp old new token).2 then
      (setAttr attrs (str "ref") (rewriteToken root cp old new token).1, 1)
    else (attrs, 0)
  | none => (attrs, 0)

/-- The `refs` stage of `rewriteAttrs`, factored out. -/
def refsStepF (root cp old new : Str) (p : List (Str × Str) × Nat) :
    List (Str × Str) × Nat :=
  match lookupAttr p.1 (str "refs") with
  | some refsVal =>
    if ((((splitWs refsVal).map
        (fun token => rewriteToken root cp old new token)).filter
          (fun r => r.2)).length) ≠ 0 then
      (setAttr p.1 (str "refs")
        (joinChar (((splitWs refsVal).map
          (fun token => rewriteToken root cp old new token)).map
            (fun r => r.1)) ' '),
        p.2 + ((((splitWs refsVal).map
          (fun token => rewriteToken root cp old new token)).filter
            (fun r => r.2)).length))
    else (p.1, p.2)
  | none => p


/-- The per-file rewrite step of `move` (stage c), factored out. -/
def moveRewriteF (root oldPath newPath : Str) (f : ProjectFile) :
    ProjectFile × Nat :=
  if f.path = oldPath then (f, 0)
  else match f.tree with
    | some tree =>
      ({ f with tree := some (rewriteNode root f.path oldPath newPath tree).1 },
        (rewriteNode root f.path oldPath newPath tree).2)
    | none => (f, 0)

/-- The per-file rename step of `move` (stage d), factored out. -/
def moveRenameF (oldPath newPath : Str) (fn : ProjectFile × Nat) : ProjectFile :=
  if fn.1.path = oldPath then { fn.1 with path := newPath }
  else if isSibling oldPath fn.1 then
    { fn.1 with path := siblingNewPath newPath fn.1.path }
  else fn.1

/-- What `move` does to one file, stated directly: the moved card is
renamed, siblings are renamed, every other card has its matching tokens
rewritten. -/
def moveFileSpec (root oldPath newPath : Str) (f : ProjectFile) : ProjectFile :=
  if f.path = oldPath then { path := newPath, tree := f.tree }
  else if isSibling oldPath f then
    { path := siblingNewPath newPath f.path, tree := f.tree }
  else
    { path := f.path,
      tree := f.tree.map (fun tr => (rewriteNode root f.path oldPath newPath tr).1) }

/-- The updated-cards report, stated directly: every card other than the
moved one whose token count against the old path is nonzero, with that
count. -/
def updatedCardsSpec (root oldPath newPath : Str) (files : List ProjectFile) :
    List UpdatedCard :=
  files.filterMap (fun f =>
    if f.path = oldPath then none
    else match f.tree with
      | some tr =>
        if ((nodeTokens tr).filter
            (fun t => decide (resolveTokenTarget root f.path t = oldPath))).length ≠ 0 then
          some (UpdatedCard.mk f.path ((nodeTokens tr).filter
            (fun t => decide (resolveTokenTarget root f.path t = oldPath))).length)
        else none
      | none => none)


/-- The self-referencing card of the C4 counterexample. -/
def C4selfNode : ENode :=
  ENode.mk (str "card") [(str "ref", str "./A.card")] {} none none []
    (emptyLocation (str "/p/A.card")) false

/-- A one-card project whose only card references itself. -/
def C4selfProj : Project :=
  Project.mk (str "/p") [ProjectFile.mk (str "/p/A.card") (some C4selfNode)]

/-- Extract a successful move result (placeholder otherwise). -/
def okOrDummyMove (e : Except Str (MoveResult × Project)) :
    MoveResult × Project :=
  match e with
  | .ok r => r
  | .error _ => (MoveResult.mk [] [], Project.mk [] [])

/-- Cards of the C4 witness project. -/
def C4aTree : ENode :=
  ENode.mk (str "card")
    [(str "ref", str "./B.card"),
      (str "refs", str "./B.card@1.0 ./C.card#frag")] {} none none []
    (emptyLocation (str "/p/A.card")) false

def C4bTree : ENode :=
  ENode.mk (str "card") [] {} none none []
    (emptyLocation (str "/p/B.card")) false

/-- The C4 witness project: `A.card` references `B.card` three ways. -/
def C4exProj : Project :=
  Project.mk (str "/p")
    [ProjectFile.mk (str "/p/A.card") (some C4aTree),
      ProjectFile.mk (str "/p/B.card") (some C4bTree)]

/-- Source name of the C1 scenario. -/
def C1src : Str := str "test.card"

/-- A parseable document whose second-level element interleaves text and
a comment: true mixed content nested inside mixed content. -/
def C1badX : Str :=
  str "<card version=\"1.0.0\">lead <e>text <!-- c --> more</e> tail</card>"

/-- The fragment-kind structure of a node's mixed content: `0` for a
text fragment, `1` for a comment, `2` for an element item. -/
def fragKinds (m : Option (List MixedItem)) : Option (List Nat) :=
  m.map (List.map (fun i => match i with
    | .str _ => 0 | .comment _ => 1 | .elem _ => 2))

/-- First element of a children list (placeholder otherwise). -/
def headOrDummy (l : List ENode) : ENode :=
  match l with
  | n :: _ => n
  | [] => ENode.mk [] [] {} none none [] (emptyLocation []) false

/-- A usable tag or attribute name: nonempty, all name characters. -/
def isName (s : Str) : Bool := !s.isEmpty && s.all (fun c => isNameChar c)

/-- Well-formed attribute list: every name a name, names distinct. -/
def attrNamesOk : List (Str × Str) → Bool
  | [] => true
  | (n, _) :: rest =>
    isName n && !(rest.any (fun p => p.1 = n)) && attrNamesOk rest

/-- Dedent-normal text: nonempty, trimmed, every line end-trimmed. -/
def normalText (t : Str) : Bool :=
  !t.isEmpty && decide (trim t = t) &&
    (splitOnChar t '\n').all (fun l => decide (trimEnd l = l))

/-- Is an optional field absent? -/
def optNone {α : Type} : Option α → Bool
  | none => true
  | some _ => false

/-- A pure node's text field: absent, or dedent-normal scalar content of
a leaf. -/
def textOk (tx : Option Str) (ch : List ENode) : Bool :=
  match tx with
  | none => true
  | some s => normalText s && ch.isEmpty

mutual
/-- The pure fragment of parse outputs: no comments, no mixed content,
name-shaped tags and attributes, dedent-normal text, default location,
clean. -/
def wfPure : ENode → Bool
  | ENode.mk t a cm tx mx ch l d =>
    isName t && attrNamesOk a && optNone cm.start && optNone cm.endc &&
    optNone mx && textOk tx ch && decide (l = emptyLocation []) && !d &&
    wfPureList ch

def wfPureList : List ENode → Bool
  | [] => true
  | n :: rest => wfPure n && wfPureList rest
end

/-- The remaining input of a start tag after the tag name: a space and
the serialized attributes if there are any, then `r`. -/
def attrsTail (attrs : List (Str × Str)) (r : Str) : Str :=
  match attrs with
  | [] => r
  | _ => str " " ++ serializeAttrs attrs ++ r

/-- The open tag text of a node. -/
def tagOpenStr (t : Str) (a : List (Str × Str)) : Str :=
  if serializeAttrs a ≠ [] then str "<" ++ t ++ str " " ++ serializeAttrs a
  else str "<" ++ t

/-- A usable serializer indent for round-tripping: nonempty and all
plain blanks. -/
def indentOk (ind : Str) : Bool :=
  !ind.isEmpty && ind.all (fun c => c = ' ' || c = '\t')

mutual
/-- Fuel sufficient for `parseElement` on the serialization of a pure
node. -/
def needE : ENode → Nat
  | ENode.mk _ _ _ _ _ ch _ _ => 1 + needSeq ch

/-- Fuel sufficient for `parseContentList` on a serialized pure child
block followed by the closing tag. -/
def needSeq : List ENode → Nat
  | [] => 2
  | c :: rest => 2 + max (needE c) (needSeq rest)
end

mutual
/-- The DOM tree that reparsing the serialization of a pure node
produces. -/
def toDom (d : Nat) (ind : Str) : ENode → Dom
  | ENode.mk t a _ tx _ ch _ _ =>
    if (!(!ch.isEmpty) && !truthy tx && !false) = true then
      Dom.element t a []
    else if (truthy tx && !(!ch.isEmpty)) = true then
      if (serializeTextContent (tx.getD []) d ind).contains '\n' = true then
        Dom.element t a [Dom.text ('\n' :: (joinChar
          ((splitOnChar (tx.getD []) '\n').map
            (fun l => repeatStr ind (d + 1) ++ l)) '\n' ++
          '\n' :: repeatStr ind d))]
      else Dom.element t a [Dom.text (tx.getD [])]
    else Dom.element t a (toDomList (d + 1) ind (repeatStr ind d) ch)

/-- The interleaved whitespace/element DOM child list of the reparse;
`w` is the final closing-tag indent. -/
def toDomList (d : Nat) (ind : Str) (w : Str) : List ENode → List Dom
  | [] => [Dom.text ('\n' :: w)]
  | c :: rest => Dom.text ('\n' :: repeatStr ind d) :: toDom d ind c ::
      toDomList d ind w rest
end

mutual
/-- Headless serialized form of a pure nodeset: the serialization with
the leading indent of the first line removed. -/
def hsE (d : Nat) (ind : Str) : ENode → Str
  | ENode.mk t a _ tx _ ch _ _ =>
    if (!(!ch.isEmpty) && !truthy tx && !false) = true then
      tagOpenStr t a ++ str "/>"
    else if (truthy tx && !(!ch.isEmpty)) = true then
      if (serializeTextContent (tx.getD []) d ind).contains '\n' = true then
        tagOpenStr t a ++ str ">" ++
          '\n' :: (serializeTextContent (tx.getD []) d ind ++
            '\n' :: (repeatStr ind d ++ str "</" ++ t ++ str ">"))
      else
        tagOpenStr t a ++ str ">" ++
          escapeText (serializeTextContent (tx.getD []) d ind) ++
          str "</" ++ t ++ str ">"
    else
      tagOpenStr t a ++ str ">" ++
        '\n' :: (hsL (d + 1) ind ch ++
          '\n' :: (repeatStr ind d ++ str "</" ++ t ++ str ">"))

/-- Headless serialized child block: indented children joined by
newlines. -/
def hsL (d : Nat) (ind : Str) : List ENode → Str
  | [] => []
  | [c] => repeatStr ind d ++ hsE d ind c
  | c :: rest => repeatStr ind d ++ hsE d ind c ++ '\n' :: hsL d ind rest
end

/-- Concrete parse input for the C1 witness: a version attribute, a
single-line text child, a multiline text child, and a self-closing
child. -/
def C1X : Str := str "<card version=\"1.0.0\">\n  <title>Hello</title>\n  <body>line one\nsecond line</body>\n  <empty/>\n</card>"

/-- The C1 witness document: the parse of `C1X`. -/
def C1D : ENode := okOrDummy (parseXml C1X [])


end Cardworks

-- ######################################## Theorems ########################################

namespace Cardworks

theorem parseRef_version (ref : Str) :
    (parseRef ref).version =
      (match lastIndexOfChar (preFragment ref) '@' with
       | some i =>
         if looksLikeVersion (sliceFrom (preFragment ref) (i + 1)) then
           some (sliceFrom (preFragment ref) (i + 1))
         else none
       | none => none) := by
  unfold parseRef preFragment
  cases h1 : indexOfChar ref '#' with
  | none =>
    simp only [h1]
    cases h2 : lastIndexOfChar ref '@' with
    | none => simp [h2]
    | some i =>
      simp only [h2]
      by_cases h3 : looksLikeVersion (sliceFrom ref (i + 1)) = true <;> simp [h3]
  | some j =>
    simp only [h1]
    cases h2 : lastIndexOfChar (slice ref 0 j) '@' with
    | none => simp [h2]
    | some i =>
      simp only [h2]
      by_cases h3 : looksLikeVersion (sliceFrom (slice ref 0 j) (i + 1)) = true <;> simp [h3]

theorem parseRef_path (ref : Str) :
    (parseRef ref).path =
      (match lastIndexOfChar (preFragment ref) '@' with
       | some i =>
         if looksLikeVersion (sliceFrom (preFragment ref) (i + 1)) then
           slice (preFragment ref) 0 i
         else preFragment ref
       | none => preFragment ref) := by
  unfold parseRef preFragment
  cases h1 : indexOfChar ref '#' with
  | none =>
    simp only [h1]
    cases h2 : lastIndexOfChar ref '@' with
    | none => simp [h2]
    | some i =>
      simp only [h2]
      by_cases h3 : looksLikeVersion (sliceFrom ref (i + 1)) = true <;> simp [h3]
  | some j =>
    simp only [h1]
    cases h2 : lastIndexOfChar (slice ref 0 j) '@' with
    | none => simp [h2]
    | some i =>
      simp only [h2]
      by_cases h3 : looksLikeVersion (sliceFrom (slice ref 0 j) (i + 1)) = true <;> simp [h3]

/-- C7 counterexample.  In `a@1.0@b` the last `@` whose following character
looks version-like is the one at index 1 (followed by `1.0@b`), so the
claim requires `version = "1.0@b"` and `path = "a"`.  The code inspects
only the very last `@` (followed by `b`, not version-like) and therefore
returns no version at all, keeping every `@` in the path. -/
theorem C7_counterexample :
    lastVersionLikeAt (preFragment (str "a@1.0@b")) = some 1 ∧
    sliceFrom (preFragment (str "a@1.0@b")) 2 = str "1.0@b" ∧
    (parseRef (str "a@1.0@b")).version = none ∧
    (parseRef (str "a@1.0@b")).path = str "a@1.0@b" := by
  refine ⟨?_, ?_, ?_, ?_⟩ <;> decide

/-- C7 (amended): `parseRef` places the version boundary at the very last
`@` of the pre-fragment text, and only if the character following *that*
`@` looks version-like (starts with a digit, or `v` followed by a digit);
the text after it becomes the version and the text before it the path.
Otherwise — even when an earlier `@` is followed by version-like text —
there is no version, and the whole pre-fragment text is the path. -/
theorem C7_amended_theorem (ref : Str) :
    (match lastIndexOfChar (preFragment ref) '@' with
     | some i =>
       if looksLikeVersion (sliceFrom (preFragment ref) (i + 1)) then
         (parseRef ref).version = some (sliceFrom (preFragment ref) (i + 1)) ∧
         (parseRef ref).path = slice (preFragment ref) 0 i
       else
         (parseRef ref).version = none ∧ (parseRef ref).path = preFragment ref
     | none =>
       (parseRef ref).version = none ∧ (parseRef ref).path = preFragment ref) := by
  rw [parseRef_version, parseRef_path]
  cases h2 : lastIndexOfChar (preFragment ref) '@' with
  | none => exact ⟨rfl, rfl⟩
  | some i =>
    by_cases h3 : looksLikeVersion (sliceFrom (preFragment ref) (i + 1)) = true <;>
      simp [h3]

/-- C6: the reference grammar claims `path#query-all(EXPR)` parses to a
fragment of kind `query-all` with value `EXPR` and resolves to the full
match list, but `parseFragment` has no `query-all(` case: the fragment is
parsed as an *id* whose value is the literal text `query-all(//example)`,
and resolution (even with a cooperative XPath evaluator) produces no
`fragments` list but a `Fragment not found` error — contradicting the
repository's own tests (`refs.test.ts`, "parseRef: path with query-all
fragment" and "#query-all() returns multiple elements"). -/
theorem C6_code_bug :
    (parseRef (str "./Multi.card#query-all(//example)")).fragment =
      some { type := FragType.id, value := str "query-all(//example)" } ∧
    (resolveRef threeOracle (str "./Multi.card#query-all(//example)")
        exResolver).map (fun r => r.fragments.isNone) = Except.ok true ∧
    (resolveRef threeOracle (str "./Multi.card#query-all(//example)")
        exResolver).map ResolvedRef.fragmentError =
      Except.ok (some (str "Fragment not found: #query-all(//example)")) := by
  refine ⟨by decide, by rfl, by rfl⟩

end Cardworks

namespace Cardworks

/-- C2: for every reference string and resolver context, `resolveRef`
returns (it never throws: the modelled `Except` is always `ok`) and the
returned result has its `exists` field set on every return path. -/
theorem C2_resolution_totality (oracle : XPathOracle) (ref : Str)
    (resolver : RefResolver) :
    ∃ r, resolveRef oracle ref resolver = Except.ok r ∧ r.existsF.isSome = true := by
  unfold resolveRef
  by_cases hex : resolver.fs.existsPath (resolvePath (parseRef ref) resolver) = true
  · simp only [hex, Bool.not_true, Bool.false_eq_true, if_false]
    cases hread : resolver.fs.read (resolvePath (parseRef ref) resolver) with
    | error e => exact ⟨_, rfl, rfl⟩
    | ok content =>
      simp only [hread]
      cases hparse : parseXml content (resolvePath (parseRef ref) resolver) with
      | error e => simp only [hparse]; exact ⟨_, rfl, rfl⟩
      | ok node => simp only [hparse]; exact ⟨_, rfl, rfl⟩
  · simp only [Bool.not_eq_true] at hex
    simp only [hex, Bool.not_false, if_true]
    exact ⟨_, rfl, rfl⟩

/-- C3: for every resolved reference, `versionMismatch` is true iff both
`requestedVersion` and `actualVersion` are present and differ as exact
strings; if either side is absent it is false. -/
theorem C3_version_mismatch_law (oracle : XPathOracle) (ref : Str)
    (resolver : RefResolver) (r : ResolvedRef)
    (h : resolveRef oracle ref resolver = Except.ok r) :
    r.versionMismatch = true ↔
      r.requestedVersion.isSome = true ∧ r.actualVersion.isSome = true ∧
        r.requestedVersion ≠ r.actualVersion := by
  unfold resolveRef at h
  by_cases hex : resolver.fs.existsPath (resolvePath (parseRef ref) resolver) = true
  · simp only [hex, Bool.not_true, Bool.false_eq_true, if_false] at h
    cases hread : resolver.fs.read (resolvePath (parseRef ref) resolver) with
    | error e =>
      simp only [hread] at h
      cases h
      simp
    | ok content =>
      simp only [hread] at h
      cases hparse : parseXml content (resolvePath (parseRef ref) resolver) with
      | error e =>
        simp only [hparse] at h
        cases h
        simp
      | ok node =>
        simp only [hparse] at h
        cases h
        constructor
        · intro hm
          simp only [Bool.and_eq_true, decide_eq_true_eq] at hm
          exact ⟨hm.1.1, hm.1.2, hm.2⟩
        · intro ⟨h1, h2, h3⟩
          simp only [Bool.and_eq_true, decide_eq_true_eq]
          exact ⟨⟨h1, h2⟩, h3⟩
  · simp only [Bool.not_eq_true] at hex
    simp only [hex, Bool.not_false, if_true] at h
    cases h
    simp

/-- Witness for C3 at the spec's own scenario: `Main.card` references
`./Other.card@1.0.0` while `Other.card` is at `2.0.0`. -/
theorem C3_version_mismatch_law_witness :
    resolveRef noMatchOracle (str "./Other.card@1.0.0") exResolver =
      Except.ok (okOrDummyRes (resolveRef noMatchOracle (str "./Other.card@1.0.0") exResolver)) ∧
    ((okOrDummyRes (resolveRef noMatchOracle (str "./Other.card@1.0.0") exResolver)).versionMismatch = true ↔
      (okOrDummyRes (resolveRef noMatchOracle (str "./Other.card@1.0.0") exResolver)).requestedVersion.isSome = true ∧
      (okOrDummyRes (resolveRef noMatchOracle (str "./Other.card@1.0.0") exResolver)).actualVersion.isSome = true ∧
      (okOrDummyRes (resolveRef noMatchOracle (str "./Other.card@1.0.0") exResolver)).requestedVersion ≠
        (okOrDummyRes (resolveRef noMatchOracle (str "./Other.card@1.0.0") exResolver)).actualVersion) :=
  ⟨rfl, C3_version_mismatch_law noMatchOracle (str "./Other.card@1.0.0") exResolver _ rfl⟩

end Cardworks

namespace Cardworks

/-- C10: when the resolved target exists but its content fails to parse,
`resolveRef` returns (rather than throws) a result with `exists = true`,
an error message describing the parse failure, `versionMismatch = false`,
and no version or fragment fields. -/
theorem C10_parse_failure_result (oracle : XPathOracle) (ref : Str)
    (resolver : RefResolver) (content : Str) (perr : ParseErr)
    (hex : resolver.fs.existsPath (resolvePath (parseRef ref) resolver) = true)
    (hread : resolver.fs.read (resolvePath (parseRef ref) resolver) =
      Except.ok content)
    (hparse : parseXml content (resolvePath (parseRef ref) resolver) =
      Except.error perr) :
    resolveRef oracle ref resolver = Except.ok
      { original := ref, parsed := parseRef ref
        resolvedPath := resolvePath (parseRef ref) resolver
        existsF := some true
        error := some (str "Failed to parse " ++
          resolvePath (parseRef ref) resolver ++ str ": " ++ perr.message)
        fragment := none, fragments := none
        fragmentError := none, fragmentWarning := none
        requestedVersion := none, actualVersion := none
        versionMismatch := false } := by
  unfold resolveRef
  simp only [hex, Bool.not_true, Bool.false_eq_true, if_false, hread, hparse]

/-- Witness for C10: `Broken.card` exists but holds the unfinished markup
`<card version=`. -/
theorem C10_parse_failure_result_witness :
    exFiles.existsPath (resolvePath (parseRef (str "./Broken.card")) exResolver) = true ∧
    exFiles.read (resolvePath (parseRef (str "./Broken.card")) exResolver) =
      Except.ok (str "<card version=") ∧
    parseXml (str "<card version=")
        (resolvePath (parseRef (str "./Broken.card")) exResolver) =
      Except.error { message := str "/project/cards/Broken.card: parse error" } ∧
    resolveRef noMatchOracle (str "./Broken.card") exResolver = Except.ok
      { original := str "./Broken.card"
        parsed := parseRef (str "./Broken.card")
        resolvedPath := resolvePath (parseRef (str "./Broken.card")) exResolver
        existsF := some true
        error := some (str "Failed to parse " ++
          resolvePath (parseRef (str "./Broken.card")) exResolver ++ str ": " ++
          ParseErr.message { message := str "/project/cards/Broken.card: parse error" })
        fragment := none, fragments := none
        fragmentError := none, fragmentWarning := none
        requestedVersion := none, actualVersion := none
        versionMismatch := false } :=
  ⟨rfl, rfl, rfl,
    C10_parse_failure_result noMatchOracle (str "./Broken.card") exResolver
      (str "<card version=") { message := str "/project/cards/Broken.card: parse error" }
      rfl rfl rfl⟩

end Cardworks

namespace Cardworks

/-- C5: for a `#query(EXPR)` fragment against an existing, parseable
target, with the external evaluator returning the match list `ns`:
the first match (if any) becomes `fragment`; zero matches yield the
`Fragment not found` fragment error; more than one match additionally
sets a `fragmentWarning` naming the match count. -/
theorem C5_query_multiplicity (oracle : XPathOracle) (ref : Str)
    (resolver : RefResolver) (expr : Str) (ns : List ENode) (target : ENode)
    (content : Str)
    (hfrag : (parseRef ref).fragment = some { type := FragType.query, value := expr })
    (hex : resolver.fs.existsPath (resolvePath (parseRef ref) resolver) = true)
    (hread : resolver.fs.read (resolvePath (parseRef ref) resolver) = Except.ok content)
    (hparse : parseXml content (resolvePath (parseRef ref) resolver) = Except.ok target)
    (horacle : oracle expr target = XPathSelect.nodes ns) :
    (resolveRef oracle ref resolver).map ResolvedRef.fragment = Except.ok ns.head? ∧
    (ns = [] →
      (resolveRef oracle ref resolver).map ResolvedRef.fragmentError =
        Except.ok (some (str "Fragment not found: " ++ str "#query(" ++ expr ++ str ")"))) ∧
    (ns ≠ [] →
      (resolveRef oracle ref resolver).map ResolvedRef.fragmentError = Except.ok none) ∧
    ((resolveRef oracle ref resolver).map ResolvedRef.fragmentWarning =
      Except.ok (if 1 < ns.length then
        some (str "XPath query \"" ++ expr ++ str "\" matched " ++
          natToStr ns.length ++ str " elements, expected 1")
      else none)) := by
  unfold resolveRef
  simp only [hex, Bool.not_true, Bool.false_eq_true, if_false, hread, hparse, hfrag]
  unfold resolveFragment executeXPath
  simp only [horacle]
  cases ns with
  | nil => simp [formatFragment, Except.map, List.append_assoc]
  | cons n rest =>
    simp only [List.isEmpty_cons, Bool.false_eq_true, if_false]
    by_cases hlen : 0 < rest.length
    · simp [hlen, Except.map, List.append_assoc, Nat.succ_lt_succ_iff]
    · simp [hlen, Except.map, List.append_assoc, Nat.succ_lt_succ_iff]

/-- Witness for C5: the spec's own scenario — `#query(//example)` against
a target with three `<example>` elements returns the first as `fragment`
and warns naming the count 3. -/
theorem C5_query_multiplicity_witness :
    (parseRef C5ref).fragment = some { type := FragType.query, value := str "//example" } ∧
    exFiles.existsPath (resolvePath (parseRef C5ref) exResolver) = true ∧
    exFiles.read (resolvePath (parseRef C5ref) exResolver) = Except.ok C5content ∧
    parseXml C5content (resolvePath (parseRef C5ref) exResolver) = Except.ok C5target ∧
    threeOracle (str "//example") C5target = XPathSelect.nodes C5ns ∧
    (resolveRef threeOracle C5ref exResolver).map ResolvedRef.fragment =
      Except.ok (some (exExample (str "First"))) ∧
    (resolveRef threeOracle C5ref exResolver).map ResolvedRef.fragmentError =
      Except.ok none ∧
    (resolveRef threeOracle C5ref exResolver).map ResolvedRef.fragmentWarning =
      Except.ok (some (str "XPath query \"" ++ str "//example" ++ str "\" matched " ++
        natToStr 3 ++ str " elements, expected 1")) :=
  ⟨rfl, rfl, rfl, rfl, rfl,
    (C5_query_multiplicity threeOracle C5ref exResolver (str "//example") C5ns
      C5target C5content rfl rfl rfl rfl rfl).1,
    (C5_query_multiplicity threeOracle C5ref exResolver (str "//example") C5ns
      C5target C5content rfl rfl rfl rfl rfl).2.2.1 (by simp [C5ns]),
    (C5_query_multiplicity threeOracle C5ref exResolver (str "//example") C5ns
      C5target C5content rfl rfl rfl rfl rfl).2.2.2⟩

end Cardworks

namespace Cardworks

/-- C9 counterexample: a document whose root `version` is the claimed
`X.Y.Z` + pre-release form `1.0.0-beta.1` is *rejected* by `parseXml`
(the validation regular expression `/^\d+\.\d+\.\d+$/` admits no
pre-release or build suffix), while the claim requires it to be accepted. -/
theorem C9_counterexample :
    versionPattern (str "1.0.0-beta.1") = false ∧
    parseXml (str "<card version=\"1.0.0-beta.1\"/>") (str "doc") =
      Except.error
        { message := str "Invalid version \"" ++ str "1.0.0-beta.1" ++
            str "\" - must be in X.Y.Z format (e.g., \"1.0.0\")" } :=
  ⟨rfl, rfl⟩

/-- C9 (amended): the root `version` attribute must match
`/^\d+\.\d+\.\d+$/` exactly — plain dotted digits, no pre-release or build
suffix.  For every document the external DOM builder accepts whose root
carries such a version, `parseXml` accepts and exposes the attribute value
unchanged; a version with a suffix is rejected with a `ParseError`
(see the counterexample). -/
theorem C9_amended_theorem (xml src : Str) (t : Str) (a : List (Str × Str))
    (k : List Dom) (v : Str)
    (hdom : parseDomDoc xml = some (Dom.element t a k))
    (hv : lookupAttr a (str "version") = some v)
    (hpat : versionPattern v = true) :
    parseXml xml src = Except.ok (domToObject (Dom.element t a k) none) ∧
    lookupAttr (domToObject (Dom.element t a k) none).attrs (str "version") =
      some v := by
  have hattrs : (domToObject (Dom.element t a k) none).attrs = a := by
    unfold domToObject
    rfl
  have hne : v ≠ [] := by
    intro hnil
    subst hnil
    simp [versionPattern, List.takeWhile] at hpat
  constructor
  · unfold parseXml
    simp only [hdom, hattrs, hv]
    simp [hne, hpat]
  · rw [hattrs]
    exact hv

/-- Witness for C9 (amended) at `<card version="1.2.3"/>`. -/
theorem C9_amended_theorem_witness :
    parseDomDoc (str "<card version=\"1.2.3\"/>") =
      some (Dom.element (str "card") [(str "version", str "1.2.3")] []) ∧
    versionPattern (str "1.2.3") = true ∧
    parseXml (str "<card version=\"1.2.3\"/>") (str "doc") =
      Except.ok (domToObject
        (Dom.element (str "card") [(str "version", str "1.2.3")] []) none) ∧
    lookupAttr (domToObject
        (Dom.element (str "card") [(str "version", str "1.2.3")] []) none).attrs
      (str "version") = some (str "1.2.3") :=
  ⟨rfl, rfl,
    (C9_amended_theorem (str "<card version=\"1.2.3\"/>") (str "doc")
      (str "card") [(str "version", str "1.2.3")] [] (str "1.2.3")
      rfl rfl rfl).1,
    (C9_amended_theorem (str "<card version=\"1.2.3\"/>") (str "doc")
      (str "card") [(str "version", str "1.2.3")] [] (str "1.2.3")
      rfl rfl rfl).2⟩

end Cardworks

namespace Cardworks

theorem firstOccOf_append (P Q : List IdOccurrence) (v : Str) :
    firstOccOf (P ++ Q) v = (firstOccOf P v).or (firstOccOf Q v) := by
  simp [firstOccOf, List.find?_append]

theorem firstOccOf_id (P : List IdOccurrence) (v : Str) (f : IdOccurrence)
    (h : firstOccOf P v = some f) : f.id = v := by
  have := List.find?_some h
  simpa using this

theorem seenInv_nil : SeenInv [] [] := by
  intro v
  simp [firstOccOf]

theorem seenInv_extend_dup (S : List (Str × IdOccurrence)) (P : List IdOccurrence)
    (occ : IdOccurrence) (hinv : SeenInv S P)
    (hfound : (firstOccOf P occ.id).isSome = true) :
    SeenInv S (P ++ [occ]) := by
  intro v
  rw [hinv v, firstOccOf_append]
  by_cases h : (firstOccOf P v).isSome = true
  · obtain ⟨f, hf⟩ := Option.isSome_iff_exists.mp h
    simp [hf]
  · simp only [Option.not_isSome_iff_eq_none] at h
    simp only [h, Option.or]
    by_cases hv : occ.id = v
    · subst hv
      rw [h] at hfound
      simp at hfound
    · simp [firstOccOf, List.find?, hv]

theorem seenInv_extend_new (S : List (Str × IdOccurrence)) (P : List IdOccurrence)
    (occ : IdOccurrence) (hinv : SeenInv S P)
    (_hnew : firstOccOf P occ.id = none) :
    SeenInv (S ++ [(occ.id, occ)]) (P ++ [occ]) := by
  intro v
  rw [List.find?_append, hinv v, firstOccOf_append]
  by_cases h : (firstOccOf P v).isSome = true
  · obtain ⟨f, hf⟩ := Option.isSome_iff_exists.mp h
    simp [hf]
  · simp only [Option.not_isSome_iff_eq_none] at h
    simp only [h, Option.none_or]
    by_cases hv : occ.id = v
    · subst hv
      simp [firstOccOf, List.find?]
    · simp [firstOccOf, List.find?, hv]

theorem checkDupLoop_eq (os : List IdOccurrence) :
    ∀ (S : List (Str × IdOccurrence)) (P : List IdOccurrence) (W : List LintIssue),
    SeenInv S P →
    checkDupLoop os S W = W ++ dupWarningsSpecAux os P := by
  induction os with
  | nil => intro S P W _; simp only [checkDupLoop, dupWarningsSpecAux, List.append_nil]
  | cons occ rest ih =>
    intro S P W hinv
    have hfind := hinv occ.id
    unfold checkDupLoop dupWarningsSpecAux
    cases hfo : firstOccOf P occ.id with
    | some f =>
      rw [hfo] at hfind
      simp only [Option.map_some'] at hfind
      rw [hfind]
      have hfid : f.id = occ.id := firstOccOf_id P occ.id f hfo
      have hinv' : SeenInv S (P ++ [occ]) :=
        seenInv_extend_dup S P occ hinv (by simp [hfo])
      dsimp only
      rw [ih S (P ++ [occ]) _ hinv']
      simp [mkDupWarning, hfid]
    | none =>
      rw [hfo] at hfind
      simp only [Option.map_none'] at hfind
      rw [hfind]
      have hinv' : SeenInv (S ++ [(occ.id, occ)]) (P ++ [occ]) :=
        seenInv_extend_new S P occ hinv hfo
      dsimp only
      rw [ih _ (P ++ [occ]) _ hinv']
      simp

theorem checkDuplicateIds_eq_spec (root : ENode) :
    checkDuplicateIds root [] = dupWarningsSpec (collectIds root []) := by
  unfold checkDuplicateIds dupWarningsSpec
  exact checkDupLoop_eq _ [] [] [] seenInv_nil

theorem dupWarningsSpecAux_all_same (v : Str) (f : IdOccurrence) :
    ∀ (os : List IdOccurrence) (P : List IdOccurrence),
    (∀ o ∈ os, o.id = v) → firstOccOf P v = some f →
    dupWarningsSpecAux os P = os.map (fun occ => mkDupWarning occ f) := by
  intro os
  induction os with
  | nil => intro P _ _; simp [dupWarningsSpecAux]
  | cons occ rest ih =>
    intro P hall hfo
    have hocc : occ.id = v := hall occ (by simp)
    unfold dupWarningsSpecAux
    rw [hocc, hfo]
    have hfo' : firstOccOf (P ++ [occ]) v = some f := by
      rw [firstOccOf_append, hfo]; rfl
    rw [ih (P ++ [occ]) (fun o ho => hall o (by simp [ho])) hfo']
    simp

theorem dupWarningsSpec_filter_shape (os : List IdOccurrence) (v : Str)
    (f : IdOccurrence) (rest : List IdOccurrence)
    (hfilter : os.filter (fun o => o.id = v) = f :: rest) :
    dupWarningsSpec (os.filter (fun o => o.id = v)) =
      rest.map (fun occ => mkDupWarning occ f) := by
  unfold dupWarningsSpec
  rw [hfilter]
  unfold dupWarningsSpecAux
  have hf : f.id = v := by
    have : f ∈ os.filter (fun o => o.id = v) := by rw [hfilter]; simp
    simpa using (List.of_mem_filter this)
  have hrest : ∀ o ∈ rest, o.id = v := by
    intro o ho
    have : o ∈ os.filter (fun o => o.id = v) := by rw [hfilter]; simp [ho]
    simpa using (List.of_mem_filter this)
  rw [show firstOccOf [] f.id = none from rfl]
  dsimp only
  rw [dupWarningsSpecAux_all_same v f rest ([] ++ [f]) hrest
    (by simp [firstOccOf, List.find?, hf])]
  simp

theorem dupWarningsSpecAux_filter_sublist (v : Str) :
    ∀ (os : List IdOccurrence) (P : List IdOccurrence),
    List.Sublist
      (dupWarningsSpecAux (os.filter (fun o => o.id = v)) (P.filter (fun o => o.id = v)))
      (dupWarningsSpecAux os P) := by
  intro os
  induction os with
  | nil => intro P; simp [dupWarningsSpecAux]
  | cons occ rest ih =>
    intro P
    by_cases hocc : occ.id = v
    · have hfilter : (occ :: rest).filter (fun o => o.id = v) =
          occ :: rest.filter (fun o => o.id = v) := by simp [hocc]
      rw [hfilter]
      unfold dupWarningsSpecAux
      have hfoeq : firstOccOf (P.filter (fun o => o.id = v)) occ.id = firstOccOf P occ.id := by
        unfold firstOccOf
        rw [hocc]
        induction P with
        | nil => rfl
        | cons p ps ihp =>
          by_cases hp : p.id = v
          · simp [hp, List.find?]
          · simp only [List.filter_cons]
            simp only [hp]
            rw [List.find?_cons]
            simp only [decide_eq_true_eq]
            have : (decide (p.id = v)) = false := by simp [hp]
            simp [hp, ihp]
      rw [hfoeq]
      have hP' : (P ++ [occ]).filter (fun o => o.id = v) =
          P.filter (fun o => o.id = v) ++ [occ] := by simp [hocc]
      cases hfo : firstOccOf P occ.id with
      | some f =>
        dsimp only
        refine List.Sublist.append (List.Sublist.refl _) ?_
        rw [← hP']
        exact ih (P ++ [occ])
      | none =>
        dsimp only
        simp only [List.nil_append]
        rw [← hP']
        exact ih (P ++ [occ])
    · have hfilter : (occ :: rest).filter (fun o => o.id = v) =
          rest.filter (fun o => o.id = v) := by simp [hocc]
      rw [hfilter]
      conv_rhs => unfold dupWarningsSpecAux
      have hP' : (P ++ [occ]).filter (fun o => o.id = v) =
          P.filter (fun o => o.id = v) := by simp [hocc]
      refine List.Sublist.trans ?_ (List.sublist_append_right _ _)
      rw [← hP']
      exact ih (P ++ [occ])

mutual
theorem collectIds_acc (n : ENode) : ∀ (acc : List IdOccurrence),
    collectIds n acc = acc ++ collectIds n [] := by
  cases n with
  | mk t a cm tx mx ch l d =>
    intro acc
    unfold collectIds
    cases hid : lookupAttr a (str "id") with
    | some id =>
      dsimp only
      by_cases hne : id ≠ []
      · rw [if_pos hne, if_pos hne]
        rw [collectIdsList_acc ch (acc ++ _), collectIdsList_acc ch ([] ++ _)]
        simp
      · rw [if_neg hne, if_neg hne]
        rw [collectIdsList_acc ch acc]
    | none =>
      dsimp only
      rw [collectIdsList_acc ch acc]

theorem collectIdsList_acc (l : List ENode) : ∀ (acc : List IdOccurrence),
    collectIdsList l acc = acc ++ collectIdsList l [] := by
  cases l with
  | nil => intro acc; simp [collectIdsList]
  | cons n rest =>
    intro acc
    unfold collectIdsList
    rw [collectIdsList_acc rest (collectIds n acc), collectIds_acc n acc,
      collectIdsList_acc rest (collectIds n [])]
    simp
end

mutual
theorem countIdIn_eq (n : ENode) : ∀ (v : Str), v ≠ [] →
    countIdIn n v = ((collectIds n []).filter (fun o => o.id = v)).length := by
  cases n with
  | mk t a cm tx mx ch l d =>
    intro v hv
    unfold countIdIn collectIds
    cases hid : lookupAttr a (str "id") with
    | some id =>
      dsimp only
      by_cases hne : id ≠ []
      · rw [if_pos hne]
        rw [collectIdsList_acc ch]
        by_cases hvid : id = v
        · subst hvid
          rw [if_pos rfl]
          rw [countIdInList_eq ch id hv]
          simp
          omega
        · rw [if_neg (by simp [hid, hvid])]
          have hdec : (decide (({ id := id, location := l } : IdOccurrence).id = v)) = false := by
            simp [hvid]
          simp [countIdInList_eq ch v hv, List.filter, hdec]
      · rw [if_neg hne]
        push_neg at hne
        rw [if_neg (by simp [hid]; intro h; exact hv (by rw [← h, hne]))]
        simp [countIdInList_eq ch v hv]
    | none =>
      dsimp only
      rw [if_neg (by simp [hid])]
      simp [countIdInList_eq ch v hv]

theorem countIdInList_eq (l : List ENode) : ∀ (v : Str), v ≠ [] →
    countIdInList l v = ((collectIdsList l []).filter (fun o => o.id = v)).length := by
  cases l with
  | nil => intro v hv; simp [countIdInList, collectIdsList]
  | cons n rest =>
    intro v hv
    unfold countIdInList collectIdsList
    rw [collectIdsList_acc rest (collectIds n []),
      countIdIn_eq n v hv, countIdInList_eq rest v hv]
    simp
end

/-- C8 counterexample: a card containing two occurrences of the id
attribute value `""` produces *zero* duplicate-id warnings (the collector
skips falsy ids), while the claim requires exactly one. -/
theorem C8_counterexample :
    countIdIn C8emptyIdTree (str "") = 2 ∧
    checkDuplicateIds C8emptyIdTree [] = [] :=
  ⟨rfl, rfl⟩

/-- C8 (amended): for every card and every *nonempty* id value `v` with
occurrences `f :: rest` (in depth-first order), the card has
`rest.length + 1` occurrences of `v`; the lint output is exactly
`dupWarningsSpec` of the collected occurrences; the warnings generated for
`v` are exactly one per occurrence after the first, each carrying the
duplicate's location and a message citing the first occurrence `f`'s line;
and they embed in order in the lint output. -/
theorem C8_amended_theorem (root : ENode) (v : Str) (f : IdOccurrence)
    (rest : List IdOccurrence) (hv : v ≠ [])
    (hocc : (collectIds root []).filter (fun o => o.id = v) = f :: rest) :
    countIdIn root v = rest.length + 1 ∧
    checkDuplicateIds root [] = dupWarningsSpec (collectIds root []) ∧
    dupWarningsSpec ((collectIds root []).filter (fun o => o.id = v)) =
      rest.map (fun occ => mkDupWarning occ f) ∧
    List.Sublist (rest.map (fun occ => mkDupWarning occ f))
      (checkDuplicateIds root []) := by
  refine ⟨?_, checkDuplicateIds_eq_spec root, ?_, ?_⟩
  · rw [countIdIn_eq root v hv, hocc]
    simp
  · exact dupWarningsSpec_filter_shape _ v f rest hocc
  · rw [checkDuplicateIds_eq_spec root]
    have h := dupWarningsSpecAux_filter_sublist v (collectIds root []) []
    rw [show ([] : List IdOccurrence).filter (fun o => o.id = v) = [] from rfl] at h
    have hshape := dupWarningsSpec_filter_shape (collectIds root []) v f rest hocc
    unfold dupWarningsSpec at hshape
    rw [← hshape]
    exact h

/-- Witness for C8 (amended): three occurrences of `id="x"` at lines 2, 5
and 9 yield exactly two warnings, each citing line 2. -/
theorem C8_amended_theorem_witness :
    (str "x" : Str) ≠ [] ∧
    (collectIds C8tree []).filter (fun o => o.id = str "x") =
      C8occ 2 :: [C8occ 5, C8occ 9] ∧
    countIdIn C8tree (str "x") = 3 ∧
    checkDuplicateIds C8tree [] = dupWarningsSpec (collectIds C8tree []) ∧
    checkDuplicateIds C8tree [] =
      [mkDupWarning (C8occ 5) (C8occ 2), mkDupWarning (C8occ 9) (C8occ 2)] ∧
    List.Sublist
      ([C8occ 5, C8occ 9].map (fun occ => mkDupWarning occ (C8occ 2)))
      (checkDuplicateIds C8tree []) :=
  ⟨by decide, rfl,
    (C8_amended_theorem C8tree (str "x") (C8occ 2) [C8occ 5, C8occ 9]
      (by decide) rfl).1,
    (C8_amended_theorem C8tree (str "x") (C8occ 2) [C8occ 5, C8occ 9]
      (by decide) rfl).2.1,
    rfl,
    (C8_amended_theorem C8tree (str "x") (C8occ 2) [C8occ 5, C8occ 9]
      (by decide) rfl).2.2.2⟩

end Cardworks

namespace Cardworks

theorem splitOnChar_ne_nil (s : Str) (c : Char) : splitOnChar s c ≠ [] := by
  cases s with
  | nil => simp [splitOnChar]
  | cons d rest =>
    unfold splitOnChar
    by_cases hd : d = c
    · simp [hd]
    · simp only [if_neg hd]
      cases splitOnChar rest c with
      | nil => simp
      | cons p ps => simp

theorem join_split (s : Str) (c : Char) : joinChar (splitOnChar s c) c = s := by
  induction s with
  | nil => rfl
  | cons d rest ih =>
    obtain ⟨p, ps, hps⟩ : ∃ p ps, splitOnChar rest c = p :: ps := by
      cases h : splitOnChar rest c with
      | nil => exact absurd h (splitOnChar_ne_nil rest c)
      | cons p ps => exact ⟨p, ps, rfl⟩
    show joinChar (splitOnChar (d :: rest) c) c = d :: rest
    unfold splitOnChar
    rw [hps] at ih ⊢
    by_cases hd : d = c
    · rw [if_pos hd]
      show [] ++ c :: joinChar (p :: ps) c = d :: rest
      rw [ih, hd]
      rfl
    · rw [if_neg hd]
      dsimp only
      cases ps with
      | nil =>
        show d :: p = d :: rest
        rw [show joinChar [p] c = p from rfl] at ih
        rw [ih]
      | cons q qs =>
        show (d :: p) ++ c :: joinChar (q :: qs) c = d :: rest
        rw [show joinChar (p :: q :: qs) c = p ++ c :: joinChar (q :: qs) c from rfl] at ih
        rw [List.cons_append, ih]

theorem splitOnChar_no_sep (s : Str) (c : Char) (h : c ∉ s) :
    splitOnChar s c = [s] := by
  induction s with
  | nil => rfl
  | cons d rest ih =>
    have hd : d ≠ c := fun hdc => h (by simp [hdc])
    have ih' := ih (fun hm => h (by simp [hm]))
    show splitOnChar (d :: rest) c = [d :: rest]
    conv_lhs => unfold splitOnChar
    rw [if_neg hd, ih']

theorem splitOnChar_append_sep (a b : Str) (c : Char) (ha : c ∉ a) :
    splitOnChar (a ++ c :: b) c = a :: splitOnChar b c := by
  induction a with
  | nil =>
    show splitOnChar (c :: b) c = [] :: splitOnChar b c
    conv_lhs => unfold splitOnChar
    simp
  | cons d rest ih =>
    have hd : d ≠ c := fun hdc => ha (by simp [hdc])
    have ih' := ih (fun hm => ha (by simp [hm]))
    show splitOnChar (d :: (rest ++ c :: b)) c = (d :: rest) :: splitOnChar b c
    conv_lhs => unfold splitOnChar
    rw [if_neg hd, ih']

theorem split_join (xs : List Str) (c : Char) (hne : xs ≠ [])
    (hnosep : ∀ x ∈ xs, c ∉ x) :
    splitOnChar (joinChar xs c) c = xs := by
  induction xs with
  | nil => exact absurd rfl hne
  | cons x rest ih =>
    cases rest with
    | nil =>
      show splitOnChar (joinChar [x] c) c = [x]
      rw [show joinChar [x] c = x from rfl]
      exact splitOnChar_no_sep x c (hnosep x (by simp))
    | cons y ys =>
      have hx : c ∉ x := hnosep x (by simp)
      rw [show joinChar (x :: y :: ys) c = x ++ c :: joinChar (y :: ys) c from rfl]
      rw [splitOnChar_append_sep x _ c hx,
        ih (by simp) (fun z hz => hnosep z (by simp [hz]))]

end Cardworks

namespace Cardworks

theorem splitOnChar_parts_no_sep (s : Str) (c : Char) :
    ∀ part ∈ splitOnChar s c, c ∉ part := by
  induction s with
  | nil => intro part hp; simp [splitOnChar] at hp; simp [hp]
  | cons d rest ih =>
    intro part hp
    unfold splitOnChar at hp
    by_cases hd : d = c
    · rw [if_pos hd] at hp
      rcases List.mem_cons.mp hp with h | h
      · simp [h]
      · exact ih part h
    · rw [if_neg hd] at hp
      cases hps : splitOnChar rest c with
      | nil => exact absurd hps (splitOnChar_ne_nil rest c)
      | cons p ps =>
        rw [hps] at hp
        dsimp only at hp
        rcases List.mem_cons.mp hp with h | h
        · subst h
          intro hmem
          rcases List.mem_cons.mp hmem with h' | h'
          · exact hd h'.symm
          · exact ih p (by simp [hps]) h'
        · exact ih part (by simp [hps, h])

theorem relSegments_spec (ds : List Str) : ∀ (ts : List Str),
    (relSegments ds ts).1 ≤ ds.length ∧
    ds.take (ds.length - (relSegments ds ts).1) ++ (relSegments ds ts).2 = ts := by
  induction ds with
  | nil =>
    intro ts
    simp [relSegments]
  | cons d ds' ih =>
    intro ts
    cases ts with
    | nil =>
      simp [relSegments]
    | cons t ts' =>
      unfold relSegments
      by_cases hdt : d = t
      · rw [if_pos hdt]
        obtain ⟨h1, h2⟩ := ih ts'
        constructor
        · exact Nat.le_succ_of_le h1
        · have hsub : (d :: ds').length - (relSegments ds' ts').1 =
              (ds'.length - (relSegments ds' ts').1) + 1 := by
            simp only [List.length_cons]
            omega
          rw [hsub, List.take_succ_cons, List.cons_append, h2, hdt]
      · rw [if_neg hdt]
        simp

theorem foldl_resolveStep_good (xs : List Str) : ∀ (base : List Str),
    (∀ x ∈ xs, x ≠ str ".." ∧ x ≠ str ".") →
    List.foldl resolveStep base xs = base ++ xs := by
  induction xs with
  | nil => intro base _; simp
  | cons x rest ih =>
    intro base hgood
    obtain ⟨hx1, hx2⟩ := hgood x (by simp)
    rw [List.foldl_cons]
    rw [show resolveStep base x = base ++ [x] from by simp [resolveStep, hx1, hx2]]
    rw [ih (base ++ [x]) (fun z hz => hgood z (by simp [hz]))]
    simp

theorem foldl_resolveStep_dotdot (k : Nat) : ∀ (base : List Str),
    List.foldl resolveStep base (List.replicate k (str "..")) =
      base.take (base.length - k) := by
  induction k with
  | zero => intro base; simp
  | succ k ih =>
    intro base
    rw [List.replicate_succ, List.foldl_cons]
    rw [show resolveStep base (str "..") = base.dropLast from by simp [resolveStep]]
    rw [ih base.dropLast]
    rw [List.dropLast_eq_take]
    rw [List.take_take]
    congr 1
    simp
    omega

end Cardworks

namespace Cardworks

theorem wfPath_shape (p : Str) (h : wfPath p = true) :
    ∃ segs, splitOnChar p '/' = [] :: segs ∧ segs ≠ [] ∧
      ∀ s ∈ segs, s ≠ [] ∧ s ≠ str "." ∧ s ≠ str ".." := by
  unfold wfPath at h
  cases hsplit : splitOnChar p '/' with
  | nil => rw [hsplit] at h; simp at h
  | cons s0 segs =>
    rw [hsplit] at h
    simp only [Bool.and_eq_true, decide_eq_true_eq, List.all_eq_true] at h
    obtain ⟨⟨h0, h1⟩, h2⟩ := h
    refine ⟨segs, by rw [h0], ?_, ?_⟩
    · intro hnil
      rw [hnil] at h1
      simp at h1
    · intro s hs
      have := h2 s hs
      simp only [Bool.and_eq_true, decide_eq_true_eq] at this
      obtain ⟨⟨ha, hb⟩, hc⟩ := this
      refine ⟨?_, hb, hc⟩
      intro hnil
      rw [hnil] at ha
      simp at ha

theorem joinChar_head_ne_slash (x : Str) (xs : List Str) (c : Char)
    (hx : x ≠ []) (hc : x.head? ≠ some '/') :
    startsWith (joinChar (x :: xs) '/') (str "/") = false := by
  have hdecomp : ∃ t, joinChar (x :: xs) '/' = x ++ t := by
    cases xs with
    | nil => exact ⟨[], by simp [joinChar]⟩
    | cons y ys => exact ⟨'/' :: joinChar (y :: ys) '/', by simp [joinChar]⟩
  obtain ⟨t, ht⟩ := hdecomp
  rw [ht]
  cases x with
  | nil => exact absurd rfl hx
  | cons ch x' =>
    simp only [List.head?] at hc
    have : ch ≠ '/' := fun h => hc (by rw [h])
    simp [startsWith, str, this]

theorem resolve_mkRelative (p target : Str)
    (hp : wfPath p = true) (ht : wfPath target = true)
    (hne : splitOnChar target '/' ≠ (splitOnChar p '/').dropLast) :
    MemoryFileSystem.resolve p (mkRelative p target) = target := by
  obtain ⟨psegs, hpsplit, hpne, _hpgood⟩ := wfPath_shape p hp
  obtain ⟨tsegs, htsplit, _htne, htgood⟩ := wfPath_shape target ht
  have hdropLast : (splitOnChar p '/').dropLast = [] :: psegs.dropLast := by
    rw [hpsplit]
    cases psegs with
    | nil => exact absurd rfl hpne
    | cons a l => simp
  set ds := psegs.dropLast with hds
  have hmkrel : mkRelative p target =
      (if (relSegments ds tsegs).1 = 0 then
        joinChar (str "." :: (relSegments ds tsegs).2) '/'
      else joinChar (List.replicate (relSegments ds tsegs).1 (str "..") ++
        (relSegments ds tsegs).2) '/') := by
    unfold mkRelative
    rw [hdropLast, htsplit]
    rw [show relSegments ([] :: ds) ([] :: tsegs) = relSegments ds tsegs from rfl]
  obtain ⟨hle, hspec⟩ := relSegments_spec ds tsegs
  set u := (relSegments ds tsegs).1 with hu
  set rest := (relSegments ds tsegs).2 with hrest
  have hrestmem : ∀ x ∈ rest, x ∈ tsegs := by
    intro x hx
    rw [← hspec]
    exact List.mem_append_right _ hx
  have hrestgood : ∀ x ∈ rest, x ≠ str ".." ∧ x ≠ str "." := by
    intro x hx
    obtain ⟨_, h2, h3⟩ := htgood x (hrestmem x hx)
    exact ⟨h3, h2⟩
  have hrestnosl : ∀ x ∈ rest, '/' ∉ x := by
    intro x hx
    exact splitOnChar_parts_no_sep target '/' x (by rw [htsplit]; simp [hrestmem x hx])
  by_cases hu0 : u = 0
  · -- no climb: "./"-style relative path
    rw [hmkrel, if_pos hu0]
    have hrestne : rest ≠ [] := by
      intro hnil
      apply hne
      rw [htsplit, hdropLast]
      rw [hu0] at hspec
      rw [hnil] at hspec
      simp at hspec
      rw [← hspec]
    unfold MemoryFileSystem.resolve
    rw [if_neg (by
      simp [joinChar_head_ne_slash (str ".") rest '/' (by simp [str]) (by simp [str])])]
    rw [hdropLast]
    rw [split_join (str "." :: rest) '/' (by simp)
      (by
        intro x hx
        rcases List.mem_cons.mp hx with h | h
        · subst h; simp [str]
        · exact hrestnosl x h)]
    show joinChar (List.foldl resolveStep ([] :: ds) (str "." :: rest)) '/' = target
    rw [show List.foldl resolveStep ([] :: ds) (str "." :: rest) =
        List.foldl resolveStep ([] :: ds) rest from by
      rw [List.foldl_cons]
      congr 1]
    rw [foldl_resolveStep_good rest ([] :: ds) hrestgood]
    rw [hu0] at hspec
    simp only [Nat.sub_zero, List.take_length] at hspec
    rw [List.cons_append, hspec, ← htsplit]
    exact join_split target '/'
  · -- climb with ".."s
    rw [hmkrel, if_neg hu0]
    have hlistne : List.replicate u (str "..") ++ rest ≠ [] := by
      intro hnil
      have := List.append_eq_nil.mp hnil
      rw [List.replicate_eq_nil] at this
      exact hu0 this.1
    unfold MemoryFileSystem.resolve
    rw [if_neg (by
      cases hk : List.replicate u (str "..") ++ rest with
      | nil => exact absurd hk hlistne
      | cons x xs =>
        have hxmem : x ∈ List.replicate u (str "..") ++ rest := by rw [hk]; simp
        have hxne : x ≠ [] ∧ x.head? ≠ some '/' := by
          rcases List.mem_append.mp hxmem with h | h
          · have := List.eq_of_mem_replicate h
            subst this
            exact ⟨by simp [str], by simp [str]⟩
          · obtain ⟨h1, _, _⟩ := htgood x (hrestmem x h)
            refine ⟨h1, ?_⟩
            intro hhead
            have : '/' ∈ x := by
              cases x with
              | nil => simp at hhead
              | cons a b =>
                simp only [List.head?] at hhead
                have : a = '/' := by injection hhead
                simp [this]
            exact hrestnosl x h this
        simp [joinChar_head_ne_slash x xs '/' hxne.1 hxne.2])]
    rw [hdropLast]
    rw [split_join _ '/' hlistne
      (by
        intro x hx
        rcases List.mem_append.mp hx with h | h
        · have := List.eq_of_mem_replicate h
          subst this
          simp [str]
        · exact hrestnosl x h)]
    show joinChar
      (List.foldl resolveStep ([] :: ds) (List.replicate u (str "..") ++ rest)) '/' =
      target
    rw [List.foldl_append]
    rw [foldl_resolveStep_dotdot u ([] :: ds)]
    have htake : ([] :: ds).take (([] :: ds).length - u) =
        [] :: ds.take (ds.length - u) := by
      simp only [List.length_cons]
      rw [show ds.length + 1 - u = (ds.length - u) + 1 from by omega]
      rw [List.take_succ_cons]
    rw [htake]
    rw [foldl_resolveStep_good rest _ hrestgood]
    rw [List.cons_append, hspec, ← htsplit]
    exact join_split target '/'

/-- A character not occurring in a string is never found. -/
theorem indexOfChar_none (s : Str) (c : Char) (h : c ∉ s) :
    indexOfChar s c = none := by
  induction s with
  | nil => rfl
  | cons d rest ih =>
    simp only [List.mem_cons, not_or] at h
    unfold indexOfChar
    rw [if_neg (fun he => h.1 he.symm), ih h.2]

/-- The first occurrence of `c` after a `c`-free prefix. -/
theorem indexOfChar_append_first (a b : Str) (c : Char) (h : c ∉ a) :
    indexOfChar (a ++ c :: b) c = some a.length := by
  induction a with
  | nil => simp [indexOfChar]
  | cons d rest ih =>
    simp only [List.mem_cons, not_or] at h
    simp only [List.cons_append]
    unfold indexOfChar
    rw [if_neg (fun he => h.1 he.symm), ih h.2]
    simp

/-- A character not occurring in a string is never found (from the end). -/
theorem lastIndexOfChar_none (s : Str) (c : Char) (h : c ∉ s) :
    lastIndexOfChar s c = none := by
  induction s with
  | nil => rfl
  | cons d rest ih =>
    simp only [List.mem_cons, not_or] at h
    unfold lastIndexOfChar
    rw [ih h.2, if_neg (fun he => h.1 he.symm)]

/-- The last occurrence of `c` before a `c`-free suffix. -/
theorem lastIndexOfChar_append_last (a b : Str) (c : Char) (h : c ∉ b) :
    lastIndexOfChar (a ++ c :: b) c = some a.length := by
  induction a with
  | nil =>
    simp only [List.nil_append]
    unfold lastIndexOfChar
    rw [lastIndexOfChar_none b c h, if_pos rfl]
    rfl
  | cons d rest ih =>
    simp only [List.cons_append]
    unfold lastIndexOfChar
    rw [ih]
    simp

/-- If `lastIndexOfChar` finds nothing the character is absent. -/
theorem not_mem_of_lastIndexOfChar_none (s : Str) (c : Char)
    (h : lastIndexOfChar s c = none) : c ∉ s := by
  induction s with
  | nil => simp
  | cons d rest ih =>
    unfold lastIndexOfChar at h
    cases hrec : lastIndexOfChar rest c with
    | some j => rw [hrec] at h; simp at h
    | none =>
      rw [hrec] at h
      by_cases hd : d = c
      · rw [if_pos hd] at h; simp at h
      · rw [if_neg hd] at h
        simp only [List.mem_cons, not_or]
        exact ⟨fun he => hd he.symm, ih hrec⟩

/-- If `indexOfChar` finds nothing the character is absent. -/
theorem not_mem_of_indexOfChar_none (s : Str) (c : Char)
    (h : indexOfChar s c = none) : c ∉ s := by
  induction s with
  | nil => simp
  | cons d rest ih =>
    unfold indexOfChar at h
    by_cases hd : d = c
    · rw [if_pos hd] at h; simp at h
    · rw [if_neg hd] at h
      cases hrec : indexOfChar rest c with
      | some j => rw [hrec] at h; simp at h
      | none =>
        simp only [List.mem_cons, not_or]
        exact ⟨fun he => hd he.symm, ih hrec⟩

/-- Inversion of a successful `indexOfChar`: the string decomposes around
the found position and the prefix is `c`-free. -/
theorem indexOfChar_some_spec (s : Str) (c : Char) : ∀ (i : Nat),
    indexOfChar s c = some i →
    i < s.length ∧ s = s.take i ++ c :: s.drop (i + 1) ∧ c ∉ s.take i := by
  induction s with
  | nil => intro i h; simp [indexOfChar] at h
  | cons d rest ih =>
    intro i h
    unfold indexOfChar at h
    by_cases hd : d = c
    · rw [if_pos hd] at h
      have h0 : i = 0 := by injection h with h0; exact h0.symm
      subst h0
      subst hd
      refine ⟨by simp, by simp, by simp⟩
    · rw [if_neg hd] at h
      cases hrec : indexOfChar rest c with
      | none => rw [hrec] at h; simp at h
      | some j =>
        rw [hrec] at h
        have h1 : i = j + 1 := by injection h with h1; exact h1.symm
        subst h1
        obtain ⟨hlt, he, hn⟩ := ih j hrec
        refine ⟨by simpa using Nat.succ_lt_succ hlt, ?_, ?_⟩
        · simp only [List.take_succ_cons, List.drop_succ_cons, List.cons_append]
          exact congrArg (d :: ·) he
        · simp only [List.take_succ_cons, List.mem_cons, not_or]
          exact ⟨fun he2 => hd he2.symm, hn⟩

/-- Inversion of a successful `lastIndexOfChar`: the string decomposes
around the found position and the suffix is `c`-free. -/
theorem lastIndexOfChar_some_spec (s : Str) (c : Char) : ∀ (i : Nat),
    lastIndexOfChar s c = some i →
    i < s.length ∧ s = s.take i ++ c :: s.drop (i + 1) ∧ c ∉ s.drop (i + 1) := by
  induction s with
  | nil => intro i h; simp [lastIndexOfChar] at h
  | cons d rest ih =>
    intro i h
    unfold lastIndexOfChar at h
    cases hrec : lastIndexOfChar rest c with
    | some j =>
      rw [hrec] at h
      have h1 : i = j + 1 := by injection h with h1; exact h1.symm
      subst h1
      obtain ⟨hlt, he, hn⟩ := ih j hrec
      refine ⟨by simpa using Nat.succ_lt_succ hlt, ?_, ?_⟩
      · simp only [List.take_succ_cons, List.drop_succ_cons, List.cons_append]
        exact congrArg (d :: ·) he
      · simpa using hn
    | none =>
      rw [hrec] at h
      by_cases hd : d = c
      · rw [if_pos hd] at h
        have h0 : i = 0 := by injection h with h0; exact h0.symm
        subst h0
        refine ⟨by simp, by simp [hd], ?_⟩
        simpa using not_mem_of_lastIndexOfChar_none rest c hrec
      · rw [if_neg hd] at h; simp at h

/-- Members of `splitWsAux` over a whitespace-free accumulator are
nonempty and whitespace-free, with characters from the input. -/
theorem splitWsAux_mem_spec (s : Str) : ∀ (acc x : Str),
    x ∈ splitWsAux s acc → (∀ ch ∈ acc, isJsWs ch = false) →
    x ≠ [] ∧ ∀ ch ∈ x, isJsWs ch = false ∧ (ch ∈ s ∨ ch ∈ acc) := by
  induction s with
  | nil =>
    intro acc x hx hacc
    unfold splitWsAux at hx
    by_cases ha : acc = []
    · rw [if_pos ha] at hx; simp at hx
    · rw [if_neg ha] at hx
      simp only [List.mem_singleton] at hx
      subst hx
      refine ⟨by simpa using ha, ?_⟩
      intro ch hch
      rw [List.mem_reverse] at hch
      exact ⟨hacc ch hch, Or.inr hch⟩
  | cons c rest ih =>
    intro acc x hx hacc
    unfold splitWsAux at hx
    by_cases hws : isJsWs c = true
    · rw [if_pos hws] at hx
      by_cases ha : acc = []
      · rw [if_pos ha] at hx
        obtain ⟨h1, h2⟩ := ih [] x hx (by simp)
        refine ⟨h1, ?_⟩
        intro ch hch
        obtain ⟨hw, hm⟩ := h2 ch hch
        exact ⟨hw, by rcases hm with h | h; exact Or.inl (by simp [h]); simp at h⟩
      · rw [if_neg ha] at hx
        rcases List.mem_cons.mp hx with h | h
        · subst h
          refine ⟨by simpa using ha, ?_⟩
          intro ch hch
          rw [List.mem_reverse] at hch
          exact ⟨hacc ch hch, Or.inr hch⟩
        · obtain ⟨h1, h2⟩ := ih [] x h (by simp)
          refine ⟨h1, ?_⟩
          intro ch hch
          obtain ⟨hw, hm⟩ := h2 ch hch
          exact ⟨hw, by rcases hm with h | h; exact Or.inl (by simp [h]); simp at h⟩
    · rw [if_neg hws] at hx
      obtain ⟨h1, h2⟩ := ih (c :: acc) x hx (by
        intro ch hch
        rcases List.mem_cons.mp hch with h | h
        · subst h; simpa using hws
        · exact hacc ch h)
      refine ⟨h1, ?_⟩
      intro ch hch
      obtain ⟨hw, hm⟩ := h2 ch hch
      refine ⟨hw, ?_⟩
      rcases hm with h | h
      · exact Or.inl (by simp [h])
      · rcases List.mem_cons.mp h with h | h
        · exact Or.inl (by simp [h])
        · exact Or.inr h

/-- Members of `splitWs` are nonempty, whitespace-free tokens drawn from
the input string. -/
theorem splitWs_mem_spec (s x : Str) (hx : x ∈ splitWs s) :
    x ≠ [] ∧ ∀ ch ∈ x, isJsWs ch = false ∧ ch ∈ s := by
  obtain ⟨h1, h2⟩ := splitWsAux_mem_spec s [] x hx (by simp)
  refine ⟨h1, ?_⟩
  intro ch hch
  obtain ⟨hw, hm⟩ := h2 ch hch
  exact ⟨hw, by rcases hm with h | h; exact h; simp at h⟩

/-- One-step equation of `splitWsAux` on the empty string. -/
theorem splitWsAux_nil_eq (acc : Str) :
    splitWsAux [] acc = if acc = [] then [] else [acc.reverse] := rfl

/-- One-step equation of `splitWsAux` on a cons. -/
theorem splitWsAux_cons_eq (c : Char) (rest acc : Str) :
    splitWsAux (c :: rest) acc =
      if isJsWs c = true then
        if acc = [] then splitWsAux rest []
        else acc.reverse :: splitWsAux rest []
      else splitWsAux rest (c :: acc) := rfl

/-- `splitWsAux` on a whitespace-free input flushes a single token. -/
theorem splitWsAux_no_ws (t : Str) : ∀ (acc : Str),
    (∀ ch ∈ t, isJsWs ch = false) → (acc ≠ [] ∨ t ≠ []) →
    splitWsAux t acc = [acc.reverse ++ t] := by
  induction t with
  | nil =>
    intro acc h hne
    have ha : acc ≠ [] := by
      rcases hne with h1 | h1
      · exact h1
      · exact absurd rfl h1
    unfold splitWsAux
    rw [if_neg ha]
    simp
  | cons c rest ih =>
    intro acc h hne
    unfold splitWsAux
    rw [if_neg (by rw [h c (by simp)]; simp)]
    rw [ih (c :: acc) (fun ch hch => h ch (by simp [hch])) (Or.inl (by simp))]
    simp

/-- `splitWsAux` across a single separating space. -/
theorem splitWsAux_sep (t : Str) : ∀ (u acc : Str),
    (∀ ch ∈ t, isJsWs ch = false) → (acc ≠ [] ∨ t ≠ []) →
    splitWsAux (t ++ ' ' :: u) acc = (acc.reverse ++ t) :: splitWsAux u [] := by
  induction t with
  | nil =>
    intro u acc h hne
    have ha : acc ≠ [] := by
      rcases hne with h1 | h1
      · exact h1
      · exact absurd rfl h1
    simp only [List.nil_append]
    rw [splitWsAux_cons_eq]
    rw [if_pos (by decide), if_neg ha]
    simp
  | cons c rest ih =>
    intro u acc h hne
    simp only [List.cons_append]
    rw [splitWsAux_cons_eq]
    rw [if_neg (by rw [h c (by simp)]; simp)]
    rw [ih u (c :: acc) (fun ch hch => h ch (by simp [hch])) (Or.inl (by simp))]
    simp

/-- Joining nonempty whitespace-free tokens with single spaces and
re-splitting recovers the tokens. -/
theorem splitWs_joinChar (tokens : List Str)
    (h : ∀ t ∈ tokens, t ≠ [] ∧ ∀ ch ∈ t, isJsWs ch = false) :
    splitWs (joinChar tokens ' ') = tokens := by
  induction tokens with
  | nil => rfl
  | cons t rest ih =>
    cases rest with
    | nil =>
      show splitWs (joinChar [t] ' ') = [t]
      rw [show joinChar [t] ' ' = t from rfl]
      unfold splitWs
      rw [splitWsAux_no_ws t [] (h t (by simp)).2 (Or.inr (h t (by simp)).1)]
      simp
    | cons t2 r2 =>
      rw [show joinChar (t :: t2 :: r2) ' ' = t ++ ' ' :: joinChar (t2 :: r2) ' ' from rfl]
      unfold splitWs
      rw [splitWsAux_sep t (joinChar (t2 :: r2) ' ') []
        (h t (by simp)).2 (Or.inr (h t (by simp)).1)]
      rw [show splitWsAux (joinChar (t2 :: r2) ' ') [] = splitWs (joinChar (t2 :: r2) ' ') from rfl]
      rw [ih (fun x hx => h x (by simp [hx]))]
      simp

/-- Updating one attribute key leaves the others unchanged. -/
theorem lookupAttr_setAttr_other (attrs : List (Str × Str)) (n v m : Str)
    (h : m ≠ n) : lookupAttr (setAttr attrs n v) m = lookupAttr attrs m := by
  induction attrs with
  | nil => rfl
  | cons p rest ih =>
    unfold setAttr lookupAttr
    unfold setAttr lookupAttr at ih
    simp only [List.map_cons]
    by_cases hp : p.1 = n
    · rw [if_pos hp]
      have hm : ¬p.1 = m := fun he => h (he.symm.trans hp)
      rw [List.find?_cons_of_neg _ (by simpa using hm)]
      rw [List.find?_cons_of_neg _ (by simpa using hm)]
      exact ih
    · rw [if_neg hp]
      by_cases hm : p.1 = m
      · rw [List.find?_cons_of_pos _ (by simpa using hm)]
        rw [List.find?_cons_of_pos _ (by simpa using hm)]
      · rw [List.find?_cons_of_neg _ (by simpa using hm)]
        rw [List.find?_cons_of_neg _ (by simpa using hm)]
        exact ih

/-- Updating an attribute key rewrites exactly its value. -/
theorem lookupAttr_setAttr_same (attrs : List (Str × Str)) (n v : Str) :
    lookupAttr (setAttr attrs n v) n = (lookupAttr attrs n).map (fun _ => v) := by
  induction attrs with
  | nil => rfl
  | cons p rest ih =>
    unfold setAttr lookupAttr
    unfold setAttr lookupAttr at ih
    simp only [List.map_cons]
    by_cases hp : p.1 = n
    · rw [if_pos hp]
      rw [List.find?_cons_of_pos _ (by simpa using hp)]
      rw [List.find?_cons_of_pos _ (by simpa using hp)]
      rfl
    · rw [if_neg hp]
      rw [List.find?_cons_of_neg _ (by simpa using hp)]
      rw [List.find?_cons_of_neg _ (by simpa using hp)]
      exact ih

/-- Characters of a joined list come from the separator or from a part. -/
theorem mem_joinChar (parts : List Str) (sep ch : Char)
    (h : ch ∈ joinChar parts sep) : ch = sep ∨ ∃ p ∈ parts, ch ∈ p := by
  induction parts with
  | nil => simp [joinChar] at h
  | cons p rest ih =>
    cases rest with
    | nil =>
      rw [show joinChar [p] sep = p from rfl] at h
      exact Or.inr ⟨p, by simp, h⟩
    | cons q qs =>
      rw [show joinChar (p :: q :: qs) sep = p ++ sep :: joinChar (q :: qs) sep from rfl] at h
      rcases List.mem_append.mp h with h1 | h1
      · exact Or.inr ⟨p, by simp, h1⟩
      · rcases List.mem_cons.mp h1 with h2 | h2
        · exact Or.inl h2
        · rcases ih h2 with h3 | ⟨x, hx1, hx2⟩
          · exact Or.inl h3
          · exact Or.inr ⟨x, by simp [hx1], hx2⟩

/-- Characters of the parts of a split come from the split string. -/
theorem splitOnChar_parts_chars (s : Str) (sep : Char) : ∀ (x : Str),
    x ∈ splitOnChar s sep → ∀ ch ∈ x, ch ∈ s := by
  induction s with
  | nil =>
    intro x hx ch hch
    simp only [splitOnChar, List.mem_singleton] at hx
    subst hx
    simp at hch
  | cons c rest ih =>
    intro x hx ch hch
    unfold splitOnChar at hx
    by_cases hc : c = sep
    · rw [if_pos hc] at hx
      rcases List.mem_cons.mp hx with h | h
      · subst h; simp at hch
      · exact List.mem_cons_of_mem c (ih x h ch hch)
    · rw [if_neg hc] at hx
      cases hps : splitOnChar rest sep with
      | nil =>
        rw [hps] at hx
        simp only [List.mem_singleton] at hx
        subst hx
        simp only [List.mem_singleton] at hch
        simp [hch]
      | cons p ps =>
        rw [hps] at hx
        rcases List.mem_cons.mp hx with h | h
        · subst h
          rcases List.mem_cons.mp hch with h2 | h2
          · simp [h2]
          · exact List.mem_cons_of_mem c (ih p (by rw [hps]; simp) ch h2)
        · exact List.mem_cons_of_mem c (ih x (by rw [hps]; simp [h]) ch hch)

/-- The descending segments returned by `relSegments` come from the
target segment list. -/
theorem relSegments_snd_subset : ∀ (ds ts : List Str), ∀ x ∈ (relSegments ds ts).2, x ∈ ts := by
  intro ds
  induction ds with
  | nil =>
    intro ts x hx
    simp only [relSegments] at hx
    exact hx
  | cons d ds ih =>
    intro ts x hx
    cases ts with
    | nil => simp [relSegments] at hx
    | cons t ts =>
      unfold relSegments at hx
      by_cases hdt : d = t
      · rw [if_pos hdt] at hx
        exact List.mem_cons_of_mem t (ih ts x hx)
      · rw [if_neg hdt] at hx
        exact hx

/-- The relative path built by `mkRelative` starts with a dot. -/
theorem mkRelative_head (p q : Str) : ∃ xs, mkRelative p q = '.' :: xs := by
  unfold mkRelative
  by_cases h0 : (relSegments ((splitOnChar p '/').dropLast) (splitOnChar q '/')).1 = 0
  · rw [if_pos h0]
    cases hr : (relSegments ((splitOnChar p '/').dropLast) (splitOnChar q '/')).2 with
    | nil => exact ⟨[], rfl⟩
    | cons a l =>
      refine ⟨'/' :: joinChar (a :: l) '/', ?_⟩
      rfl
  · rw [if_neg h0]
    cases hu : (relSegments ((splitOnChar p '/').dropLast) (splitOnChar q '/')).1 with
    | zero => exact absurd hu h0
    | succ k =>
      cases hk : List.replicate (k + 1) (str "..") ++
          (relSegments ((splitOnChar p '/').dropLast) (splitOnChar q '/')).2 with
      | nil =>
        exfalso
        have := List.append_eq_nil.mp hk
        rw [List.replicate_eq_nil_iff] at this
        simp at this
      | cons a l =>
        have ha : a = str ".." := by
          have : a ∈ List.replicate (k + 1) (str "..") ++
              (relSegments ((splitOnChar p '/').dropLast) (splitOnChar q '/')).2 := by
            rw [hk]; simp
          rcases List.mem_append.mp this with h | h
          · exact List.eq_of_mem_replicate h
          · -- a is the head, and replicate (k+1) is nonempty, so a is its head
            have : List.replicate (k + 1) (str "..") = (str "..") :: List.replicate k (str "..") := by
              simp [List.replicate_succ]
            rw [this, List.cons_append] at hk
            have := hk
            injection this with h1 h2
            exact h1.symm
        -- joinChar (a :: l) '/' starts with a = ".."
        cases l with
        | nil =>
          refine ⟨['.'], ?_⟩
          rw [show joinChar [a] '/' = a from rfl, ha]
          rfl
        | cons b bs =>
          refine ⟨'.' :: '/' :: joinChar (b :: bs) '/', ?_⟩
          rw [show joinChar (a :: b :: bs) '/' = a ++ '/' :: joinChar (b :: bs) '/' from rfl, ha]
          rfl

/-- Characters of the relative path built by `mkRelative`: dots, slashes
and characters of the target path. -/
theorem mkRelative_chars (p q : Str) (ch : Char) (h : ch ∈ mkRelative p q) :
    ch = '.' ∨ ch = '/' ∨ ch ∈ q := by
  simp only [mkRelative] at h
  by_cases h0 : (relSegments ((splitOnChar p '/').dropLast) (splitOnChar q '/')).1 = 0
  · rw [if_pos h0] at h
    rcases mem_joinChar _ _ _ h with h1 | ⟨x, hx1, hx2⟩
    · exact Or.inr (Or.inl h1)
    · rcases List.mem_cons.mp hx1 with h2 | h2
      · subst h2
        left
        simpa [str] using hx2
      · right; right
        exact splitOnChar_parts_chars q '/' x (relSegments_snd_subset _ _ x h2) ch hx2
  · rw [if_neg h0] at h
    rcases mem_joinChar _ _ _ h with h1 | ⟨x, hx1, hx2⟩
    · exact Or.inr (Or.inl h1)
    · rcases List.mem_append.mp hx1 with h2 | h2
      · left
        have hx := List.eq_of_mem_replicate h2
        subst hx
        simpa [str] using hx2
      · right; right
        exact splitOnChar_parts_chars q '/' x (relSegments_snd_subset _ _ x h2) ch hx2

/-- `parseRef` on a reference with no `#` and no `@`. -/
theorem parseRef_plain (ref : Str) (h1 : indexOfChar ref '#' = none)
    (h2 : lastIndexOfChar ref '@' = none) :
    parseRef ref =
      ParsedRef.mk ref (startsWith ref (str "/")) none none ref := by
  simp only [parseRef, h1, h2]

/-- `parseRef` on a reference with no `#` whose last `@` is not
version-like. -/
theorem parseRef_bad_ver (ref : Str) (j : Nat) (h1 : indexOfChar ref '#' = none)
    (h2 : lastIndexOfChar ref '@' = some j)
    (h3 : looksLikeVersion (sliceFrom ref (j + 1)) = false) :
    parseRef ref =
      ParsedRef.mk ref (startsWith ref (str "/")) none none ref := by
  simp only [parseRef, h1, h2, h3]
  simp

/-- `parseRef` on a reference with no `#` whose last `@` is
version-like. -/
theorem parseRef_ver (ref : Str) (j : Nat) (h1 : indexOfChar ref '#' = none)
    (h2 : lastIndexOfChar ref '@' = some j)
    (h3 : looksLikeVersion (sliceFrom ref (j + 1)) = true) :
    parseRef ref =
      ParsedRef.mk (slice ref 0 j) (startsWith (slice ref 0 j) (str "/"))
        (some (sliceFrom ref (j + 1))) none ref := by
  simp only [parseRef, h1, h2, h3]
  simp

/-- `parseRef` on a reference with a `#` whose pre-fragment text has no
`@`. -/
theorem parseRef_frag_plain (ref : Str) (i : Nat)
    (h1 : indexOfChar ref '#' = some i)
    (h2 : lastIndexOfChar (slice ref 0 i) '@' = none) :
    parseRef ref =
      ParsedRef.mk (slice ref 0 i) (startsWith (slice ref 0 i) (str "/"))
        none (some (parseFragment (sliceFrom ref (i + 1)))) ref := by
  simp only [parseRef, h1, h2]

/-- `parseRef` on a reference with a `#` whose pre-fragment text ends in
a non-version-like `@`. -/
theorem parseRef_frag_bad_ver (ref : Str) (i j : Nat)
    (h1 : indexOfChar ref '#' = some i)
    (h2 : lastIndexOfChar (slice ref 0 i) '@' = some j)
    (h3 : looksLikeVersion (sliceFrom (slice ref 0 i) (j + 1)) = false) :
    parseRef ref =
      ParsedRef.mk (slice ref 0 i) (startsWith (slice ref 0 i) (str "/"))
        none (some (parseFragment (sliceFrom ref (i + 1)))) ref := by
  simp only [parseRef, h1, h2, h3]
  simp

/-- `parseRef` on a reference with a `#` whose pre-fragment text ends in
a version-like `@`. -/
theorem parseRef_frag_ver (ref : Str) (i j : Nat)
    (h1 : indexOfChar ref '#' = some i)
    (h2 : lastIndexOfChar (slice ref 0 i) '@' = some j)
    (h3 : looksLikeVersion (sliceFrom (slice ref 0 i) (j + 1)) = true) :
    parseRef ref =
      ParsedRef.mk (slice (slice ref 0 i) 0 j)
        (startsWith (slice (slice ref 0 i) 0 j) (str "/"))
        (some (sliceFrom (slice ref 0 i) (j + 1)))
        (some (parseFragment (sliceFrom ref (i + 1)))) ref := by
  simp only [parseRef, h1, h2, h3]
  simp

/-- Slicing from position 0 is a take. -/
theorem slice_zero (s : Str) (b : Nat) : slice s 0 b = s.take b := by
  simp [slice]

/-- Rebuilding a token on a `#`- and `@`-free path part: the rebuilt
token reparses with the new part as its path and the original version
and fragment (§4.3 c, "preserving the original version/fragment suffix
verbatim"). -/
theorem parseRef_rebuildToken (t rel : Str)
    (hh : ('#' : Char) ∉ rel) (ha : ('@' : Char) ∉ rel) :
    parseRef (rebuildToken (parseRef t) rel) =
      ParsedRef.mk rel (startsWith rel (str "/")) (parseRef t).version
        (parseRef t).fragment (rebuildToken (parseRef t) rel) := by
  cases hfi : indexOfChar t '#' with
  | none =>
    have hth : ('#' : Char) ∉ t := not_mem_of_indexOfChar_none t '#' hfi
    cases hvi : lastIndexOfChar t '@' with
    | none =>
      rw [parseRef_plain t hfi hvi]
      have hrt : rebuildToken
          (ParsedRef.mk t (startsWith t (str "/")) none none t) rel = rel := by
        simp [rebuildToken, sliceFrom]
      rw [hrt]
      rw [parseRef_plain rel (indexOfChar_none rel '#' hh)
        (lastIndexOfChar_none rel '@' ha)]
    | some j =>
      by_cases hlk : looksLikeVersion (sliceFrom t (j + 1)) = true
      · rw [parseRef_ver t j hfi hvi hlk]
        obtain ⟨hjlt, hdec, hnoat⟩ := lastIndexOfChar_some_spec t '@' j hvi
        have hlen : (t.take j).length = j := by
          rw [List.length_take]; omega
        have hsuf : sliceFrom t (slice t 0 j).length = '@' :: t.drop (j + 1) := by
          rw [slice_zero, hlen]
          show t.drop j = _
          conv_lhs => rw [hdec]
          rw [List.drop_left' hlen]
        have hrt : rebuildToken (ParsedRef.mk (slice t 0 j)
            (startsWith (slice t 0 j) (str "/")) (some (sliceFrom t (j + 1)))
            none t) rel = rel ++ '@' :: t.drop (j + 1) := by
          simp only [rebuildToken]
          rw [hsuf]
        rw [hrt]
        have hvh : ('#' : Char) ∉ t.drop (j + 1) :=
          fun hm => hth (List.drop_subset _ _ hm)
        have h1 : indexOfChar (rel ++ '@' :: t.drop (j + 1)) '#' = none := by
          apply indexOfChar_none
          intro hm
          rcases List.mem_append.mp hm with h | h
          · exact hh h
          · rcases List.mem_cons.mp h with h | h
            · exact absurd h (by decide)
            · exact hvh h
        have h2 : lastIndexOfChar (rel ++ '@' :: t.drop (j + 1)) '@' =
            some rel.length := lastIndexOfChar_append_last rel _ '@' hnoat
        have hafter : sliceFrom (rel ++ '@' :: t.drop (j + 1)) (rel.length + 1) =
            t.drop (j + 1) := by
          show (rel ++ '@' :: t.drop (j + 1)).drop (rel.length + 1) = _
          rw [show rel ++ '@' :: t.drop (j + 1) = (rel ++ ['@']) ++ t.drop (j + 1) by simp]
          exact List.drop_left' (by simp)
        have h3 : looksLikeVersion
            (sliceFrom (rel ++ '@' :: t.drop (j + 1)) (rel.length + 1)) = true := by
          rw [hafter]
          exact hlk
        rw [parseRef_ver _ rel.length h1 h2 h3]
        have hpath : slice (rel ++ '@' :: t.drop (j + 1)) 0 rel.length = rel := by
          rw [slice_zero]
          exact List.take_left rel _
        rw [hpath, hafter]
        rfl
      · have hlk' : looksLikeVersion (sliceFrom t (j + 1)) = false := by
          simpa using hlk
        rw [parseRef_bad_ver t j hfi hvi hlk']
        have hrt : rebuildToken
            (ParsedRef.mk t (startsWith t (str "/")) none none t) rel = rel := by
          simp [rebuildToken, sliceFrom]
        rw [hrt]
        rw [parseRef_plain rel (indexOfChar_none rel '#' hh)
          (lastIndexOfChar_none rel '@' ha)]
  | some i =>
    obtain ⟨hilt, hdect, hnohash⟩ := indexOfChar_some_spec t '#' i hfi
    have hleni : (t.take i).length = i := by
      rw [List.length_take]; omega
    have hsufi : sliceFrom t (slice t 0 i).length = '#' :: t.drop (i + 1) := by
      rw [slice_zero, hleni]
      show t.drop i = _
      conv_lhs => rw [hdect]
      rw [List.drop_left' hleni]
    cases hvi : lastIndexOfChar (slice t 0 i) '@' with
    | none =>
      rw [parseRef_frag_plain t i hfi hvi]
      have hrt : rebuildToken (ParsedRef.mk (slice t 0 i)
          (startsWith (slice t 0 i) (str "/")) none
          (some (parseFragment (sliceFrom t (i + 1)))) t) rel =
          rel ++ '#' :: t.drop (i + 1) := by
        simp only [rebuildToken]
        rw [hsufi]
      rw [hrt]
      have h1 : indexOfChar (rel ++ '#' :: t.drop (i + 1)) '#' =
          some rel.length := indexOfChar_append_first rel _ '#' hh
      have hpath : slice (rel ++ '#' :: t.drop (i + 1)) 0 rel.length = rel := by
        rw [slice_zero]
        exact List.take_left rel _
      have h2 : lastIndexOfChar
          (slice (rel ++ '#' :: t.drop (i + 1)) 0 rel.length) '@' = none := by
        rw [hpath]
        exact lastIndexOfChar_none rel '@' ha
      rw [parseRef_frag_plain _ rel.length h1 h2, hpath]
      have hfragstr : sliceFrom (rel ++ '#' :: t.drop (i + 1)) (rel.length + 1) =
          t.drop (i + 1) := by
        show (rel ++ '#' :: t.drop (i + 1)).drop (rel.length + 1) = _
        rw [show rel ++ '#' :: t.drop (i + 1) = (rel ++ ['#']) ++ t.drop (i + 1) by simp]
        exact List.drop_left' (by simp)
      rw [hfragstr]
      rfl
    | some j =>
      obtain ⟨hjlt, hdecR, hnoatR⟩ := lastIndexOfChar_some_spec (slice t 0 i) '@' j hvi
      have hR : ('#' : Char) ∉ slice t 0 i := by
        rw [slice_zero]
        exact hnohash
      have hlenP : ((slice t 0 i).take j).length = j := by
        rw [List.length_take]; omega
      by_cases hlk : looksLikeVersion (sliceFrom (slice t 0 i) (j + 1)) = true
      · rw [parseRef_frag_ver t i j hfi hvi hlk]
        -- the pre-fragment text decomposes at the version @
        have hPfull : t = (slice t 0 i).take j ++
            '@' :: ((slice t 0 i).drop (j + 1) ++ '#' :: t.drop (i + 1)) := by
          conv_lhs => rw [hdect]
          rw [slice_zero] at hdecR ⊢
          conv_lhs => rw [hdecR]
          simp
        have hsufP : sliceFrom t (slice (slice t 0 i) 0 j).length =
            '@' :: ((slice t 0 i).drop (j + 1) ++ '#' :: t.drop (i + 1)) := by
          rw [slice_zero, hlenP]
          show t.drop j = _
          conv_lhs => rw [hPfull]
          exact List.drop_left' (by rw [slice_zero] at hlenP; exact hlenP)
        have hrt : rebuildToken (ParsedRef.mk (slice (slice t 0 i) 0 j)
            (startsWith (slice (slice t 0 i) 0 j) (str "/"))
            (some (sliceFrom (slice t 0 i) (j + 1)))
            (some (parseFragment (sliceFrom t (i + 1)))) t) rel =
            rel ++ '@' :: ((slice t 0 i).drop (j + 1) ++ '#' :: t.drop (i + 1)) := by
          simp only [rebuildToken]
          rw [hsufP]
        rw [hrt]
        -- locate the fragment hash of the rebuilt token
        have hvhash : ('#' : Char) ∉ (slice t 0 i).drop (j + 1) :=
          fun hm => hR (List.drop_subset _ _ hm)
        have hassoc : rel ++ '@' :: ((slice t 0 i).drop (j + 1) ++ '#' :: t.drop (i + 1)) =
            (rel ++ '@' :: (slice t 0 i).drop (j + 1)) ++ '#' :: t.drop (i + 1) := by
          simp
        have h1 : indexOfChar
            (rel ++ '@' :: ((slice t 0 i).drop (j + 1) ++ '#' :: t.drop (i + 1))) '#' =
            some (rel ++ '@' :: (slice t 0 i).drop (j + 1)).length := by
          rw [hassoc]
          apply indexOfChar_append_first
          intro hm
          rcases List.mem_append.mp hm with h | h
          · exact hh h
          · rcases List.mem_cons.mp h with h | h
            · exact absurd h (by decide)
            · exact hvhash h
        have hpre : slice
            (rel ++ '@' :: ((slice t 0 i).drop (j + 1) ++ '#' :: t.drop (i + 1))) 0
            (rel ++ '@' :: (slice t 0 i).drop (j + 1)).length =
            rel ++ '@' :: (slice t 0 i).drop (j + 1) := by
          rw [slice_zero, hassoc]
          exact List.take_left _ _
        have h2 : lastIndexOfChar (slice
            (rel ++ '@' :: ((slice t 0 i).drop (j + 1) ++ '#' :: t.drop (i + 1))) 0
            (rel ++ '@' :: (slice t 0 i).drop (j + 1)).length) '@' = some rel.length := by
          rw [hpre]
          exact lastIndexOfChar_append_last rel _ '@' hnoatR
        have hafter : sliceFrom (slice
            (rel ++ '@' :: ((slice t 0 i).drop (j + 1) ++ '#' :: t.drop (i + 1))) 0
            (rel ++ '@' :: (slice t 0 i).drop (j + 1)).length) (rel.length + 1) =
            (slice t 0 i).drop (j + 1) := by
          rw [hpre]
          show (rel ++ '@' :: (slice t 0 i).drop (j + 1)).drop (rel.length + 1) = _
          rw [show rel ++ '@' :: (slice t 0 i).drop (j + 1) =
            (rel ++ ['@']) ++ (slice t 0 i).drop (j + 1) by simp]
          exact List.drop_left' (by simp)
        have h3 : looksLikeVersion (sliceFrom (slice
            (rel ++ '@' :: ((slice t 0 i).drop (j + 1) ++ '#' :: t.drop (i + 1))) 0
            (rel ++ '@' :: (slice t 0 i).drop (j + 1)).length) (rel.length + 1)) = true := by
          rw [hafter]
          exact hlk
        rw [parseRef_frag_ver _ _ rel.length h1 h2 h3]
        have hpath : slice (slice
            (rel ++ '@' :: ((slice t 0 i).drop (j + 1) ++ '#' :: t.drop (i + 1))) 0
            (rel ++ '@' :: (slice t 0 i).drop (j + 1)).length) 0 rel.length = rel := by
          rw [hpre, slice_zero]
          exact List.take_left rel _
        have hfragstr : sliceFrom
            (rel ++ '@' :: ((slice t 0 i).drop (j + 1) ++ '#' :: t.drop (i + 1)))
            ((rel ++ '@' :: (slice t 0 i).drop (j + 1)).length + 1) =
            t.drop (i + 1) := by
          show List.drop _ _ = _
          rw [hassoc]
          rw [show (rel ++ '@' :: (slice t 0 i).drop (j + 1)) ++ '#' :: t.drop (i + 1) =
            ((rel ++ '@' :: (slice t 0 i).drop (j + 1)) ++ ['#']) ++ t.drop (i + 1) by simp]
          exact List.drop_left' (by simp; omega)
        rw [hpath, hafter, hfragstr]
        rfl
      · have hlk' : looksLikeVersion (sliceFrom (slice t 0 i) (j + 1)) = false := by
          simpa using hlk
        rw [parseRef_frag_bad_ver t i j hfi hvi hlk']
        have hrt : rebuildToken (ParsedRef.mk (slice t 0 i)
            (startsWith (slice t 0 i) (str "/")) none
            (some (parseFragment (sliceFrom t (i + 1)))) t) rel =
            rel ++ '#' :: t.drop (i + 1) := by
          simp only [rebuildToken]
          rw [hsufi]
        rw [hrt]
        have h1 : indexOfChar (rel ++ '#' :: t.drop (i + 1)) '#' =
            some rel.length := indexOfChar_append_first rel _ '#' hh
        have hpath : slice (rel ++ '#' :: t.drop (i + 1)) 0 rel.length = rel := by
          rw [slice_zero]
          exact List.take_left rel _
        have h2 : lastIndexOfChar
            (slice (rel ++ '#' :: t.drop (i + 1)) 0 rel.length) '@' = none := by
          rw [hpath]
          exact lastIndexOfChar_none rel '@' ha
        rw [parseRef_frag_plain _ rel.length h1 h2, hpath]
        have hfragstr : sliceFrom (rel ++ '#' :: t.drop (i + 1)) (rel.length + 1) =
            t.drop (i + 1) := by
          show (rel ++ '#' :: t.drop (i + 1)).drop (rel.length + 1) = _
          rw [show rel ++ '#' :: t.drop (i + 1) = (rel ++ ['#']) ++ t.drop (i + 1) by simp]
          exact List.drop_left' (by simp)
        rw [hfragstr]
        rfl

/-- `rewriteAttrs` is the composition of its two stages. -/
theorem rewriteAttrs_eq (root cp old new : Str) (attrs : List (Str × Str)) :
    rewriteAttrs root cp old new attrs =
      refsStepF root cp old new (refStepF root cp old new attrs) := by
  unfold rewriteAttrs refStepF refsStepF
  rfl

/-- The token of the original reference string is the original. -/
theorem parseRef_original (t : Str) : (parseRef t).original = t := rfl

/-- `rewriteToken` on a token that does not resolve to the old path. -/
theorem rewriteToken_not_old (root cp old new t : Str)
    (h : resolveTokenTarget root cp t ≠ old) :
    rewriteToken root cp old new t = (t, false) := by
  unfold rewriteToken
  rw [if_neg h]

/-- `rewriteToken` on a token that resolves to the old path. -/
theorem rewriteToken_old (root cp old new t : Str)
    (h : resolveTokenTarget root cp t = old) :
    rewriteToken root cp old new t =
      (rebuildToken (parseRef t) (mkRelative cp new), true) := by
  unfold rewriteToken
  rw [if_pos h]

/-- The change flag of `rewriteToken` decides old-path resolution. -/
theorem rewriteToken_snd (root cp old new t : Str) :
    (rewriteToken root cp old new t).2 =
      decide (resolveTokenTarget root cp t = old) := by
  by_cases h : resolveTokenTarget root cp t = old
  · rw [rewriteToken_old root cp old new t h]
    simp [h]
  · rw [rewriteToken_not_old root cp old new t h]
    simp [h]

/-- An unchanged token passes through `rewriteToken`. -/
theorem rewriteToken_fst_of_ne (root cp old new t : Str)
    (h : resolveTokenTarget root cp t ≠ old) :
    (rewriteToken root cp old new t).1 = t := by
  rw [rewriteToken_not_old root cp old new t h]

/-- Rewritten tokens of a nonempty whitespace-free token stay nonempty
and whitespace-free. -/
theorem rewriteToken_fst_wsfree (root cp old new t : Str)
    (hrel1 : mkRelative cp new ≠ [])
    (hrel2 : ∀ ch ∈ mkRelative cp new, isJsWs ch = false)
    (ht1 : t ≠ []) (ht2 : ∀ ch ∈ t, isJsWs ch = false) :
    (rewriteToken root cp old new t).1 ≠ [] ∧
      ∀ ch ∈ (rewriteToken root cp old new t).1, isJsWs ch = false := by
  by_cases h : resolveTokenTarget root cp t = old
  · rw [rewriteToken_old root cp old new t h]
    constructor
    · show rebuildToken (parseRef t) (mkRelative cp new) ≠ []
      unfold rebuildToken
      intro hnil
      exact hrel1 (List.append_eq_nil.mp hnil).1
    · intro ch hch
      rw [show ((rebuildToken (parseRef t) (mkRelative cp new), true) :
        Str × Bool).1 = rebuildToken (parseRef t) (mkRelative cp new) from rfl] at hch
      unfold rebuildToken at hch
      rcases List.mem_append.mp hch with h1 | h1
      · exact hrel2 ch h1
      · rw [parseRef_original] at h1
        exact ht2 ch (List.drop_subset _ _ h1)
  · rw [rewriteToken_not_old root cp old new t h]
    exact ⟨ht1, ht2⟩

/-- `mkRelative` never builds an absolute path. -/
theorem mkRelative_not_abs (p q : Str) :
    startsWith (mkRelative p q) (str "/") = false := by
  obtain ⟨xs, hx⟩ := mkRelative_head p q
  rw [hx]
  simp [startsWith, str]

/-- `mkRelative` builds a nonempty path. -/
theorem mkRelative_ne_nil (p q : Str) : mkRelative p q ≠ [] := by
  obtain ⟨xs, hx⟩ := mkRelative_head p q
  rw [hx]
  simp

/-- `mkRelative` has no `#` when the target path has none. -/
theorem mkRelative_no_hash (p q : Str) (hq : ∀ ch ∈ q, ch ≠ '#') :
    ('#' : Char) ∉ mkRelative p q := by
  intro hm
  rcases mkRelative_chars p q '#' hm with h | h | h
  · exact absurd h (by decide)
  · exact absurd h (by decide)
  · exact hq '#' h rfl

/-- `mkRelative` has no `@` when the target path has none. -/
theorem mkRelative_no_at (p q : Str) (hq : ∀ ch ∈ q, ch ≠ '@') :
    ('@' : Char) ∉ mkRelative p q := by
  intro hm
  rcases mkRelative_chars p q '@' hm with h | h | h
  · exact absurd h (by decide)
  · exact absurd h (by decide)
  · exact hq '@' h rfl

/-- `mkRelative` is whitespace-free when the target path is. -/
theorem mkRelative_wsfree (p q : Str) (hq : ∀ ch ∈ q, isJsWs ch = false) :
    ∀ ch ∈ mkRelative p q, isJsWs ch = false := by
  intro ch hm
  rcases mkRelative_chars p q ch hm with h | h | h
  · subst h; decide
  · subst h; decide
  · exact hq ch h

/-- The rebuilt token of a token resolving to the old path resolves to
the new path. -/
theorem resolveTokenTarget_rebuild (root cp new t : Str)
    (hcp : wfPath cp = true) (hnw : wfPath new = true)
    (hnodir : splitOnChar new '/' ≠ (splitOnChar cp '/').dropLast)
    (hclean : ∀ ch ∈ new, ch ≠ '@' ∧ ch ≠ '#') :
    resolveTokenTarget root cp
      (rebuildToken (parseRef t) (mkRelative cp new)) = new := by
  have hh := mkRelative_no_hash cp new (fun ch hch => (hclean ch hch).2)
  have ha := mkRelative_no_at cp new (fun ch hch => (hclean ch hch).1)
  have hre := parseRef_rebuildToken t (mkRelative cp new) hh ha
  unfold resolveTokenTarget resolvePath
  rw [hre]
  show (if startsWith (mkRelative cp new) (str "/") = true then
      root ++ mkRelative cp new
    else MemoryFileSystem.resolve cp (mkRelative cp new)) = new
  rw [if_neg (by rw [mkRelative_not_abs cp new]; simp)]
  exact resolve_mkRelative cp new hcp hnw hnodir

/-- The `ref` stage rewrites the `ref` token, leaves `refs` alone, and
counts the rewrite. -/
theorem refStepF_spec (root cp old new : Str) (attrs : List (Str × Str)) :
    refTokens (refStepF root cp old new attrs).1 =
      (refTokens attrs).map (fun t => (rewriteToken root cp old new t).1) ∧
    lookupAttr (refStepF root cp old new attrs).1 (str "refs") =
      lookupAttr attrs (str "refs") ∧
    (refStepF root cp old new attrs).2 =
      ((refTokens attrs).filter
        (fun t => decide (resolveTokenTarget root cp t = old))).length := by
  unfold refStepF refTokens
  cases hl : lookupAttr attrs (str "ref") with
  | none =>
    refine ⟨?_, rfl, ?_⟩
    · simp [hl]
    · simp [hl]
  | some token =>
    dsimp only
    by_cases hres : resolveTokenTarget root cp token = old
    · rw [rewriteToken_old root cp old new token hres]
      rw [if_pos rfl]
      refine ⟨?_, ?_, ?_⟩
      · rw [lookupAttr_setAttr_same attrs (str "ref") _, hl]
        simp [rewriteToken_old root cp old new token hres]
      · exact lookupAttr_setAttr_other attrs (str "ref") _ (str "refs") (by decide)
      · simp [hres]
    · rw [rewriteToken_not_old root cp old new token hres]
      rw [if_neg (by simp)]
      refine ⟨?_, rfl, ?_⟩
      · simp [hl, rewriteToken_not_old root cp old new token hres]
      · simp [hres]

/-- The `refs` stage rewrites every `refs` token, leaves `ref` alone,
and adds the number of rewritten tokens. -/
theorem refsStepF_spec (root cp old new : Str) (p : List (Str × Str) × Nat)
    (hrel1 : mkRelative cp new ≠ [])
    (hrel2 : ∀ ch ∈ mkRelative cp new, isJsWs ch = false) :
    refTokens (refsStepF root cp old new p).1 = refTokens p.1 ∧
    refsTokens (refsStepF root cp old new p).1 =
      (refsTokens p.1).map (fun t => (rewriteToken root cp old new t).1) ∧
    (refsStepF root cp old new p).2 =
      p.2 + ((refsTokens p.1).filter
        (fun t => decide (resolveTokenTarget root cp t = old))).length := by
  unfold refsStepF refsTokens
  cases hl : lookupAttr p.1 (str "refs") with
  | none =>
    refine ⟨rfl, ?_, ?_⟩
    · dsimp only
      rw [hl]
      rfl
    · dsimp only
      simp
  | some refsVal =>
    dsimp only
    have hchanged : (((splitWs refsVal).map
        (fun token => rewriteToken root cp old new token)).filter
          (fun r => r.2)).length =
        ((splitWs refsVal).filter
          (fun t => decide (resolveTokenTarget root cp t = old))).length := by
      rw [List.filter_map]
      rw [List.length_map]
      congr 1
      apply List.filter_congr
      intro t _
      show (rewriteToken root cp old new t).2 = _
      rw [rewriteToken_snd]
    by_cases hch : (((splitWs refsVal).map
        (fun token => rewriteToken root cp old new token)).filter
          (fun r => r.2)).length ≠ 0
    · rw [if_pos hch]
      have hws : ∀ x ∈ (((splitWs refsVal).map
          (fun token => rewriteToken root cp old new token)).map
            (fun r => r.1)),
          x ≠ [] ∧ ∀ ch ∈ x, isJsWs ch = false := by
        intro x hx
        rw [List.map_map, List.mem_map] at hx
        obtain ⟨t, ht, hxt⟩ := hx
        obtain ⟨h1, h2⟩ := splitWs_mem_spec refsVal t ht
        obtain ⟨h3, h4⟩ := rewriteToken_fst_wsfree root cp old new t hrel1 hrel2
          h1 (fun ch hch2 => (h2 ch hch2).1)
        subst hxt
        exact ⟨h3, h4⟩
      refine ⟨?_, ?_, ?_⟩
      · unfold refTokens
        rw [lookupAttr_setAttr_other p.1 (str "refs") _ (str "ref") (by decide)]
      · rw [lookupAttr_setAttr_same p.1 (str "refs") _, hl]
        show splitWs (joinChar _ ' ') = _
        rw [splitWs_joinChar _ hws]
        rw [List.map_map]
        rfl
      · dsimp only
        rw [hchanged]
    · rw [if_neg hch]
      have hzero : ((splitWs refsVal).filter
          (fun t => decide (resolveTokenTarget root cp t = old))).length = 0 := by
        rw [← hchanged]
        omega
      have hall : ∀ t ∈ splitWs refsVal, resolveTokenTarget root cp t ≠ old := by
        intro t ht hres
        have hmem : t ∈ (splitWs refsVal).filter
            (fun t => decide (resolveTokenTarget root cp t = old)) := by
          rw [List.mem_filter]
          exact ⟨ht, by simp [hres]⟩
        rw [List.length_eq_zero.mp hzero] at hmem
        simp at hmem
      refine ⟨rfl, ?_, ?_⟩
      · rw [hl]
        symm
        have hid : ∀ t ∈ splitWs refsVal,
            (fun t => (rewriteToken root cp old new t).1) t = id t := by
          intro t ht
          exact rewriteToken_fst_of_ne root cp old new t (hall t ht)
        rw [List.map_congr_left hid, List.map_id]
      · rw [hzero]
        simp

/-- `rewriteAttrs` rewrites each attribute token in place and counts the
tokens whose resolved target was the old path. -/
theorem rewriteAttrs_spec (root cp old new : Str) (attrs : List (Str × Str))
    (hrel1 : mkRelative cp new ≠ [])
    (hrel2 : ∀ ch ∈ mkRelative cp new, isJsWs ch = false) :
    attrsTokens (rewriteAttrs root cp old new attrs).1 =
      (attrsTokens attrs).map (fun t => (rewriteToken root cp old new t).1) ∧
    (rewriteAttrs root cp old new attrs).2 =
      ((attrsTokens attrs).filter
        (fun t => decide (resolveTokenTarget root cp t = old))).length := by
  rw [rewriteAttrs_eq]
  obtain ⟨ha1, ha2, ha3⟩ := refStepF_spec root cp old new attrs
  obtain ⟨hb1, hb2, hb3⟩ := refsStepF_spec root cp old new
    (refStepF root cp old new attrs) hrel1 hrel2
  have hc : refsTokens (refStepF root cp old new attrs).1 = refsTokens attrs := by
    unfold refsTokens
    rw [ha2]
  constructor
  · unfold attrsTokens
    rw [hb1, ha1, hb2, hc, List.map_append]
  · rw [hb3, ha3, hc]
    unfold attrsTokens
    rw [List.filter_append, List.length_append]

/-- `nodeTokens` splits into attribute tokens and child tokens. -/
theorem nodeTokens_eq (t : Str) (a : List (Str × Str)) (cm : Comments)
    (tx : Option Str) (mx : Option (List MixedItem)) (ch : List ENode)
    (l : Location) (d : Bool) :
    nodeTokens (ENode.mk t a cm tx mx ch l d) =
      attrsTokens a ++ nodeTokensList ch := by
  show (match lookupAttr a (str "ref") with
    | some token => [token]
    | none => []) ++
    (match lookupAttr a (str "refs") with
    | some refsVal => splitWs refsVal
    | none => []) ++ nodeTokensList ch = _
  unfold attrsTokens refTokens refsTokens
  rw [List.append_assoc]

mutual
/-- `rewriteNode` maps each token through `rewriteToken` and counts the
tokens whose resolved target was the old path. -/
theorem nodeTokens_rewriteNode (root cp old new : Str)
    (hrel1 : mkRelative cp new ≠ [])
    (hrel2 : ∀ ch ∈ mkRelative cp new, isJsWs ch = false) :
    ∀ n : ENode,
      nodeTokens (rewriteNode root cp old new n).1 =
        (nodeTokens n).map (fun t => (rewriteToken root cp old new t).1) ∧
      (rewriteNode root cp old new n).2 =
        ((nodeTokens n).filter
          (fun t => decide (resolveTokenTarget root cp t = old))).length
  | ENode.mk t a cm tx mx ch l d => by
    obtain ⟨h1, h2⟩ := rewriteAttrs_spec root cp old new a hrel1 hrel2
    obtain ⟨h3, h4⟩ := nodeTokens_rewriteNodeList root cp old new hrel1 hrel2 ch
    constructor
    · show nodeTokens (ENode.mk t (rewriteAttrs root cp old new a).1 cm tx mx
        (rewriteNodeList root cp old new ch).1 l d) = _
      rw [nodeTokens_eq, nodeTokens_eq, h1, h3, List.map_append]
    · show (rewriteAttrs root cp old new a).2 +
        (rewriteNodeList root cp old new ch).2 = _
      rw [h2, h4, nodeTokens_eq, List.filter_append, List.length_append]

/-- `nodeTokens_rewriteNode` over a children list. -/
theorem nodeTokens_rewriteNodeList (root cp old new : Str)
    (hrel1 : mkRelative cp new ≠ [])
    (hrel2 : ∀ ch ∈ mkRelative cp new, isJsWs ch = false) :
    ∀ l : List ENode,
      nodeTokensList (rewriteNodeList root cp old new l).1 =
        (nodeTokensList l).map (fun t => (rewriteToken root cp old new t).1) ∧
      (rewriteNodeList root cp old new l).2 =
        ((nodeTokensList l).filter
          (fun t => decide (resolveTokenTarget root cp t = old))).length
  | [] => by
    constructor
    · rfl
    · rfl
  | n :: rest => by
    obtain ⟨h1, h2⟩ := nodeTokens_rewriteNode root cp old new hrel1 hrel2 n
    obtain ⟨h3, h4⟩ := nodeTokens_rewriteNodeList root cp old new hrel1 hrel2 rest
    constructor
    · show nodeTokensList ((rewriteNode root cp old new n).1 ::
        (rewriteNodeList root cp old new rest).1) = _
      rw [show nodeTokensList ((rewriteNode root cp old new n).1 ::
        (rewriteNodeList root cp old new rest).1) =
        nodeTokens (rewriteNode root cp old new n).1 ++
          nodeTokensList (rewriteNodeList root cp old new rest).1 from rfl]
      rw [h1, h3]
      rw [show nodeTokensList (n :: rest) =
        nodeTokens n ++ nodeTokensList rest from rfl]
      rw [List.map_append]
    · show (rewriteNode root cp old new n).2 +
        (rewriteNodeList root cp old new rest).2 = _
      rw [h2, h4]
      rw [show nodeTokensList (n :: rest) =
        nodeTokens n ++ nodeTokensList rest from rfl]
      rw [List.filter_append, List.length_append]
end

/-- Successful `move` evaluated in terms of its two per-file stages. -/
theorem move_eq (proj : Project) (oldPath newPath : Str)
    (hext : extname (basename oldPath) = extname (basename newPath))
    (hsrc : proj.files.any (fun f => f.path = oldPath) = true) :
    move proj oldPath newPath = Except.ok
      (MoveResult.mk
        (MovedFile.mk oldPath newPath ::
          (proj.files.filter (isSibling oldPath)).map (fun sib =>
            MovedFile.mk sib.path (siblingNewPath newPath sib.path)))
        ((proj.files.map
            (moveRewriteF proj.projectRoot oldPath newPath)).filterMap (fun fn =>
          if fn.2 ≠ 0 then some (UpdatedCard.mk fn.1.path fn.2) else none)),
       Project.mk proj.projectRoot
        ((proj.files.map
          (moveRewriteF proj.projectRoot oldPath newPath)).map
            (moveRenameF oldPath newPath))) := by
  unfold move
  rw [if_neg (fun hc => hc hext)]
  rw [if_neg (by rw [hsrc]; simp)]
  rfl

/-- The rename stage after the rewrite stage realizes `moveFileSpec`. -/
theorem moveRename_moveRewrite (root oldPath newPath : Str) (f : ProjectFile)
    (hsib : isSibling oldPath f = true → f.tree = none) :
    moveRenameF oldPath newPath (moveRewriteF root oldPath newPath f) =
      moveFileSpec root oldPath newPath f := by
  cases f with
  | mk fp ftr =>
    unfold moveRenameF moveRewriteF moveFileSpec
    dsimp only
    by_cases h1 : fp = oldPath
    · rw [if_pos h1, if_pos h1]
      dsimp only
      rw [if_pos h1]
    · rw [if_neg h1, if_neg h1]
      cases ftr with
      | none =>
        dsimp only
        rw [if_neg h1]
        by_cases h2 : isSibling oldPath (ProjectFile.mk fp none) = true
        · rw [if_pos h2, if_pos h2]
        · rw [if_neg h2, if_neg h2]
          rfl
      | some tr =>
        have h2 : ¬isSibling oldPath (ProjectFile.mk fp (some tr)) = true := by
          intro hs
          have := hsib hs
          simp at this
        dsimp only
        rw [if_neg h1]
        rw [if_neg (show ¬isSibling oldPath (ProjectFile.mk fp
          (some (rewriteNode root fp oldPath newPath tr).1)) = true from h2)]
        rw [if_neg h2]
        rfl

/-- Membership in a project's token enumeration. -/
theorem projTokens_mem (proj : Project) (cp tok : Str) :
    (cp, tok) ∈ projTokens proj ↔
      ∃ f ∈ proj.files, ∃ tr, f.tree = some tr ∧ cp = f.path ∧
        tok ∈ nodeTokens tr := by
  unfold projTokens
  rw [List.mem_flatMap]
  constructor
  · rintro ⟨f, hf, hmem⟩
    cases htr : f.tree with
    | none =>
      rw [htr] at hmem
      simp at hmem
    | some tr =>
      rw [htr] at hmem
      rw [List.mem_map] at hmem
      obtain ⟨t0, ht0, heq⟩ := hmem
      have h1 : f.path = cp := congrArg Prod.fst heq
      have h2 : t0 = tok := congrArg Prod.snd heq
      subst h2
      exact ⟨f, hf, tr, htr, h1.symm, ht0⟩
  · rintro ⟨f, hf, tr, htr, rfl, htok⟩
    refine ⟨f, hf, ?_⟩
    rw [htr]
    exact List.mem_map_of_mem _ htok

/-- C4 (amended): for a well-formed move — matching extensions, present
source, a well-formed, reference-clean new path that is neither the old
path nor the directory of any project file, and attached-media-only
siblings — `move` succeeds, renames the card and its siblings, rewrites
in every *other* card exactly the tokens whose resolved target was the
old path (preserving the version/fragment suffix verbatim, the rewritten
token resolving to the new path), and reports exactly the cards with a
nonzero rewrite count.  The moved card's own tokens (`cp = newPath`) are
exempt from the no-stale-reference guarantee: see `C4_counterexample`. -/
theorem C4_amended_theorem (proj : Project) (oldPath newPath : Str)
    (hext : extname (basename oldPath) = extname (basename newPath))
    (hsrc : proj.files.any (fun f => f.path = oldPath) = true)
    (hno : newPath ≠ oldPath)
    (hwn : wfPath newPath = true)
    (hclean : ∀ ch ∈ newPath, isJsWs ch = false ∧ ch ≠ '@' ∧ ch ≠ '#')
    (hwf : ∀ f ∈ proj.files, wfPath f.path = true)
    (hnodir : ∀ f ∈ proj.files,
      splitOnChar newPath '/' ≠ (splitOnChar f.path '/').dropLast)
    (hsib : ∀ f ∈ proj.files, isSibling oldPath f = true → f.tree = none) :
    ∃ res proj', move proj oldPath newPath = Except.ok (res, proj') ∧
      proj'.files =
        proj.files.map (moveFileSpec proj.projectRoot oldPath newPath) ∧
      res.updatedCards =
        updatedCardsSpec proj.projectRoot oldPath newPath proj.files ∧
      (∀ cp tok, (cp, tok) ∈ projTokens proj' → cp ≠ newPath →
        resolveTokenTarget proj.projectRoot cp tok ≠ oldPath) ∧
      (∀ f ∈ proj.files, f.path ≠ oldPath → ∀ tr, f.tree = some tr →
        nodeTokens (rewriteNode proj.projectRoot f.path oldPath newPath tr).1 =
          (nodeTokens tr).map (fun tok =>
            (rewriteToken proj.projectRoot f.path oldPath newPath tok).1) ∧
        ∀ tok ∈ nodeTokens tr,
          resolveTokenTarget proj.projectRoot f.path tok = oldPath →
          (rewriteToken proj.projectRoot f.path oldPath newPath tok).1 =
            mkRelative f.path newPath ++
              sliceFrom tok (parseRef tok).path.length ∧
          resolveTokenTarget proj.projectRoot f.path
            (rewriteToken proj.projectRoot f.path oldPath newPath tok).1 =
            newPath) := by
  have hreb : ∀ cp tok, wfPath cp = true →
      splitOnChar newPath '/' ≠ (splitOnChar cp '/').dropLast →
      resolveTokenTarget proj.projectRoot cp tok = oldPath →
      (rewriteToken proj.projectRoot cp oldPath newPath tok).1 =
        mkRelative cp newPath ++ sliceFrom tok (parseRef tok).path.length ∧
      resolveTokenTarget proj.projectRoot cp
        (rewriteToken proj.projectRoot cp oldPath newPath tok).1 = newPath := by
    intro cp tok hcp hnd hres
    rw [rewriteToken_old proj.projectRoot cp oldPath newPath tok hres]
    constructor
    · show rebuildToken (parseRef tok) (mkRelative cp newPath) = _
      unfold rebuildToken
      rw [parseRef_original]
    · show resolveTokenTarget proj.projectRoot cp
        (rebuildToken (parseRef tok) (mkRelative cp newPath)) = newPath
      exact resolveTokenTarget_rebuild proj.projectRoot cp newPath tok hcp hwn hnd
        (fun ch hch => ⟨(hclean ch hch).2.1, (hclean ch hch).2.2⟩)
  have hfiles : (proj.files.map
      (moveRewriteF proj.projectRoot oldPath newPath)).map
        (moveRenameF oldPath newPath) =
      proj.files.map (moveFileSpec proj.projectRoot oldPath newPath) := by
    rw [List.map_map]
    exact List.map_congr_left (fun f hf =>
      moveRename_moveRewrite proj.projectRoot oldPath newPath f (hsib f hf))
  have hupd : (proj.files.map
      (moveRewriteF proj.projectRoot oldPath newPath)).filterMap
        (fun fn => if fn.2 ≠ 0 then
          some (UpdatedCard.mk fn.1.path fn.2) else none) =
      updatedCardsSpec proj.projectRoot oldPath newPath proj.files := by
    rw [List.filterMap_map]
    unfold updatedCardsSpec
    apply List.filterMap_congr
    intro f hf
    show (fun fn => if fn.2 ≠ 0 then
      some (UpdatedCard.mk fn.1.path fn.2) else none)
      (moveRewriteF proj.projectRoot oldPath newPath f) = _
    unfold moveRewriteF
    by_cases h1 : f.path = oldPath
    · rw [if_pos h1, if_pos h1]
      simp
    · rw [if_neg h1, if_neg h1]
      cases htr : f.tree with
      | none => simp
      | some tr =>
        obtain ⟨_, hcnt⟩ := nodeTokens_rewriteNode proj.projectRoot f.path
          oldPath newPath (mkRelative_ne_nil f.path newPath)
          (mkRelative_wsfree f.path newPath (fun ch hch => (hclean ch hch).1)) tr
        dsimp only
        rw [hcnt]
  refine ⟨MoveResult.mk
      (MovedFile.mk oldPath newPath ::
        (proj.files.filter (isSibling oldPath)).map (fun sib =>
          MovedFile.mk sib.path (siblingNewPath newPath sib.path)))
      (updatedCardsSpec proj.projectRoot oldPath newPath proj.files),
    Project.mk proj.projectRoot
      (proj.files.map (moveFileSpec proj.projectRoot oldPath newPath)),
    ?_, rfl, rfl, ?_, ?_⟩
  · rw [move_eq proj oldPath newPath hext hsrc, hupd, hfiles]
  · intro cp tok hmem hcp
    rw [projTokens_mem] at hmem
    obtain ⟨f', hf', tr', htr', rfl, htok⟩ := hmem
    rw [show (Project.mk proj.projectRoot (proj.files.map
      (moveFileSpec proj.projectRoot oldPath newPath))).files =
      proj.files.map (moveFileSpec proj.projectRoot oldPath newPath) from rfl] at hf'
    rw [List.mem_map] at hf'
    obtain ⟨f, hf, rfl⟩ := hf'
    by_cases h1 : f.path = oldPath
    · have heq : moveFileSpec proj.projectRoot oldPath newPath f =
          ProjectFile.mk newPath f.tree := by
        unfold moveFileSpec
        rw [if_pos h1]
      rw [heq] at hcp
      exact absurd rfl hcp
    · by_cases h2 : isSibling oldPath f = true
      · have heq : moveFileSpec proj.projectRoot oldPath newPath f =
            ProjectFile.mk (siblingNewPath newPath f.path) f.tree := by
          unfold moveFileSpec
          rw [if_neg h1, if_pos h2]
        rw [heq, hsib f hf h2] at htr'
        simp at htr'
      · have heq : moveFileSpec proj.projectRoot oldPath newPath f =
            ProjectFile.mk f.path (f.tree.map (fun tr =>
              (rewriteNode proj.projectRoot f.path oldPath newPath tr).1)) := by
          unfold moveFileSpec
          rw [if_neg h1, if_neg h2]
        rw [heq] at htr' hcp ⊢
        cases htr0 : f.tree with
        | none =>
          rw [htr0] at htr'
          simp at htr'
        | some tr =>
          rw [htr0] at htr'
          rw [show (ProjectFile.mk f.path ((some tr).map (fun tr =>
            (rewriteNode proj.projectRoot f.path oldPath newPath tr).1))).tree =
            some (rewriteNode proj.projectRoot f.path oldPath newPath tr).1
            from rfl] at htr'
          have htr'' : tr' =
              (rewriteNode proj.projectRoot f.path oldPath newPath tr).1 := by
            injection htr' with h
            exact h.symm
          subst htr''
          obtain ⟨hmap, _⟩ := nodeTokens_rewriteNode proj.projectRoot f.path
            oldPath newPath (mkRelative_ne_nil f.path newPath)
            (mkRelative_wsfree f.path newPath (fun ch hch => (hclean ch hch).1)) tr
          rw [hmap] at htok
          rw [List.mem_map] at htok
          obtain ⟨t0, ht0, rfl⟩ := htok
          show resolveTokenTarget proj.projectRoot f.path
            (rewriteToken proj.projectRoot f.path oldPath newPath t0).1 ≠ oldPath
          by_cases hres : resolveTokenTarget proj.projectRoot f.path t0 = oldPath
          · rw [(hreb f.path t0 (hwf f hf) (hnodir f hf) hres).2]
            exact hno
          · rw [rewriteToken_fst_of_ne proj.projectRoot f.path oldPath newPath
              t0 hres]
            exact hres
  · intro f hf hne tr htr
    obtain ⟨hmap, _⟩ := nodeTokens_rewriteNode proj.projectRoot f.path
      oldPath newPath (mkRelative_ne_nil f.path newPath)
      (mkRelative_wsfree f.path newPath (fun ch hch => (hclean ch hch).1)) tr
    refine ⟨hmap, ?_⟩
    intro tok htok hres
    exact hreb f.path tok (hwf f hf) (hnodir f hf) hres


end Cardworks


namespace Cardworks

/-- C4 counterexample: the claim says that after `move` completes no
remaining `ref`/`refs` token in the project resolves to the old path.
But `move` skips the moved card itself when rewriting, so after moving
the self-referencing `A.card` to `B.card` the moved card still holds the
token `./A.card`, which resolves to the old path `/p/A.card`. -/
theorem C4_counterexample :
    move C4selfProj (str "/p/A.card") (str "/p/B.card") =
      Except.ok (okOrDummyMove
        (move C4selfProj (str "/p/A.card") (str "/p/B.card"))) ∧
    projTokens (okOrDummyMove
        (move C4selfProj (str "/p/A.card") (str "/p/B.card"))).2 =
      [(str "/p/B.card", str "./A.card")] ∧
    resolveTokenTarget (str "/p") (str "/p/B.card") (str "./A.card") =
      str "/p/A.card" ∧
    (str "/p/A.card" : Str) ≠ str "/p/B.card" :=
  ⟨rfl, rfl, rfl, by decide⟩

/-- Witness for the amended C4 theorem: moving `/p/B.card` to
`/p/D.card` in a two-card project where `A.card` references `B.card`
through `ref` and `refs` tokens with version and fragment suffixes. -/
theorem C4_amended_theorem_witness :
    (extname (basename (str "/p/B.card")) =
      extname (basename (str "/p/D.card"))) ∧
    (C4exProj.files.any (fun f => f.path = str "/p/B.card") = true) ∧
    ((str "/p/D.card" : Str) ≠ str "/p/B.card") ∧
    (wfPath (str "/p/D.card") = true) ∧
    (∀ ch ∈ (str "/p/D.card" : Str),
      isJsWs ch = false ∧ ch ≠ '@' ∧ ch ≠ '#') ∧
    (∀ f ∈ C4exProj.files, wfPath f.path = true) ∧
    (∀ f ∈ C4exProj.files,
      splitOnChar (str "/p/D.card") '/' ≠ (splitOnChar f.path '/').dropLast) ∧
    (∀ f ∈ C4exProj.files,
      isSibling (str "/p/B.card") f = true → f.tree = none) ∧
    (∃ res proj',
      move C4exProj (str "/p/B.card") (str "/p/D.card") =
        Except.ok (res, proj') ∧
      proj'.files = C4exProj.files.map
        (moveFileSpec C4exProj.projectRoot (str "/p/B.card")
          (str "/p/D.card")) ∧
      res.updatedCards = updatedCardsSpec C4exProj.projectRoot
        (str "/p/B.card") (str "/p/D.card") C4exProj.files ∧
      (∀ cp tok, (cp, tok) ∈ projTokens proj' → cp ≠ str "/p/D.card" →
        resolveTokenTarget C4exProj.projectRoot cp tok ≠ str "/p/B.card") ∧
      (∀ f ∈ C4exProj.files, f.path ≠ str "/p/B.card" → ∀ tr,
        f.tree = some tr →
        nodeTokens (rewriteNode C4exProj.projectRoot f.path
          (str "/p/B.card") (str "/p/D.card") tr).1 =
          (nodeTokens tr).map (fun tok =>
            (rewriteToken C4exProj.projectRoot f.path (str "/p/B.card")
              (str "/p/D.card") tok).1) ∧
        ∀ tok ∈ nodeTokens tr,
          resolveTokenTarget C4exProj.projectRoot f.path tok =
            str "/p/B.card" →
          (rewriteToken C4exProj.projectRoot f.path (str "/p/B.card")
            (str "/p/D.card") tok).1 =
            mkRelative f.path (str "/p/D.card") ++
              sliceFrom tok (parseRef tok).path.length ∧
          resolveTokenTarget C4exProj.projectRoot f.path
            (rewriteToken C4exProj.projectRoot f.path (str "/p/B.card")
              (str "/p/D.card") tok).1 =
            str "/p/D.card")) := by
  have h1 : extname (basename (str "/p/B.card")) =
      extname (basename (str "/p/D.card")) := by decide
  have h2 : C4exProj.files.any (fun f => f.path = str "/p/B.card") = true := by
    decide
  have h3 : (str "/p/D.card" : Str) ≠ str "/p/B.card" := by decide
  have h4 : wfPath (str "/p/D.card") = true := by decide
  have h5 : ∀ ch ∈ (str "/p/D.card" : Str),
      isJsWs ch = false ∧ ch ≠ '@' ∧ ch ≠ '#' := by decide
  have h6 : ∀ f ∈ C4exProj.files, wfPath f.path = true := by decide
  have h7 : ∀ f ∈ C4exProj.files,
      splitOnChar (str "/p/D.card") '/' ≠ (splitOnChar f.path '/').dropLast := by
    decide
  have h8 : ∀ f ∈ C4exProj.files,
      isSibling (str "/p/B.card") f = true → f.tree = none := by
    intro f hf hs
    exfalso
    rcases List.mem_cons.mp hf with h | h
    · subst h
      exact absurd hs (by decide)
    · rcases List.mem_cons.mp h with h | h
      · subst h
        exact absurd hs (by decide)
      · simp at h
  exact ⟨h1, h2, h3, h4, h5, h6, h7, h8,
    C4_amended_theorem C4exProj (str "/p/B.card") (str "/p/D.card")
      h1 h2 h3 h4 h5 h6 h7 h8⟩

end Cardworks

namespace Cardworks

/-- C1 counterexample: the claim requires `parse(serialize(D))` to have
fragment-kind structure identical to `D`.  In the parse of `C1badX` the
child `<e>` holds mixed content of kinds text/comment/text, but
`serializeMixedContent` writes an element item with empty `text` and
`children` as a self-closing tag, so the reparse of the serialization
gives the child no mixed content at all. -/
theorem C1_counterexample :
    parseXml C1badX C1src =
      Except.ok (okOrDummy (parseXml C1badX C1src)) ∧
    parseXml (serialize (okOrDummy (parseXml C1badX C1src))) C1src =
      Except.ok (okOrDummy
        (parseXml (serialize (okOrDummy (parseXml C1badX C1src))) C1src)) ∧
    fragKinds ((headOrDummy
        (okOrDummy (parseXml C1badX C1src)).children).mixed) =
      some [0, 1, 0] ∧
    fragKinds ((headOrDummy (okOrDummy (parseXml
        (serialize (okOrDummy (parseXml C1badX C1src))) C1src)).children).mixed) =
      none :=
  ⟨rfl, rfl, rfl, rfl⟩

end Cardworks

namespace Cardworks

/-- A string starts with itself followed by anything. -/
theorem startsWith_append_self (p r : Str) : startsWith (p ++ r) p = true := by
  unfold startsWith
  rw [List.take_left]
  simp

/-- Entity decodings used by the serializer. -/
theorem parseEntity_amp (r : Str) : parseEntity (str "amp;" ++ r) = some ('&', r) := by
  unfold parseEntity
  rw [if_pos (startsWith_append_self (str "amp;") r)]
  rw [List.drop_left' (show (str "amp;").length = 4 from rfl)]

theorem parseEntity_lt (r : Str) : parseEntity (str "lt;" ++ r) = some ('<', r) := by
  unfold parseEntity
  rw [if_neg ?h1, if_pos (startsWith_append_self (str "lt;") r)]
  case h1 =>
    show ¬startsWith (str "lt;" ++ r) (str "amp;") = true
    unfold startsWith
    simp [str]
  rw [List.drop_left' (show (str "lt;").length = 3 from rfl)]

theorem parseEntity_gt (r : Str) : parseEntity (str "gt;" ++ r) = some ('>', r) := by
  unfold parseEntity
  rw [if_neg ?h1, if_neg ?h2, if_pos (startsWith_append_self (str "gt;") r)]
  case h1 =>
    show ¬startsWith (str "gt;" ++ r) (str "amp;") = true
    unfold startsWith
    simp [str]
  case h2 =>
    show ¬startsWith (str "gt;" ++ r) (str "lt;") = true
    unfold startsWith
    simp [str]
  rw [List.drop_left' (show (str "gt;").length = 3 from rfl)]

theorem parseEntity_quot (r : Str) : parseEntity (str "quot;" ++ r) = some ('"', r) := by
  unfold parseEntity
  rw [if_neg ?h1, if_neg ?h2, if_neg ?h3,
    if_pos (startsWith_append_self (str "quot;") r)]
  case h1 =>
    show ¬startsWith (str "quot;" ++ r) (str "amp;") = true
    unfold startsWith
    simp [str]
  case h2 =>
    show ¬startsWith (str "quot;" ++ r) (str "lt;") = true
    unfold startsWith
    simp [str]
  case h3 =>
    show ¬startsWith (str "quot;" ++ r) (str "gt;") = true
    unfold startsWith
    simp [str]
  rw [List.drop_left' (show (str "quot;").length = 5 from rfl)]

/-- The tokenizer's text scan undoes `escapeText`, stopping at the end
of input or at a `<`. -/
theorem parseTextRun_escape (s : Str) : ∀ (fuel : Nat) (r : Str),
    s.length < fuel → (r = [] ∨ ∃ r', r = '<' :: r') →
    parseTextRun fuel (escapeText s ++ r) = some (s, r) := by
  induction s with
  | nil =>
    intro fuel r hf hr
    cases fuel with
    | zero => omega
    | succ f =>
      show parseTextRun (f + 1) r = some ([], r)
      rcases hr with h | ⟨r', h⟩
      · subst h; rfl
      · subst h
        unfold parseTextRun
        dsimp only
        rw [if_pos rfl]
  | cons c rest ih =>
    intro fuel r hf hr
    cases fuel with
    | zero => omega
    | succ f =>
      have hfr : rest.length < f := by
        simp only [List.length_cons] at hf
        omega
      have hih := ih f r hfr hr
      by_cases h1 : c = '&'
      · subst h1
        show parseTextRun (f + 1)
          ((str "&amp;" ++ escapeText rest) ++ r) = some ('&' :: rest, r)
        rw [List.append_assoc]
        show parseTextRun (f + 1)
          ('&' :: (str "amp;" ++ (escapeText rest ++ r))) = some ('&' :: rest, r)
        unfold parseTextRun
        dsimp only
        rw [if_neg (by decide), if_pos rfl]
        rw [parseEntity_amp (escapeText rest ++ r)]
        dsimp only
        rw [hih]
      · by_cases h2 : c = '<'
        · subst h2
          show parseTextRun (f + 1)
            ((str "&lt;" ++ escapeText rest) ++ r) = some ('<' :: rest, r)
          rw [List.append_assoc]
          show parseTextRun (f + 1)
            ('&' :: (str "lt;" ++ (escapeText rest ++ r))) = some ('<' :: rest, r)
          unfold parseTextRun
          dsimp only
          rw [if_neg (by decide), if_pos rfl]
          rw [parseEntity_lt (escapeText rest ++ r)]
          dsimp only
          rw [hih]
        · by_cases h3 : c = '>'
          · subst h3
            show parseTextRun (f + 1)
              ((str "&gt;" ++ escapeText rest) ++ r) = some ('>' :: rest, r)
            rw [List.append_assoc]
            show parseTextRun (f + 1)
              ('&' :: (str "gt;" ++ (escapeText rest ++ r))) = some ('>' :: rest, r)
            unfold parseTextRun
            dsimp only
            rw [if_neg (by decide), if_pos rfl]
            rw [parseEntity_gt (escapeText rest ++ r)]
            dsimp only
            rw [hih]
          · have hesc : escapeText (c :: rest) = [c] ++ escapeText rest := by
              conv_lhs => rw [escapeText]
              rw [if_neg h1, if_neg h2, if_neg h3]
            rw [hesc, List.append_assoc]
            show parseTextRun (f + 1)
              (c :: (escapeText rest ++ r)) = some (c :: rest, r)
            unfold parseTextRun
            dsimp only
            rw [if_neg h2, if_neg h1, hih]

/-- The tokenizer's attribute-value scan undoes `escapeAttr`, stopping
at the closing double quote. -/
theorem parseAttrValue_escape (v : Str) : ∀ (fuel : Nat) (r : Str),
    v.length < fuel →
    parseAttrValue fuel '"' (escapeAttr v ++ '"' :: r) = some (v, r) := by
  induction v with
  | nil =>
    intro fuel r hf
    cases fuel with
    | zero => omega
    | succ f =>
      show parseAttrValue (f + 1) '"' ('"' :: r) = some ([], r)
      unfold parseAttrValue
      dsimp only
      rw [if_pos rfl]
  | cons c rest ih =>
    intro fuel r hf
    cases fuel with
    | zero => omega
    | succ f =>
      have hfr : rest.length < f := by
        simp only [List.length_cons] at hf
        omega
      have hih := ih f r hfr
      by_cases h1 : c = '&'
      · subst h1
        show parseAttrValue (f + 1) '"'
          ((str "&amp;" ++ escapeAttr rest) ++ '"' :: r) = some ('&' :: rest, r)
        rw [List.append_assoc]
        show parseAttrValue (f + 1) '"'
          ('&' :: (str "amp;" ++ (escapeAttr rest ++ '"' :: r))) =
          some ('&' :: rest, r)
        unfold parseAttrValue
        dsimp only
        rw [if_neg (by decide), if_neg (by decide), if_pos rfl]
        rw [parseEntity_amp (escapeAttr rest ++ '"' :: r)]
        dsimp only
        rw [hih]
      · by_cases h2 : c = '<'
        · subst h2
          show parseAttrValue (f + 1) '"'
            ((str "&lt;" ++ escapeAttr rest) ++ '"' :: r) = some ('<' :: rest, r)
          rw [List.append_assoc]
          show parseAttrValue (f + 1) '"'
            ('&' :: (str "lt;" ++ (escapeAttr rest ++ '"' :: r))) =
            some ('<' :: rest, r)
          unfold parseAttrValue
          dsimp only
          rw [if_neg (by decide), if_neg (by decide), if_pos rfl]
          rw [parseEntity_lt (escapeAttr rest ++ '"' :: r)]
          dsimp only
          rw [hih]
        · by_cases h3 : c = '>'
          · subst h3
            show parseAttrValue (f + 1) '"'
              ((str "&gt;" ++ escapeAttr rest) ++ '"' :: r) = some ('>' :: rest, r)
            rw [List.append_assoc]
            show parseAttrValue (f + 1) '"'
              ('&' :: (str "gt;" ++ (escapeAttr rest ++ '"' :: r))) =
              some ('>' :: rest, r)
            unfold parseAttrValue
            dsimp only
            rw [if_neg (by decide), if_neg (by decide), if_pos rfl]
            rw [parseEntity_gt (escapeAttr rest ++ '"' :: r)]
            dsimp only
            rw [hih]
          · by_cases h4 : c = '"'
            · subst h4
              show parseAttrValue (f + 1) '"'
                ((str "&quot;" ++ escapeAttr rest) ++ '"' :: r) =
                some ('"' :: rest, r)
              rw [List.append_assoc]
              show parseAttrValue (f + 1) '"'
                ('&' :: (str "quot;" ++ (escapeAttr rest ++ '"' :: r))) =
                some ('"' :: rest, r)
              unfold parseAttrValue
              dsimp only
              rw [if_neg (by decide), if_neg (by decide), if_pos rfl]
              rw [parseEntity_quot (escapeAttr rest ++ '"' :: r)]
              dsimp only
              rw [hih]
            · have hesc : escapeAttr (c :: rest) = [c] ++ escapeAttr rest := by
                conv_lhs => rw [escapeAttr]
                rw [if_neg h1, if_neg h2, if_neg h3, if_neg h4]
              rw [hesc, List.append_assoc]
              show parseAttrValue (f + 1) '"'
                (c :: (escapeAttr rest ++ '"' :: r)) = some (c :: rest, r)
              unfold parseAttrValue
              dsimp only
              rw [if_neg h4, if_neg h2, if_neg h1, hih]

/-- `takeWhile` splits exactly at the first failing character. -/
theorem takeWhile_append_exact (p : Char → Bool) (t : Str) : ∀ (r : Str),
    (∀ c ∈ t, p c = true) → (r = [] ∨ ∃ c r', r = c :: r' ∧ p c = false) →
    (t ++ r).takeWhile p = t := by
  induction t with
  | nil =>
    intro r _ hr
    rcases hr with h | ⟨c, r', h, hc⟩
    · subst h; rfl
    · subst h
      simp [List.takeWhile_cons, hc]
  | cons d t ih =>
    intro r ht hr
    simp only [List.cons_append, List.takeWhile_cons, ht d (by simp)]
    rw [ih r (fun c hc => ht c (by simp [hc])) hr]
    simp

/-- The tokenizer's name scan reads exactly a serialized name. -/
theorem parseXName_exact (t : Str) (r : Str) (ht : isName t = true)
    (hr : r = [] ∨ ∃ c r', r = c :: r' ∧ isNameChar c = false) :
    parseXName (t ++ r) = some (t, r) := by
  have htw : (t ++ r).takeWhile (fun c => isNameChar c) = t := by
    apply takeWhile_append_exact
    · intro c hc
      unfold isName at ht
      rw [Bool.and_eq_true] at ht
      exact List.all_eq_true.mp ht.2 c hc
    · exact hr
  unfold parseXName
  rw [htw]
  rw [if_neg (by
    unfold isName at ht
    rw [Bool.and_eq_true] at ht
    simpa using ht.1)]
  rw [List.drop_left]

/-- One-step shape of `attrsTail`. -/
theorem attrsTail_cons (n v : Str) (rest : List (Str × Str)) (r : Str) :
    attrsTail ((n, v) :: rest) r =
      ' ' :: ((n ++ str "=\"" ++ escapeAttr v ++ str "\"") ++ attrsTail rest r) := by
  cases rest with
  | nil =>
    show str " " ++ joinChar [n ++ str "=\"" ++ escapeAttr v ++ str "\""] ' ' ++ r = _
    rw [show joinChar [n ++ str "=\"" ++ escapeAttr v ++ str "\""] ' ' =
      n ++ str "=\"" ++ escapeAttr v ++ str "\"" from rfl]
    rw [show attrsTail ([] : List (Str × Str)) r = r from rfl]
    simp [str, List.append_assoc]
  | cons a rest2 =>
    show str " " ++ joinChar ((n ++ str "=\"" ++ escapeAttr v ++ str "\"") ::
      (a.1 ++ str "=\"" ++ escapeAttr a.2 ++ str "\"") ::
      (rest2.map (fun p => p.1 ++ str "=\"" ++ escapeAttr p.2 ++ str "\""))) ' ' ++ r = _
    rw [show joinChar ((n ++ str "=\"" ++ escapeAttr v ++ str "\"") ::
      (a.1 ++ str "=\"" ++ escapeAttr a.2 ++ str "\"") ::
      (rest2.map (fun p => p.1 ++ str "=\"" ++ escapeAttr p.2 ++ str "\""))) ' ' =
      (n ++ str "=\"" ++ escapeAttr v ++ str "\"") ++ ' ' ::
        joinChar ((a.1 ++ str "=\"" ++ escapeAttr a.2 ++ str "\"") ::
          (rest2.map (fun p => p.1 ++ str "=\"" ++ escapeAttr p.2 ++ str "\""))) ' '
      from rfl]
    show _ = ' ' :: ((n ++ str "=\"" ++ escapeAttr v ++ str "\"") ++
      (str " " ++ serializeAttrs (a :: rest2) ++ r))
    unfold serializeAttrs
    simp [str, List.append_assoc]

/-- Whitespace characters are not name characters. -/
theorem ws_not_nameChar (c : Char) (h : isJsWs c = true) : isNameChar c = false := by
  unfold isJsWs at h
  simp only [Bool.or_eq_true, decide_eq_true_eq] at h
  rcases h with ((((h | h) | h) | h) | h) | h <;> subst h <;> decide

/-- Name characters are not whitespace. -/
theorem nameChar_not_ws (c : Char) (h : isNameChar c = true) : isJsWs c = false := by
  cases hw : isJsWs c with
  | false => rfl
  | true => rw [ws_not_nameChar c hw] at h; exact absurd h (by simp)

/-- `trimStart` drops a leading space. -/
theorem trimStart_space (x : Str) : trimStart (' ' :: x) = trimStart x := by
  unfold trimStart
  rw [List.dropWhile_cons, if_pos (show isJsWs ' ' = true from by decide)]

/-- `trimStart` keeps a non-whitespace head. -/
theorem trimStart_keep (c : Char) (x : Str) (h : isJsWs c = false) :
    trimStart (c :: x) = c :: x := by
  unfold trimStart
  rw [List.dropWhile_cons, if_neg (by rw [h]; simp)]

/-- In a well-formed attribute list, any middle name is a name and does
not occur earlier. -/
theorem attrNamesOk_mid (n v : Str) (l2 : List (Str × Str)) :
    ∀ (l1 : List (Str × Str)), attrNamesOk (l1 ++ (n, v) :: l2) = true →
    isName n = true ∧ (l1.any (fun p => p.1 = n)) = false := by
  intro l1
  induction l1 with
  | nil =>
    intro h
    rw [List.nil_append] at h
    unfold attrNamesOk at h
    simp only [Bool.and_eq_true] at h
    exact ⟨h.1.1, rfl⟩
  | cons a l1 ih =>
    intro h
    cases a with
    | mk m w =>
      rw [List.cons_append] at h
      unfold attrNamesOk at h
      simp only [Bool.and_eq_true] at h
      obtain ⟨⟨hm, hnot⟩, hrest⟩ := h
      obtain ⟨h1, h2⟩ := ih hrest
      refine ⟨h1, ?_⟩
      rw [List.any_cons]
      simp only [Bool.or_eq_false_iff]
      constructor
      · simp only [Bool.not_eq_true'] at hnot
        rw [List.any_append] at hnot
        simp only [Bool.or_eq_false_iff] at hnot
        have := hnot.2
        rw [List.any_cons] at this
        simp only [Bool.or_eq_false_iff] at this
        have hne := this.1
        simp only [decide_eq_false_iff_not] at hne
        simpa using fun he => hne he.symm
      · exact h2

/-- Escaping an attribute value never shortens it. -/
theorem escapeAttr_length_ge (v : Str) : v.length ≤ (escapeAttr v).length := by
  induction v with
  | nil => simp [escapeAttr]
  | cons c rest ih =>
    conv_rhs => rw [escapeAttr]
    rw [List.length_append]
    have h1 : 1 ≤ (if c = '&' then str "&amp;"
        else if c = '<' then str "&lt;"
        else if c = '>' then str "&gt;"
        else if c = '"' then str "&quot;"
        else [c]).length := by
      split_ifs <;> simp [str]
    simp only [List.length_cons]
    omega

/-- Escaping text never shortens it. -/
theorem escapeText_length_ge (v : Str) : v.length ≤ (escapeText v).length := by
  induction v with
  | nil => simp [escapeText]
  | cons c rest ih =>
    conv_rhs => rw [escapeText]
    rw [List.length_append]
    have h1 : 1 ≤ (if c = '&' then str "&amp;"
        else if c = '<' then str "&lt;"
        else if c = '>' then str "&gt;"
        else [c]).length := by
      split_ifs <;> simp [str]
    simp only [List.length_cons]
    omega

/-- The tokenizer's attribute-list scan undoes `serializeAttrs`. -/
theorem parseAttrList_serialized (attrs : List (Str × Str)) :
    ∀ (fuel : Nat) (acc : List (Str × Str)) (r : Str),
    attrs.length < fuel →
    attrNamesOk (acc ++ attrs) = true →
    (∃ c r', r = c :: r' ∧ (c = '/' ∨ c = '>')) →
    parseAttrList fuel (attrsTail attrs r) acc = some (acc ++ attrs, r) := by
  induction attrs with
  | nil =>
    intro fuel acc r hf _ hr
    obtain ⟨c, r', hr1, hr2⟩ := hr
    cases fuel with
    | zero => omega
    | succ f =>
      show parseAttrList (f + 1) r acc = some (acc ++ [], r)
      unfold parseAttrList
      dsimp only
      subst hr1
      rw [trimStart_keep c r' (by rcases hr2 with h | h <;> subst h <;> decide)]
      dsimp only
      rw [if_pos (by rcases hr2 with h | h <;> subst h <;> simp)]
      simp
  | cons a rest ih =>
    intro fuel acc r hf hok hr
    cases a with
    | mk n v =>
      cases fuel with
      | zero => omega
      | succ f =>
        have hfr : rest.length < f := by
          simp only [List.length_cons] at hf
          omega
        obtain ⟨hname, hdup⟩ := attrNamesOk_mid n v rest acc hok
        -- the name is nonempty and starts with a name character
        have hn0 : n ≠ [] := by
          unfold isName at hname
          rw [Bool.and_eq_true] at hname
          simpa using hname.1
        obtain ⟨nh, nt, hnht⟩ : ∃ nh nt, n = nh :: nt := by
          cases n with
          | nil => exact absurd rfl hn0
          | cons x y => exact ⟨x, y, rfl⟩
        have hnch : isNameChar nh = true := by
          unfold isName at hname
          rw [Bool.and_eq_true] at hname
          exact List.all_eq_true.mp hname.2 nh (by rw [hnht]; simp)
        rw [attrsTail_cons]
        unfold parseAttrList
        dsimp only
        rw [trimStart_space]
        rw [show (n ++ str "=\"" ++ escapeAttr v ++ str "\"") ++ attrsTail rest r =
          n ++ (str "=\"" ++ escapeAttr v ++ str "\"" ++ attrsTail rest r) from by
          simp [List.append_assoc]]
        rw [hnht, List.cons_append]
        rw [trimStart_keep nh (nt ++ (str "=\"" ++ escapeAttr v ++ str "\"" ++
          attrsTail rest r)) (nameChar_not_ws nh hnch)]
        dsimp only
        rw [if_neg (by
          have : isNameChar nh = true := hnch
          intro hc
          rcases Bool.or_eq_true _ _ |>.mp hc with h | h
          · rw [show nh = '/' from by simpa using h] at this
            exact absurd this (by decide)
          · rw [show nh = '>' from by simpa using h] at this
            exact absurd this (by decide))]
        rw [← List.cons_append, ← hnht]
        rw [parseXName_exact n (str "=\"" ++ escapeAttr v ++ str "\"" ++
          attrsTail rest r) hname (Or.inr ⟨'=', _, rfl, by decide⟩)]
        dsimp only
        rw [show (acc.any (fun p => p.1 = n)) = false from hdup]
        rw [if_neg (by simp)]
        rw [show str "=\"" ++ escapeAttr v ++ str "\"" ++ attrsTail rest r =
          '=' :: ('"' :: (escapeAttr v ++ ('"' :: attrsTail rest r))) from by
          simp [str, List.append_assoc]]
        rw [trimStart_keep '=' ('"' :: (escapeAttr v ++ ('"' :: attrsTail rest r)))
          (by decide)]
        simp only []
        rw [trimStart_keep '"' (escapeAttr v ++ ('"' :: attrsTail rest r))
          (by decide)]
        dsimp only
        rw [if_pos (by simp)]
        rw [parseAttrValue_escape v
          ((escapeAttr v ++ ('"' :: attrsTail rest r)).length.succ)
          (attrsTail rest r)
          (by
            have := escapeAttr_length_ge v
            rw [List.length_append]
            simp only [List.length_cons]
            omega)]
        dsimp only
        have hres := ih f (acc ++ [(n, v)]) r hfr
          (by rw [show (acc ++ [(n, v)]) ++ rest = acc ++ (n, v) :: rest from by
            simp]; exact hok) hr
        rw [hres]
        rw [show (acc ++ [(n, v)]) ++ rest = acc ++ (n, v) :: rest from by simp]

/-- Unpacked fields of a pure node. -/
theorem wfPure_fields (t : Str) (a : List (Str × Str)) (cm : Comments)
    (tx : Option Str) (mx : Option (List MixedItem)) (ch : List ENode)
    (l : Location) (dd : Bool)
    (h : wfPure (ENode.mk t a cm tx mx ch l dd) = true) :
    isName t = true ∧ attrNamesOk a = true ∧ cm.start = none ∧
    cm.endc = none ∧ mx = none ∧
    (tx = none ∨ ∃ s, tx = some s ∧ normalText s = true ∧ ch = []) ∧
    l = emptyLocation [] ∧ dd = false ∧ wfPureList ch = true := by
  rw [show wfPure (ENode.mk t a cm tx mx ch l dd) =
    (isName t && attrNamesOk a && optNone cm.start && optNone cm.endc &&
      optNone mx && textOk tx ch && decide (l = emptyLocation []) && !dd &&
      wfPureList ch) from rfl] at h
  simp only [Bool.and_eq_true] at h
  obtain ⟨⟨⟨⟨⟨⟨⟨⟨h1, h2⟩, h3⟩, h4⟩, h5⟩, h6⟩, h7⟩, h8⟩, h9⟩ := h
  refine ⟨h1, h2, ?_, ?_, ?_, ?_, ?_, ?_, h9⟩
  · cases hs : cm.start with
    | none => rfl
    | some c => rw [hs] at h3; exact absurd h3 (by simp [optNone])
  · cases hs : cm.endc with
    | none => rfl
    | some c => rw [hs] at h4; exact absurd h4 (by simp [optNone])
  · cases hs : mx with
    | none => rfl
    | some m => rw [hs] at h5; exact absurd h5 (by simp [optNone])
  · cases hs : tx with
    | none => exact Or.inl rfl
    | some str2 =>
      rw [hs] at h6
      unfold textOk at h6
      simp only [Bool.and_eq_true] at h6
      refine Or.inr ⟨str2, rfl, h6.1, ?_⟩
      simpa using h6.2
  · simpa using h7
  · simpa using h8

/-- A pure forest is pointwise pure. -/
theorem wfPureList_cons (c : ENode) (rest : List ENode)
    (h : wfPureList (c :: rest) = true) :
    wfPure c = true ∧ wfPureList rest = true := by
  rw [show wfPureList (c :: rest) = (wfPure c && wfPureList rest) from rfl] at h
  simpa [Bool.and_eq_true] using h

/-- One-step evaluation of `serializeNode` on a comment-free,
mixed-free node. -/
theorem serializeNode_pure_eq (t : Str) (a : List (Str × Str))
    (tx : Option Str) (ch : List ENode) (l : Location) (dd : Bool)
    (lines : List Str) (d : Nat) (ind : Str) :
    serializeNode (ENode.mk t a (Comments.mk none none) tx none ch l dd)
      lines d ind =
      (if (!(!ch.isEmpty) && !truthy tx && !false) = true then
        lines ++ [repeatStr ind d ++ tagOpenStr t a ++ str "/>"]
      else if (truthy tx && !(!ch.isEmpty)) = true then
        if (serializeTextContent (tx.getD []) d ind).contains '\n' = true then
          lines ++ [repeatStr ind d ++ tagOpenStr t a ++ str ">"] ++
            [serializeTextContent (tx.getD []) d ind] ++
            [repeatStr ind d ++ str "</" ++ t ++ str ">"]
        else
          lines ++ [repeatStr ind d ++ tagOpenStr t a ++ str ">" ++
            escapeText (serializeTextContent (tx.getD []) d ind) ++
            str "</" ++ t ++ str ">"]
      else if false = true then
        lines ++ [repeatStr ind d ++ tagOpenStr t a ++ str ">" ++ ([] : Str) ++
          str "</" ++ t ++ str ">"]
      else
        serializeChildren ch
          (lines ++ [repeatStr ind d ++ tagOpenStr t a ++ str ">"])
          (d + 1) ind ++
          [repeatStr ind d ++ str "</" ++ t ++ str ">"]) := rfl

mutual
/-- `serializeNode` of a pure node only appends to its lines argument. -/
theorem serializeNode_append_pure : ∀ (n : ENode), wfPure n = true →
    ∀ (lines : List Str) (d : Nat) (ind : Str),
    serializeNode n lines d ind = lines ++ serializeNode n [] d ind
  | ENode.mk t a cm tx mx ch l dd => by
    intro hwf lines d ind
    obtain ⟨_, _, hcs, hce, hmx, _, _, _, hch⟩ :=
      wfPure_fields t a cm tx mx ch l dd hwf
    cases cm with
    | mk cst cen =>
      simp only at hcs hce
      subst hcs
      subst hce
      subst hmx
      rw [serializeNode_pure_eq, serializeNode_pure_eq]
      by_cases hb1 : (!(!ch.isEmpty) && !truthy tx && !false) = true
      · rw [if_pos hb1, if_pos hb1]
        simp
      · rw [if_neg hb1, if_neg hb1]
        by_cases hb2 : (truthy tx && !(!ch.isEmpty)) = true
        · rw [if_pos hb2, if_pos hb2]
          by_cases hb3 : (serializeTextContent (tx.getD []) d ind).contains '\n' = true
          · rw [if_pos hb3, if_pos hb3]
            simp
          · rw [if_neg hb3, if_neg hb3]
            simp
        · rw [if_neg hb2, if_neg hb2]
          rw [if_neg (by simp), if_neg (by simp)]
          rw [serializeChildren_append_pure ch hch
            (lines ++ [repeatStr ind d ++ tagOpenStr t a ++ str ">"]) (d + 1) ind]
          rw [serializeChildren_append_pure ch hch
            ([] ++ [repeatStr ind d ++ tagOpenStr t a ++ str ">"]) (d + 1) ind]
          simp

/-- `serializeChildren` of a pure forest only appends. -/
theorem serializeChildren_append_pure : ∀ (cs : List ENode),
    wfPureList cs = true → ∀ (lines : List Str) (d : Nat) (ind : Str),
    serializeChildren cs lines d ind = lines ++ serializeChildren cs [] d ind
  | [] => by
    intro _ lines d ind
    show lines = lines ++ []
    simp
  | c :: rest => by
    intro hwf lines d ind
    obtain ⟨h1, h2⟩ := wfPureList_cons c rest hwf
    show serializeChildren rest (serializeNode c lines d ind) d ind = _
    rw [serializeNode_append_pure c h1 lines d ind]
    rw [serializeChildren_append_pure rest h2
      (lines ++ serializeNode c [] d ind) d ind]
    show _ = lines ++ serializeChildren rest (serializeNode c [] d ind) d ind
    rw [serializeChildren_append_pure rest h2 (serializeNode c [] d ind) d ind]
    simp
end

/-- `dropWhile` keeping the length fixes the list. -/
theorem dropWhile_length_eq (p : Char → Bool) (x : Str)
    (h : (x.dropWhile p).length = x.length) : x.dropWhile p = x := by
  cases x with
  | nil => rfl
  | cons c rest =>
    rw [List.dropWhile_cons] at h ⊢
    by_cases hc : p c = true
    · rw [if_pos (by simp [hc])] at h ⊢
      exfalso
      have hle : (rest.dropWhile p).length ≤ rest.length := by
        have := List.dropWhile_sublist (p := p) (l := rest)
        exact this.length_le
      simp only [List.length_cons] at h
      omega
    · rw [if_neg (by simp [hc])]

/-- `trimStart` never lengthens. -/
theorem trimStart_length_le (x : Str) : (trimStart x).length ≤ x.length := by
  unfold trimStart
  have := List.dropWhile_sublist (p := fun c => isJsWs c) (l := x)
  exact this.length_le

/-- `trimEnd` never lengthens. -/
theorem trimEnd_length_le (x : Str) : (trimEnd x).length ≤ x.length := by
  unfold trimEnd
  rw [List.length_reverse]
  have := trimStart_length_le x.reverse
  rw [List.length_reverse] at this
  exact this

/-- A string fixed by `trim` is fixed by `trimStart` and `trimEnd`. -/
theorem trim_fix_parts (x : Str) (h : trim x = x) :
    trimStart x = x ∧ trimEnd x = x := by
  unfold trim at h
  have h1 : (trimEnd (trimStart x)).length ≤ (trimStart x).length :=
    trimEnd_length_le (trimStart x)
  have h2 : (trimStart x).length ≤ x.length := trimStart_length_le x
  have h3 : (trimEnd (trimStart x)).length = x.length := by rw [h]
  have h4 : (trimStart x).length = x.length := by omega
  have h5 : trimStart x = x := by
    unfold trimStart at h4 ⊢
    exact dropWhile_length_eq _ x h4
  rw [h5] at h
  exact ⟨h5, h⟩

/-- Non-whitespace characters survive `trimStart`. -/
theorem mem_trimStart_of_not_ws (c : Char) (x : Str) (hm : c ∈ x)
    (hw : isJsWs c = false) : c ∈ trimStart x := by
  unfold trimStart
  induction x with
  | nil => simp at hm
  | cons d rest ih =>
    rw [List.dropWhile_cons]
    by_cases hd : isJsWs d = true
    · rw [if_pos (by simp [hd])]
      rcases List.mem_cons.mp hm with h | h
      · subst h; rw [hd] at hw; simp at hw
      · exact ih h
    · rw [if_neg (by simp [hd])]
      exact hm

/-- Non-whitespace characters survive `trimEnd`. -/
theorem mem_trimEnd_of_not_ws (c : Char) (x : Str) (hm : c ∈ x)
    (hw : isJsWs c = false) : c ∈ trimEnd x := by
  unfold trimEnd
  rw [List.mem_reverse]
  exact mem_trimStart_of_not_ws c x.reverse (by simpa using hm) hw

/-- Non-whitespace characters survive `trim`. -/
theorem mem_trim_of_not_ws (c : Char) (x : Str) (hm : c ∈ x)
    (hw : isJsWs c = false) : c ∈ trim x := by
  unfold trim
  exact mem_trimEnd_of_not_ws c (trimStart x)
    (mem_trimStart_of_not_ws c x hm hw) hw

/-- A string trimming to empty is all whitespace. -/
theorem all_ws_of_trim_nil (x : Str) (h : (trim x).length = 0) :
    ∀ c ∈ x, isJsWs c = true := by
  intro c hc
  cases hw : isJsWs c with
  | true => rfl
  | false =>
    exfalso
    have := mem_trim_of_not_ws c x hc hw
    rw [List.length_eq_zero.mp h] at this
    simp at this

/-- An all-whitespace string fixed by `trimEnd` is empty. -/
theorem all_ws_trimEnd_fix (x : Str) (hws : ∀ c ∈ x, isJsWs c = true)
    (hfix : trimEnd x = x) : x = [] := by
  cases hx : x.reverse with
  | nil => simpa using congrArg List.reverse hx
  | cons c rest =>
    exfalso
    have hcx : c ∈ x := by
      rw [← List.mem_reverse, hx]
      simp
    have hcw := hws c hcx
    unfold trimEnd trimStart at hfix
    rw [hx] at hfix
    rw [List.dropWhile_cons, if_pos (by simp [hcw])] at hfix
    have hlen := congrArg List.length hfix
    rw [List.length_reverse] at hlen
    have h1 : (List.dropWhile (fun c => isJsWs c) rest).length ≤ rest.length := by
      have := List.dropWhile_sublist (p := fun c => isJsWs c) (l := rest)
      exact this.length_le
    have h2 : x.length = rest.length + 1 := by
      have := congrArg List.length hx
      rw [List.length_reverse] at this
      simpa using this
    omega

/-- `trimStart` removes an all-whitespace prefix. -/
theorem trimStart_ws_drop (w x : Str) (hw : ∀ c ∈ w, isJsWs c = true) :
    trimStart (w ++ x) = trimStart x := by
  unfold trimStart
  induction w with
  | nil => rfl
  | cons c rest ih =>
    rw [List.cons_append, List.dropWhile_cons,
      if_pos (by simp [hw c (by simp)])]
    exact ih (fun d hd => hw d (by simp [hd]))

/-- `trim` ignores an all-whitespace prefix. -/
theorem trim_ws_drop (w x : Str) (hw : ∀ c ∈ w, isJsWs c = true) :
    trim (w ++ x) = trim x := by
  unfold trim
  rw [trimStart_ws_drop w x hw]

/-- The leading-whitespace count of a whitespace-padded line. -/
theorem leadingWsCount_ws_pad (w x : Str) (hw : ∀ c ∈ w, isJsWs c = true) :
    leadingWsCount (w ++ x) = w.length + leadingWsCount x := by
  unfold leadingWsCount
  induction w with
  | nil => simp
  | cons c rest ih =>
    rw [List.cons_append, List.takeWhile_cons,
      if_pos (by simp [hw c (by simp)])]
    simp only [List.length_cons]
    rw [ih (fun d hd => hw d (by simp [hd]))]
    omega

/-- A head-zero minimum fold is zero. -/
theorem foldl_min_zero (ns : List Nat) : ns.foldl Nat.min 0 = 0 := by
  induction ns with
  | nil => rfl
  | cons n rest ih =>
    rw [List.foldl_cons]
    rw [show Nat.min 0 n = 0 from by unfold Nat.min; omega]
    exact ih

/-- Minimum folds commute with a constant shift. -/
theorem foldl_min_add (k : Nat) : ∀ (a : Nat) (ns : List Nat),
    (ns.map (fun n => k + n)).foldl Nat.min (k + a) =
      k + ns.foldl Nat.min a := by
  intro a ns
  induction ns generalizing a with
  | nil => rfl
  | cons n rest ih =>
    rw [List.map_cons, List.foldl_cons, List.foldl_cons]
    rw [show Nat.min (k + a) (k + n) = k + Nat.min a n from by
      unfold Nat.min
      omega]
    exact ih (Nat.min a n)

/-- One-step evaluation of `splitOnChar`. -/
theorem splitOnChar_cons_eq (a : Char) (rest : Str) (c : Char) :
    splitOnChar (a :: rest) c =
      if a = c then [] :: splitOnChar rest c
      else match splitOnChar rest c with
        | p :: ps => (a :: p) :: ps
        | [] => [[a]] := rfl

/-- Splitting a concatenation at an explicit separator. -/
theorem splitOnChar_append_sep_all (c : Char) : ∀ (A B : Str),
    splitOnChar (A ++ c :: B) c = splitOnChar A c ++ splitOnChar B c := by
  intro A B
  induction A with
  | nil =>
    rw [List.nil_append]
    rw [splitOnChar_cons_eq, if_pos rfl]
    rfl
  | cons a A ih =>
    rw [List.cons_append]
    by_cases ha : a = c
    · subst ha
      rw [splitOnChar_cons_eq, if_pos rfl, ih]
      rw [splitOnChar_cons_eq, if_pos rfl]
      rfl
    · rw [splitOnChar_cons_eq, if_neg ha, ih]
      rw [splitOnChar_cons_eq, if_neg ha]
      cases hA : splitOnChar A c with
      | nil => exact absurd hA (splitOnChar_ne_nil A c)
      | cons p ps =>
        rw [List.cons_append]
        dsimp only
        rw [List.cons_append]

/-- Joining with an appended empty part appends a separator. -/
theorem joinChar_append_nil (c : Char) : ∀ (xs : List Str), xs ≠ [] →
    joinChar (xs ++ [[]]) c = joinChar xs c ++ [c] := by
  intro xs
  induction xs with
  | nil => intro h; exact absurd rfl h
  | cons x rest ih =>
    intro _
    cases rest with
    | nil =>
      show joinChar [x, []] c = joinChar [x] c ++ [c]
      rw [show joinChar [x, []] c = x ++ c :: joinChar [[]] c from rfl]
      rfl
    | cons y ys =>
      rw [List.cons_append]
      rw [show joinChar (x :: ((y :: ys) ++ [[]])) c =
        x ++ c :: joinChar ((y :: ys) ++ [[]]) c from rfl]
      rw [ih (by simp)]
      rw [show joinChar (x :: y :: ys) c = x ++ c :: joinChar (y :: ys) c from rfl]
      simp

/-- One-step evaluation of `dedent`. -/
theorem dedent_eq (text : Str) :
    dedent text =
      (match ((splitOnChar text '\n').filter
          (fun line => 0 < (trim line).length)).map leadingWsCount with
       | [] => []
       | n :: ns =>
         if ns.foldl Nat.min n = 0 then
           trim (joinChar ((splitOnChar text '\n').map trimEnd) '\n')
         else
           trim (joinChar ((splitOnChar text '\n').map (fun line =>
             if (trim line).length = 0 then []
             else trimEnd (sliceFrom line (ns.foldl Nat.min n)))) '\n')) := rfl

/-- The head of a `trimStart` fixpoint is not whitespace. -/
theorem head_not_ws (c : Char) (r : Str) (h : trimStart (c :: r) = c :: r) :
    isJsWs c = false := by
  cases hw : isJsWs c with
  | false => rfl
  | true =>
    exfalso
    unfold trimStart at h
    rw [List.dropWhile_cons, if_pos (by simp [hw])] at h
    have h1 : (List.dropWhile (fun c => isJsWs c) r).length ≤ r.length := by
      have := List.dropWhile_sublist (p := fun c => isJsWs c) (l := r)
      exact this.length_le
    have h2 := congrArg List.length h
    simp only [List.length_cons] at h2
    omega

/-- The first line of dedent-normal text is flush and non-blank. -/
theorem normalText_head (t : Str) (h : normalText t = true) :
    ∃ l0 ls, splitOnChar t '\n' = l0 :: ls ∧ leadingWsCount l0 = 0 ∧
      0 < (trim l0).length := by
  unfold normalText at h
  simp only [Bool.and_eq_true] at h
  obtain ⟨⟨h1, h2⟩, _⟩ := h
  have ht0 : t ≠ [] := by simpa using h1
  have htr : trim t = t := by simpa using h2
  obtain ⟨hts, _⟩ := trim_fix_parts t htr
  cases hsplit : splitOnChar t '\n' with
  | nil => exact absurd hsplit (splitOnChar_ne_nil t '\n')
  | cons l0 ls =>
    have hjoin : joinChar (l0 :: ls) '\n' = t := by
      rw [← hsplit]
      exact join_split t '\n'
    cases hl0 : l0 with
    | nil =>
      exfalso
      cases ls with
      | nil =>
        rw [hl0] at hjoin
        exact ht0 (hjoin.symm)
      | cons y ys =>
        rw [hl0] at hjoin
        rw [show joinChar ([] :: y :: ys) '\n' =
          [] ++ '\n' :: joinChar (y :: ys) '\n' from rfl] at hjoin
        rw [List.nil_append] at hjoin
        have := head_not_ws '\n' (joinChar (y :: ys) '\n') (by rw [hjoin]; exact hts)
        exact absurd this (by decide)
    | cons c0 l0t =>
      have hhead : ∃ r, t = c0 :: r := by
        cases ls with
        | nil =>
          rw [hl0] at hjoin
          exact ⟨l0t, hjoin.symm⟩
        | cons y ys =>
          rw [hl0] at hjoin
          rw [show joinChar ((c0 :: l0t) :: y :: ys) '\n' =
            (c0 :: l0t) ++ '\n' :: joinChar (y :: ys) '\n' from rfl] at hjoin
          exact ⟨l0t ++ '\n' :: joinChar (y :: ys) '\n', hjoin.symm⟩
      obtain ⟨r, hr⟩ := hhead
      have hc0 : isJsWs c0 = false := by
        apply head_not_ws c0 r
        rw [← hr]
        exact hts
      refine ⟨c0 :: l0t, ls, ?_, ?_, ?_⟩
      · first | rfl | exact hsplit
      · unfold leadingWsCount
        rw [List.takeWhile_cons, if_neg (by simp [hc0])]
        rfl
      · have hmem : c0 ∈ trim (c0 :: l0t) := by
          apply mem_trim_of_not_ws c0 (c0 :: l0t) _ hc0
          simp
        cases htl : trim (c0 :: l0t) with
        | nil => rw [htl] at hmem; simp at hmem
        | cons x xs => simp

/-- `dedent` fixes dedent-normal text. -/
theorem dedent_fix (t : Str) (h : normalText t = true) : dedent t = t := by
  obtain ⟨l0, ls, hsplit, hlw, hpos⟩ := normalText_head t h
  have hte : ∀ l ∈ splitOnChar t '\n', trimEnd l = l := by
    unfold normalText at h
    simp only [Bool.and_eq_true, List.all_eq_true] at h
    intro l hl
    exact of_decide_eq_true (h.2 l hl)
  have htr : trim t = t := by
    unfold normalText at h
    simp only [Bool.and_eq_true] at h
    exact of_decide_eq_true h.1.2
  rw [hsplit] at hte
  rw [dedent_eq, hsplit]
  rw [List.filter_cons, if_pos (by simp [hpos])]
  rw [List.map_cons, hlw]
  dsimp only
  rw [foldl_min_zero, if_pos rfl]
  have hmap : (l0 :: ls).map trimEnd = l0 :: ls := by
    conv_rhs => rw [← List.map_id (l0 :: ls)]
    apply List.map_congr_left
    intro l hl
    exact hte l hl
  rw [hmap, ← hsplit, join_split]
  exact htr

/-- No part of a split contains the separator. -/
theorem splitOnChar_not_mem (c : Char) : ∀ (s : Str) (x : Str),
    x ∈ splitOnChar s c → c ∉ x := by
  intro s
  induction s with
  | nil =>
    intro x hx
    rw [show splitOnChar [] c = [[]] from rfl] at hx
    simp only [List.mem_singleton] at hx
    subst hx
    simp
  | cons a rest ih =>
    intro x hx
    rw [splitOnChar_cons_eq] at hx
    by_cases hac : a = c
    · rw [if_pos hac] at hx
      rcases List.mem_cons.mp hx with h | h
      · subst h; simp
      · exact ih x h
    · rw [if_neg hac] at hx
      cases hp : splitOnChar rest c with
      | nil => exact absurd hp (splitOnChar_ne_nil rest c)
      | cons p ps =>
        rw [hp] at hx
        dsimp only at hx
        rcases List.mem_cons.mp hx with h | h
        · subst h
          intro hcm
          rcases List.mem_cons.mp hcm with h2 | h2
          · exact hac h2.symm
          · exact ih p (by rw [hp]; exact List.mem_cons_self p ps) h2
        · exact ih x (by rw [hp]; exact List.mem_cons_of_mem p h)

/-- Splitting a join of separator-free parts recovers the parts. -/
theorem split_join_inv (c : Char) : ∀ (xs : List Str), xs ≠ [] →
    (∀ x ∈ xs, c ∉ x) → splitOnChar (joinChar xs c) c = xs := by
  intro xs
  induction xs with
  | nil => intro h; exact absurd rfl h
  | cons x rest ih =>
    intro _ hmem
    cases rest with
    | nil =>
      rw [show joinChar [x] c = x from rfl]
      exact splitOnChar_no_sep x c (hmem x (List.mem_cons_self x []))
    | cons y ys =>
      rw [show joinChar (x :: y :: ys) c = x ++ c :: joinChar (y :: ys) c from rfl]
      rw [splitOnChar_append_sep_all]
      rw [splitOnChar_no_sep x c (hmem x (List.mem_cons_self x (y :: ys)))]
      rw [ih (by simp) (fun z hz => hmem z (List.mem_cons_of_mem x hz))]
      rfl

/-- `trimStart` empties an all-whitespace string. -/
theorem all_ws_trimStart_nil (s : Str) (h : ∀ c ∈ s, isJsWs c = true) :
    trimStart s = [] := by
  unfold trimStart
  induction s with
  | nil => rfl
  | cons a rest ih =>
    rw [List.dropWhile_cons, if_pos (by simp [h a (List.mem_cons_self a rest)])]
    exact ih (fun c hc => h c (List.mem_cons_of_mem a hc))

/-- `trim` empties an all-whitespace string. -/
theorem all_ws_trim_nil (s : Str) (h : ∀ c ∈ s, isJsWs c = true) :
    trim s = [] := by
  unfold trim
  rw [all_ws_trimStart_nil s h]
  rfl

/-- `trimEnd` removes an all-whitespace suffix. -/
theorem trimEnd_ws_suffix (w x : Str) (hw : ∀ c ∈ w, isJsWs c = true) :
    trimEnd (x ++ w) = trimEnd x := by
  unfold trimEnd
  rw [List.reverse_append]
  rw [trimStart_ws_drop w.reverse x.reverse
    (fun c hc => hw c (List.mem_reverse.mp hc))]

/-- `trimStart` keeps a string with a non-whitespace head. -/
theorem trimStart_cons_not_ws (c : Char) (r : Str) (h : isJsWs c = false) :
    trimStart (c :: r) = c :: r := by
  unfold trimStart
  rw [List.dropWhile_cons, if_neg (by simp [h])]

/-- Dedent-normal text starts with a non-whitespace character. -/
theorem normalText_head_char (t : Str) (h : normalText t = true) :
    ∃ c r, t = c :: r ∧ isJsWs c = false := by
  unfold normalText at h
  simp only [Bool.and_eq_true] at h
  obtain ⟨⟨h1, h2⟩, _⟩ := h
  have ht0 : t ≠ [] := by simpa using h1
  have htr : trim t = t := by simpa using h2
  obtain ⟨hts, _⟩ := trim_fix_parts t htr
  cases t with
  | nil => exact absurd rfl ht0
  | cons c r => exact ⟨c, r, rfl, head_not_ws c r hts⟩

/-- Blank lines of dedent-normal text are empty. -/
theorem normalText_blank (t : Str) (h : normalText t = true) :
    ∀ l ∈ splitOnChar t '\n', (trim l).length = 0 → l = [] := by
  intro l hl hlt
  have hte : trimEnd l = l := by
    unfold normalText at h
    simp only [Bool.and_eq_true, List.all_eq_true] at h
    exact of_decide_eq_true (h.2 l hl)
  exact all_ws_trimEnd_fix l (all_ws_of_trim_nil l hlt) hte

/-- Filtering non-blank padded lines commutes with the padding map. -/
theorem filter_trim_map_pad (inner : Str)
    (hinner : ∀ c ∈ inner, isJsWs c = true) : ∀ (L : List Str),
    (L.map (fun l => inner ++ l)).filter (fun x => 0 < (trim x).length) =
      (L.filter (fun l => 0 < (trim l).length)).map (fun l => inner ++ l) := by
  intro L
  induction L with
  | nil => rfl
  | cons a rest ih =>
    rw [List.map_cons, List.filter_cons, List.filter_cons]
    have htw : trim (inner ++ a) = trim a := trim_ws_drop inner a hinner
    by_cases hc : 0 < (trim a).length
    · rw [if_pos (by simp [htw, hc]), if_pos (by simp [hc])]
      rw [List.map_cons, ih]
    · have hc2 : ¬ 0 < (trim (inner ++ a)).length := by rw [htw]; exact hc
      rw [if_neg (by simpa using hc2), if_neg (by simpa using hc)]
      exact ih

/-- Leading-whitespace counts of padded lines shift by the pad length. -/
theorem lws_map_pad (inner : Str)
    (hinner : ∀ c ∈ inner, isJsWs c = true) : ∀ (L : List Str),
    (L.map (fun l => inner ++ l)).map leadingWsCount =
      (L.map leadingWsCount).map (fun n => inner.length + n) := by
  intro L
  induction L with
  | nil => rfl
  | cons a rest ih =>
    simp only [List.map_cons]
    rw [leadingWsCount_ws_pad inner a hinner, ih]

/-- `dedent` undoes the serializer's newline-and-indent padding of
dedent-normal text. -/
theorem dedent_padded (t inner pad : Str) (ht : normalText t = true)
    (hinner : ∀ c ∈ inner, isJsWs c = true) (hin : inner ≠ [])
    (hinn : '\n' ∉ inner)
    (hpad : ∀ c ∈ pad, isJsWs c = true) (hpn : '\n' ∉ pad) :
    dedent ('\n' :: (joinChar ((splitOnChar t '\n').map
      (fun l => inner ++ l)) '\n' ++ '\n' :: pad)) = t := by
  obtain ⟨l0, ls, hsplit, hlw, hpos⟩ := normalText_head t ht
  obtain ⟨c0, r0, hhd, hc0⟩ := normalText_head_char t ht
  have hte : ∀ l ∈ splitOnChar t '\n', trimEnd l = l := by
    unfold normalText at ht
    simp only [Bool.and_eq_true, List.all_eq_true] at ht
    intro l hl
    exact of_decide_eq_true (ht.2 l hl)
  have hblank := normalText_blank t ht
  have htendt : trimEnd t = t := by
    have htr : trim t = t := by
      unfold normalText at ht
      simp only [Bool.and_eq_true] at ht
      exact of_decide_eq_true ht.1.2
    exact (trim_fix_parts t htr).2
  -- the split of the padded string
  have hS : splitOnChar ('\n' :: (joinChar ((splitOnChar t '\n').map
      (fun l => inner ++ l)) '\n' ++ '\n' :: pad)) '\n' =
      [] :: (((splitOnChar t '\n').map (fun l => inner ++ l)) ++ [pad]) := by
    rw [show ('\n' :: (joinChar ((splitOnChar t '\n').map
        (fun l => inner ++ l)) '\n' ++ '\n' :: pad)) =
      ([] : Str) ++ '\n' :: (joinChar ((splitOnChar t '\n').map
        (fun l => inner ++ l)) '\n' ++ '\n' :: pad) from rfl]
    rw [splitOnChar_append_sep_all]
    rw [splitOnChar_append_sep_all]
    rw [splitOnChar_no_sep pad '\n' hpn]
    rw [split_join_inv '\n' ((splitOnChar t '\n').map (fun l => inner ++ l))
      (by rw [hsplit]; simp)
      (by
        intro x hx
        rcases List.mem_map.mp hx with ⟨l, hl, hfl⟩
        rw [← hfl]
        intro hmem
        rcases List.mem_append.mp hmem with h | h
        · exact hinn h
        · exact splitOnChar_not_mem '\n' t l hl h)]
    rfl
  rw [dedent_eq, hS]
  -- reduce the non-blank filter
  rw [List.filter_cons,
    if_neg (by simp [show trim ([] : Str) = [] from rfl])]
  rw [List.filter_append]
  rw [show List.filter (fun x => decide (0 < (trim x).length)) [pad] = [] from by
    rw [List.filter_cons,
      if_neg (by simp [all_ws_trim_nil pad hpad])]
    rfl]
  rw [List.append_nil]
  rw [filter_trim_map_pad inner hinner]
  rw [lws_map_pad inner hinner]
  rw [hsplit] at hte hblank ⊢
  rw [List.filter_cons, if_pos (by simp [hpos])]
  rw [List.map_cons, hlw, List.map_cons]
  dsimp only
  rw [foldl_min_add inner.length 0 ((List.filter
    (fun l => decide (0 < (trim l).length)) ls).map leadingWsCount)]
  rw [foldl_min_zero]
  have hinpos : 0 < inner.length := by
    cases inner with
    | nil => exact absurd rfl hin
    | cons a r => simp
  rw [if_neg (by omega)]
  -- reduce the per-line slicing map
  rw [show (([] : Str) :: (((l0 :: ls).map (fun l => inner ++ l))
      ++ [pad])).map (fun line =>
        if (trim line).length = 0 then []
        else trimEnd (sliceFrom line (inner.length + 0))) =
      ([] : Str) :: ((l0 :: ls) ++ [[]]) from by
    rw [List.map_cons, List.map_append]
    rw [show (if (trim ([] : Str)).length = 0 then ([] : Str)
        else trimEnd (sliceFrom [] (inner.length + 0))) = [] from by
      rw [if_pos (by rfl)]]
    rw [show List.map (fun line =>
        if (trim line).length = 0 then ([] : Str)
        else trimEnd (sliceFrom line (inner.length + 0))) [pad] = [[]] from by
      rw [List.map_cons]
      rw [if_pos (by rw [all_ws_trim_nil pad hpad]; rfl)]
      rfl]
    rw [List.map_map]
    congr 1
    congr 1
    conv_rhs => rw [← List.map_id (l0 :: ls)]
    apply List.map_congr_left
    intro l hl
    show (if (trim (inner ++ l)).length = 0 then ([] : Str)
      else trimEnd (sliceFrom (inner ++ l) (inner.length + 0))) = id l
    rw [trim_ws_drop inner l hinner]
    by_cases hbl : (trim l).length = 0
    · rw [if_pos hbl]
      exact (hblank l hl hbl).symm
    · rw [if_neg hbl]
      rw [show inner.length + 0 = inner.length from rfl]
      unfold sliceFrom
      rw [List.drop_left]
      exact hte l hl]
  -- join back and trim
  rw [show joinChar (([] : Str) :: ((l0 :: ls) ++ [[]])) '\n' =
    ([] : Str) ++ '\n' :: joinChar ((l0 :: ls) ++ [[]]) '\n' from rfl]
  rw [List.nil_append]
  rw [joinChar_append_nil '\n' (l0 :: ls) (by simp)]
  rw [← hsplit, join_split]
  rw [hhd]
  unfold trim
  rw [show ('\n' :: ((c0 :: r0) ++ ['\n'])) =
    (['\n'] : Str) ++ ((c0 :: r0) ++ ['\n']) from rfl]
  rw [trimStart_ws_drop ['\n'] ((c0 :: r0) ++ ['\n']) (by decide)]
  rw [List.cons_append]
  rw [trimStart_cons_not_ws c0 (r0 ++ ['\n']) hc0]
  rw [← List.cons_append]
  rw [trimEnd_ws_suffix ['\n'] (c0 :: r0) (by decide)]
  rw [← hhd]
  exact htendt

/-- `escapeText` is an append homomorphism. -/
theorem escapeText_append : ∀ (a b : Str),
    escapeText (a ++ b) = escapeText a ++ escapeText b := by
  intro a b
  induction a with
  | nil => rfl
  | cons c rest ih =>
    rw [List.cons_append]
    rw [show escapeText (c :: (rest ++ b)) =
      (if c = '&' then str "&amp;"
       else if c = '<' then str "&lt;"
       else if c = '>' then str "&gt;"
       else [c]) ++ escapeText (rest ++ b) from rfl]
    rw [show escapeText (c :: rest) =
      (if c = '&' then str "&amp;"
       else if c = '<' then str "&lt;"
       else if c = '>' then str "&gt;"
       else [c]) ++ escapeText rest from rfl]
    rw [ih, List.append_assoc]

/-- `escapeText` fixes whitespace. -/
theorem escapeText_ws (s : Str) (h : ∀ c ∈ s, isJsWs c = true) :
    escapeText s = s := by
  induction s with
  | nil => rfl
  | cons c rest ih =>
    have hcw := h c (List.mem_cons_self c rest)
    have h1 : ¬ c = '&' := by
      intro hc; subst hc; exact absurd hcw (by decide)
    have h2 : ¬ c = '<' := by
      intro hc; subst hc; exact absurd hcw (by decide)
    have h3 : ¬ c = '>' := by
      intro hc; subst hc; exact absurd hcw (by decide)
    rw [show escapeText (c :: rest) =
      (if c = '&' then str "&amp;"
       else if c = '<' then str "&lt;"
       else if c = '>' then str "&gt;"
       else [c]) ++ escapeText rest from rfl]
    rw [if_neg h1, if_neg h2, if_neg h3]
    rw [ih (fun d hd => h d (List.mem_cons_of_mem c hd))]
    rfl

/-- `escapeText` commutes with joining on an unescaped separator. -/
theorem escapeText_join (c : Char) (h1 : ¬ c = '&') (h2 : ¬ c = '<')
    (h3 : ¬ c = '>') : ∀ (xs : List Str),
    escapeText (joinChar xs c) = joinChar (xs.map escapeText) c := by
  intro xs
  induction xs with
  | nil => rfl
  | cons x rest ih =>
    cases rest with
    | nil => rfl
    | cons y ys =>
      rw [show joinChar (x :: y :: ys) c = x ++ c :: joinChar (y :: ys) c from rfl]
      rw [escapeText_append]
      rw [show escapeText (c :: joinChar (y :: ys) c) =
        (if c = '&' then str "&amp;"
         else if c = '<' then str "&lt;"
         else if c = '>' then str "&gt;"
         else [c]) ++ escapeText (joinChar (y :: ys) c) from rfl]
      rw [if_neg h1, if_neg h2, if_neg h3]
      rw [ih]
      rfl

/-- Characters of `indent.repeat(n)` come from `indent`. -/
theorem mem_repeatStr (s : Str) (c : Char) : ∀ (n : Nat),
    c ∈ repeatStr s n → c ∈ s := by
  intro n
  induction n with
  | zero => intro h; simp [repeatStr] at h
  | succ k ih =>
    intro h
    rw [show repeatStr s (k + 1) = s ++ repeatStr s k from rfl] at h
    rcases List.mem_append.mp h with h | h
    · exact h
    · exact ih h

/-- `indent.repeat(n)` is nonempty for nonempty indent and positive `n`. -/
theorem repeatStr_ne_nil (s : Str) (hs : s ≠ []) (n : Nat) :
    repeatStr s (n + 1) ≠ [] := by
  rw [show repeatStr s (n + 1) = s ++ repeatStr s n from rfl]
  intro h
  rcases List.append_eq_nil.mp h with ⟨h1, _⟩
  exact hs h1

/-- Single-line text serializes as itself. -/
theorem serializeTextContent_single (t : Str) (d : Nat) (ind : Str) (x : Str)
    (hsplit : splitOnChar t '\n' = [x]) :
    serializeTextContent t d ind = t := by
  unfold serializeTextContent
  rw [hsplit]

/-- Multi-line text serializes as padded escaped lines. -/
theorem serializeTextContent_multi (t : Str) (d : Nat) (ind : Str)
    (l1 l2 : Str) (rest : List Str)
    (hsplit : splitOnChar t '\n' = l1 :: l2 :: rest) :
    serializeTextContent t d ind =
      joinChar ((l1 :: l2 :: rest).map
        (fun line => repeatStr ind (d + 1) ++ escapeText line)) '\n' := by
  unfold serializeTextContent
  rw [hsplit]

/-- One-step evaluation of `needE`. -/
theorem needE_eq (t : Str) (a : List (Str × Str)) (cm : Comments)
    (tx : Option Str) (mx : Option (List MixedItem)) (ch : List ENode)
    (l : Location) (dd : Bool) :
    needE (ENode.mk t a cm tx mx ch l dd) = 1 + needSeq ch := rfl

/-- One-step evaluation of `needSeq` on a cons. -/
theorem needSeq_cons (c : ENode) (rest : List ENode) :
    needSeq (c :: rest) = 2 + max (needE c) (needSeq rest) := rfl

/-- One-step evaluation of `toDom`. -/
theorem toDom_eq (d : Nat) (ind : Str) (t : Str) (a : List (Str × Str))
    (cm : Comments) (tx : Option Str) (mx : Option (List MixedItem))
    (ch : List ENode) (l : Location) (dd : Bool) :
    toDom d ind (ENode.mk t a cm tx mx ch l dd) =
      (if (!(!ch.isEmpty) && !truthy tx && !false) = true then
        Dom.element t a []
      else if (truthy tx && !(!ch.isEmpty)) = true then
        if (serializeTextContent (tx.getD []) d ind).contains '\n' = true then
          Dom.element t a [Dom.text ('\n' :: (joinChar
            ((splitOnChar (tx.getD []) '\n').map
              (fun x => repeatStr ind (d + 1) ++ x)) '\n' ++
            '\n' :: repeatStr ind d))]
        else Dom.element t a [Dom.text (tx.getD [])]
      else Dom.element t a (toDomList (d + 1) ind (repeatStr ind d) ch)) := rfl

/-- One-step evaluation of `toDomList` on a cons. -/
theorem toDomList_cons (d : Nat) (ind : Str) (w : Str) (c : ENode)
    (rest : List ENode) :
    toDomList d ind w (c :: rest) =
      Dom.text ('\n' :: repeatStr ind d) :: toDom d ind c ::
        toDomList d ind w rest := rfl

/-- One-step evaluation of `hsE`. -/
theorem hsE_eq (d : Nat) (ind : Str) (t : Str) (a : List (Str × Str))
    (cm : Comments) (tx : Option Str) (mx : Option (List MixedItem))
    (ch : List ENode) (l : Location) (dd : Bool) :
    hsE d ind (ENode.mk t a cm tx mx ch l dd) =
      (if (!(!ch.isEmpty) && !truthy tx && !false) = true then
        tagOpenStr t a ++ str "/>"
      else if (truthy tx && !(!ch.isEmpty)) = true then
        if (serializeTextContent (tx.getD []) d ind).contains '\n' = true then
          tagOpenStr t a ++ str ">" ++
            '\n' :: (serializeTextContent (tx.getD []) d ind ++
              '\n' :: (repeatStr ind d ++ str "</" ++ t ++ str ">"))
        else
          tagOpenStr t a ++ str ">" ++
            escapeText (serializeTextContent (tx.getD []) d ind) ++
            str "</" ++ t ++ str ">"
      else
        tagOpenStr t a ++ str ">" ++
          '\n' :: (hsL (d + 1) ind ch ++
            '\n' :: (repeatStr ind d ++ str "</" ++ t ++ str ">"))) := rfl

/-- One-step evaluation of `hsL` on a cons of a cons. -/
theorem hsL_cons2 (d : Nat) (ind : Str) (c c2 : ENode) (rest : List ENode) :
    hsL d ind (c :: c2 :: rest) =
      repeatStr ind d ++ hsE d ind c ++ '\n' :: hsL d ind (c2 :: rest) := rfl

/-- One-step evaluation of `hsL` on a singleton. -/
theorem hsL_one (d : Nat) (ind : Str) (c : ENode) :
    hsL d ind [c] = repeatStr ind d ++ hsE d ind c := rfl

/-- One-step evaluation of `parseElement` on a `<`-headed input. -/
theorem parseElement_step (fuel : Nat) (r0 : Str) :
    parseElement (fuel + 1) ('<' :: r0) =
      (match parseXName r0 with
      | none => none
      | some (name, r1) =>
        match parseAttrList r1.length.succ r1 [] with
        | none => none
        | some (attrs, r2) =>
          match r2 with
          | '/' :: '>' :: r3 => some (Dom.element name attrs [], r3)
          | '>' :: r3 =>
            match parseContentList fuel r3 with
            | none => none
            | some (kids, r4) =>
              match r4 with
              | '<' :: '/' :: r5 =>
                match parseXName r5 with
                | none => none
                | some (cname, r6) =>
                  if cname = name then
                    match trimStart r6 with
                    | '>' :: r7 => some (Dom.element name attrs kids, r7)
                    | _ => none
                  else none
              | _ => none
          | _ => none) := rfl

/-- One-step evaluation of `parseContentList` on nonempty input. -/
theorem parseContentList_step (fuel : Nat) (c : Char) (rest : Str) :
    parseContentList (fuel + 1) (c :: rest) =
      (if startsWith (c :: rest) (str "</") then some ([], c :: rest)
      else if startsWith (c :: rest) (str "<!--") then
        match parseCommentBody ((c :: rest).length) ((c :: rest).drop 4) with
        | none => none
        | some (t, r) =>
          match parseContentList fuel r with
          | none => none
          | some (ds, r') => some (Dom.comment t :: ds, r')
      else if c = '<' then
        match parseElement fuel (c :: rest) with
        | none => none
        | some (d, r) =>
          match parseContentList fuel r with
          | none => none
          | some (ds, r') => some (d :: ds, r')
      else
        match parseTextRun (c :: rest).length.succ (c :: rest) with
        | none => none
        | some (t, r) =>
          match parseContentList fuel r with
          | none => none
          | some (ds, r') => some (Dom.text t :: ds, r')) := rfl

/-- One-step evaluation of `domToObject` on an element. -/
theorem domToObject_eq (t : Str) (a : List (Str × Str)) (kids : List Dom)
    (pc : Option Str) :
    domToObject (Dom.element t a kids) pc =
      (let st := processChildNodes kids
        { children := [], mixedContent := [], pendingComment := none
          hasNonWhitespaceText := false, hasComments := false }
      let textF : Option Str :=
        if st.hasNonWhitespaceText && st.children.isEmpty && !st.hasComments then
          some (dedent ((st.mixedContent.filterMap (fun i =>
            match i with | .str s => some s | _ => none)).flatten))
        else none
      let mixedF : Option (List MixedItem) :=
        if st.hasNonWhitespaceText && st.children.isEmpty && !st.hasComments
        then none
        else if st.hasNonWhitespaceText || st.hasComments then
          some st.mixedContent
        else none
      ENode.mk t a { start := pc } textF mixedF st.children
        (emptyLocation []) false) := rfl

/-- One-step evaluation of `processChildNodes` on a text node. -/
theorem processChildNodes_text (x : Str) (rest : List Dom) (st : DomState) :
    processChildNodes (Dom.text x :: rest) st =
      processChildNodes rest
        { st with
            hasNonWhitespaceText :=
              st.hasNonWhitespaceText || 0 < (trim x).length
            mixedContent := st.mixedContent ++ [MixedItem.str x] } := rfl

/-- One-step evaluation of `processChildNodes` on an element node. -/
theorem processChildNodes_elem (t : Str) (a : List (Str × Str))
    (k : List Dom) (rest : List Dom) (st : DomState) :
    processChildNodes (Dom.element t a k :: rest) st =
      processChildNodes rest
        { st with
            children := st.children ++
              [domToObject (Dom.element t a k) st.pendingComment]
            mixedContent := st.mixedContent ++
              [MixedItem.elem (domToObject (Dom.element t a k)
                st.pendingComment)]
            pendingComment := none } := rfl

/-- Serialized nonempty attribute lists are nonempty strings. -/
theorem serializeAttrs_cons_ne_nil (q : Str × Str) (ps : List (Str × Str)) :
    serializeAttrs (q :: ps) ≠ [] := by
  unfold serializeAttrs
  rw [List.map_cons]
  cases hm : ps.map (fun p => p.1 ++ str "=\"" ++ escapeAttr p.2 ++ str "\"") with
  | nil =>
    show joinChar [q.1 ++ str "=\"" ++ escapeAttr q.2 ++ str "\""] ' ' ≠ []
    show q.1 ++ str "=\"" ++ escapeAttr q.2 ++ str "\"" ≠ []
    simp [str]
  | cons y ys =>
    show q.1 ++ str "=\"" ++ escapeAttr q.2 ++ str "\"" ++ ' ' :: joinChar (y :: ys) ' ' ≠ []
    simp [str]

/-- The open tag decomposes as `<`, the name, and the attribute tail. -/
theorem tagOpenStr_attrsTail (t : Str) (a : List (Str × Str)) (r : Str) :
    tagOpenStr t a ++ r = '<' :: (t ++ attrsTail a r) := by
  unfold tagOpenStr
  cases a with
  | nil =>
    rw [if_neg (by simp [serializeAttrs, joinChar])]
    show ('<' :: t) ++ r = '<' :: (t ++ r)
    rfl
  | cons q ps =>
    rw [if_pos (by simpa using serializeAttrs_cons_ne_nil q ps)]
    show (str "<" ++ t ++ str " " ++ serializeAttrs (q :: ps)) ++ r = _
    rw [show attrsTail (q :: ps) r = str " " ++ serializeAttrs (q :: ps) ++ r from rfl]
    simp [str]

/-- The attribute tail is at least as long as the attribute list. -/
theorem attrsTail_length_ge : ∀ (a : List (Str × Str)) (r : Str),
    a.length ≤ (attrsTail a r).length := by
  intro a
  induction a with
  | nil => intro r; simp [attrsTail]
  | cons q ps ih =>
    intro r
    cases q with
    | mk n v =>
      rw [attrsTail_cons]
      simp only [List.length_cons, List.length_append]
      have := ih r
      omega

/-- The attribute tail starts with a non-name character when the
remainder does. -/
theorem attrsTail_head (a : List (Str × Str)) (c : Char) (r' : Str)
    (hc : isNameChar c = false) :
    ∃ c2 r2, attrsTail a (c :: r') = c2 :: r2 ∧ isNameChar c2 = false := by
  cases a with
  | nil => exact ⟨c, r', rfl, hc⟩
  | cons q ps =>
    refine ⟨' ', serializeAttrs (q :: ps) ++ c :: r', ?_, by decide⟩
    show str " " ++ serializeAttrs (q :: ps) ++ c :: r' = _
    simp [str]

/-- `escapeText` of a nonempty string is nonempty with a non-`<` head. -/
theorem escapeText_head (s : Str) (hs : s ≠ []) :
    ∃ e0 er, escapeText s = e0 :: er ∧ ¬ e0 = '<' := by
  cases s with
  | nil => exact absurd rfl hs
  | cons c rest =>
    rw [show escapeText (c :: rest) =
      (if c = '&' then str "&amp;"
       else if c = '<' then str "&lt;"
       else if c = '>' then str "&gt;"
       else [c]) ++ escapeText rest from rfl]
    by_cases h1 : c = '&'
    · rw [if_pos h1]
      exact ⟨'&', str "amp;" ++ escapeText rest, rfl, by decide⟩
    · rw [if_neg h1]
      by_cases h2 : c = '<'
      · rw [if_pos h2]
        exact ⟨'&', str "lt;" ++ escapeText rest, rfl, by decide⟩
      · rw [if_neg h2]
        by_cases h3 : c = '>'
        · rw [if_pos h3]
          exact ⟨'&', str "gt;" ++ escapeText rest, rfl, by decide⟩
        · rw [if_neg h3]
          exact ⟨c, escapeText rest, rfl, h2⟩

/-- `startsWith` fails on a head mismatch. -/
theorem startsWith_cons_ne (c d : Char) (r p : Str) (h : ¬ c = d) :
    startsWith (c :: r) (d :: p) = false := by
  unfold startsWith
  rw [show (d :: p).length = p.length + 1 from rfl]
  rw [List.take_succ_cons]
  simp [h]

/-- Joining concatenated nonempty line lists. -/
theorem joinChar_append (c : Char) : ∀ (A B : List Str), A ≠ [] → B ≠ [] →
    joinChar (A ++ B) c = joinChar A c ++ c :: joinChar B c := by
  intro A
  induction A with
  | nil => intro B h _; exact absurd rfl h
  | cons x rest ih =>
    intro B _ hB
    cases rest with
    | nil =>
      cases B with
      | nil => exact absurd rfl hB
      | cons y ys =>
        show joinChar (x :: y :: ys) c = joinChar [x] c ++ c :: joinChar (y :: ys) c
        rw [show joinChar (x :: y :: ys) c = x ++ c :: joinChar (y :: ys) c from rfl]
        rfl
    | cons z zs =>
      rw [List.cons_append]
      rw [show joinChar (x :: ((z :: zs) ++ B)) c =
        x ++ c :: joinChar ((z :: zs) ++ B) c from by
        cases B <;> rfl]
      rw [ih B (by simp) hB]
      rw [show joinChar (x :: z :: zs) c = x ++ c :: joinChar (z :: zs) c from rfl]
      simp

/-- A pure node serializes to at least one line. -/
theorem serializeNode_ne_nil (t : Str) (a : List (Str × Str))
    (tx : Option Str) (ch : List ENode) (l : Location) (dd : Bool)
    (hch : wfPureList ch = true) (d : Nat) (ind : Str) :
    serializeNode (ENode.mk t a (Comments.mk none none) tx none ch l dd)
      [] d ind ≠ [] := by
  rw [serializeNode_pure_eq]
  by_cases hb1 : (!(!ch.isEmpty) && !truthy tx && !false) = true
  · rw [if_pos hb1]; simp
  · rw [if_neg hb1]
    by_cases hb2 : (truthy tx && !(!ch.isEmpty)) = true
    · rw [if_pos hb2]
      by_cases hb3 : (serializeTextContent (tx.getD []) d ind).contains '\n' = true
      · rw [if_pos hb3]; simp
      · rw [if_neg hb3]; simp
    · rw [if_neg hb2, if_neg (by simp)]
      simp

/-- The open tag starts with `<`. -/
theorem tagOpenStr_head (t : Str) (a : List (Str × Str)) :
    ∃ r, tagOpenStr t a = '<' :: r := by
  unfold tagOpenStr
  by_cases h : serializeAttrs a ≠ []
  · rw [if_pos h]
    exact ⟨t ++ str " " ++ serializeAttrs a, by simp [str]⟩
  · rw [if_neg h]
    exact ⟨t, rfl⟩

/-- The headless serialization starts with `<`. -/
theorem hsE_head (d : Nat) (ind : Str) : ∀ (n : ENode),
    ∃ r, hsE d ind n = '<' :: r
  | ENode.mk t a cm tx mx ch l dd => by
    obtain ⟨r0, hr0⟩ := tagOpenStr_head t a
    rw [hsE_eq]
    by_cases hb1 : (!(!ch.isEmpty) && !truthy tx && !false) = true
    · rw [if_pos hb1, hr0]
      exact ⟨r0 ++ str "/>", by simp⟩
    · rw [if_neg hb1]
      by_cases hb2 : (truthy tx && !(!ch.isEmpty)) = true
      · rw [if_pos hb2]
        by_cases hb3 : (serializeTextContent (tx.getD []) d ind).contains '\n' = true
        · rw [if_pos hb3, hr0]
          exact ⟨_, List.cons_append _ _ _⟩
        · rw [if_neg hb3, hr0]
          exact ⟨_, List.cons_append _ _ _⟩
      · rw [if_neg hb2, hr0]
        exact ⟨_, List.cons_append _ _ _⟩

/-- A join of two or more parts contains the separator. -/
theorem joinChar_contains (c : Char) (x y : Str) (ys : List Str) :
    (joinChar (x :: y :: ys) c).contains c = true := by
  rw [show joinChar (x :: y :: ys) c = x ++ c :: joinChar (y :: ys) c from rfl]
  have : c ∈ x ++ c :: joinChar (y :: ys) c := by simp
  exact List.elem_eq_true_of_mem this

/-- Absence of a character refutes `contains`. -/
theorem contains_eq_false_of_not_mem (s : Str) (c : Char) (h : c ∉ s) :
    s.contains c = false := by
  cases hc : s.contains c with
  | false => rfl
  | true =>
    exfalso
    exact h (List.mem_of_elem_eq_true hc)

/-- Repeated indents are whitespace without newlines. -/
theorem indent_repeat_ws (ind : Str) (h : indentOk ind = true) (k : Nat) :
    (∀ c ∈ repeatStr ind k, isJsWs c = true) ∧ '\n' ∉ repeatStr ind k := by
  unfold indentOk at h
  simp only [Bool.and_eq_true, List.all_eq_true] at h
  have hc : ∀ c ∈ repeatStr ind k, c = ' ' ∨ c = '\t' := by
    intro c hm
    have := h.2 c (mem_repeatStr ind c k hm)
    simpa using this
  constructor
  · intro c hm
    rcases hc c hm with h | h <;> subst h <;> decide
  · intro hm
    rcases hc '\n' hm with h | h <;> exact absurd h (by decide)

mutual
/-- The joined serialization of a pure node is its indent followed by
its headless form. -/
theorem linkE : ∀ (n : ENode), wfPure n = true → ∀ (d : Nat) (ind : Str),
    joinChar (serializeNode n [] d ind) '\n' = repeatStr ind d ++ hsE d ind n
  | ENode.mk t a cm tx mx ch l dd => by
    intro hwf d ind
    obtain ⟨_, _, hcs, hce, hmx, _, _, _, hch⟩ :=
      wfPure_fields t a cm tx mx ch l dd hwf
    cases cm with
    | mk cst cen =>
      simp only at hcs hce
      subst hcs; subst hce; subst hmx
      rw [serializeNode_pure_eq, hsE_eq]
      by_cases hb1 : (!(!ch.isEmpty) && !truthy tx && !false) = true
      · rw [if_pos hb1, if_pos hb1]
        rw [List.nil_append]
        show repeatStr ind d ++ tagOpenStr t a ++ str "/>" = _
        simp [List.append_assoc]
      · rw [if_neg hb1, if_neg hb1]
        by_cases hb2 : (truthy tx && !(!ch.isEmpty)) = true
        · rw [if_pos hb2, if_pos hb2]
          by_cases hb3 : (serializeTextContent (tx.getD []) d ind).contains '\n' = true
          · rw [if_pos hb3, if_pos hb3]
            show joinChar [repeatStr ind d ++ tagOpenStr t a ++ str ">",
              serializeTextContent (tx.getD []) d ind,
              repeatStr ind d ++ str "</" ++ t ++ str ">"] '\n' = _
            rw [show joinChar [repeatStr ind d ++ tagOpenStr t a ++ str ">",
              serializeTextContent (tx.getD []) d ind,
              repeatStr ind d ++ str "</" ++ t ++ str ">"] '\n' =
              (repeatStr ind d ++ tagOpenStr t a ++ str ">") ++
              '\n' :: (serializeTextContent (tx.getD []) d ind ++
                '\n' :: (repeatStr ind d ++ str "</" ++ t ++ str ">")) from rfl]
            simp [List.append_assoc]
          · rw [if_neg hb3, if_neg hb3]
            rw [List.nil_append]
            show repeatStr ind d ++ tagOpenStr t a ++ str ">" ++
              escapeText (serializeTextContent (tx.getD []) d ind) ++
              str "</" ++ t ++ str ">" = _
            simp [List.append_assoc]
        · rw [if_neg hb2, if_neg hb2, if_neg (show ¬ false = true by simp)]
          have hchne : ch ≠ [] := by
            intro hc
            subst hc
            cases htr : truthy tx with
            | false => exact hb1 (by simp [htr])
            | true => exact hb2 (by simp [htr])
          rw [serializeChildren_append_pure ch hch
            ([] ++ [repeatStr ind d ++ tagOpenStr t a ++ str ">"]) (d + 1) ind]
          rw [List.nil_append]
          have hscne : serializeChildren ch [] (d + 1) ind ≠ [] := by
            cases ch with
            | nil => exact absurd rfl hchne
            | cons c crest =>
              obtain ⟨hc1, hc2⟩ := wfPureList_cons c crest hch
              show serializeChildren crest (serializeNode c [] (d + 1) ind)
                (d + 1) ind ≠ []
              rw [serializeChildren_append_pure crest hc2
                (serializeNode c [] (d + 1) ind) (d + 1) ind]
              intro hcontra
              rcases List.append_eq_nil.mp hcontra with ⟨hh, _⟩
              cases c with
              | mk t2 a2 cm2 tx2 mx2 ch2 l2 dd2 =>
                obtain ⟨_, _, hcs2, hce2, hmx2, _, _, _, hch2⟩ :=
                  wfPure_fields t2 a2 cm2 tx2 mx2 ch2 l2 dd2 hc1
                cases cm2 with
                | mk cst2 cen2 =>
                  simp only at hcs2 hce2
                  subst hcs2; subst hce2; subst hmx2
                  exact serializeNode_ne_nil t2 a2 tx2 ch2 l2 dd2 hch2
                    (d + 1) ind hh
          rw [show [repeatStr ind d ++ tagOpenStr t a ++ str ">"] ++
            serializeChildren ch [] (d + 1) ind ++
            [repeatStr ind d ++ str "</" ++ t ++ str ">"] =
            [repeatStr ind d ++ tagOpenStr t a ++ str ">"] ++
            (serializeChildren ch [] (d + 1) ind ++
              [repeatStr ind d ++ str "</" ++ t ++ str ">"]) from by
            simp [List.append_assoc]]
          rw [joinChar_append '\n' [repeatStr ind d ++ tagOpenStr t a ++ str ">"]
            (serializeChildren ch [] (d + 1) ind ++
              [repeatStr ind d ++ str "</" ++ t ++ str ">"])
            (by simp) (by simp)]
          rw [joinChar_append '\n' (serializeChildren ch [] (d + 1) ind)
            [repeatStr ind d ++ str "</" ++ t ++ str ">"] hscne (by simp)]
          rw [linkL ch hch hchne (d + 1) ind]
          rw [show joinChar [repeatStr ind d ++ tagOpenStr t a ++ str ">"] '\n' =
            repeatStr ind d ++ tagOpenStr t a ++ str ">" from rfl]
          rw [show joinChar [repeatStr ind d ++ str "</" ++ t ++ str ">"] '\n' =
            repeatStr ind d ++ str "</" ++ t ++ str ">" from rfl]
          simp [List.append_assoc]

/-- The joined serialization of a pure forest is its headless block. -/
theorem linkL : ∀ (cs : List ENode), wfPureList cs = true → cs ≠ [] →
    ∀ (d : Nat) (ind : Str),
    joinChar (serializeChildren cs [] d ind) '\n' = hsL d ind cs
  | [] => by intro _ h; exact absurd rfl h
  | [c] => by
    intro hwf _ d ind
    obtain ⟨h1, _⟩ := wfPureList_cons c [] hwf
    calc joinChar (serializeChildren [c] [] d ind) '\n'
        = joinChar (serializeNode c [] d ind) '\n' := rfl
      _ = repeatStr ind d ++ hsE d ind c := linkE c h1 d ind
      _ = hsL d ind [c] := (hsL_one d ind c).symm
  | c :: c2 :: crest => by
    intro hwf _ d ind
    obtain ⟨h1, h2⟩ := wfPureList_cons c (c2 :: crest) hwf
    show joinChar (serializeChildren (c2 :: crest)
      (serializeNode c [] d ind) d ind) '\n' = _
    rw [serializeChildren_append_pure (c2 :: crest) h2
      (serializeNode c [] d ind) d ind]
    have hne1 : serializeNode c [] d ind ≠ [] := by
      cases c with
      | mk t2 a2 cm2 tx2 mx2 ch2 l2 dd2 =>
        obtain ⟨_, _, hcs2, hce2, hmx2, _, _, _, hch2⟩ :=
          wfPure_fields t2 a2 cm2 tx2 mx2 ch2 l2 dd2 h1
        cases cm2 with
        | mk cst2 cen2 =>
          simp only at hcs2 hce2
          subst hcs2; subst hce2; subst hmx2
          exact serializeNode_ne_nil t2 a2 tx2 ch2 l2 dd2 hch2 d ind
    have hne2 : serializeChildren (c2 :: crest) [] d ind ≠ [] := by
      obtain ⟨h21, h22⟩ := wfPureList_cons c2 crest h2
      show serializeChildren crest (serializeNode c2 [] d ind) d ind ≠ []
      rw [serializeChildren_append_pure crest h22
        (serializeNode c2 [] d ind) d ind]
      intro hcontra
      rcases List.append_eq_nil.mp hcontra with ⟨hh, _⟩
      cases c2 with
      | mk t2 a2 cm2 tx2 mx2 ch2 l2 dd2 =>
        obtain ⟨_, _, hcs2, hce2, hmx2, _, _, _, hch2⟩ :=
          wfPure_fields t2 a2 cm2 tx2 mx2 ch2 l2 dd2 h21
        cases cm2 with
        | mk cst2 cen2 =>
          simp only at hcs2 hce2
          subst hcs2; subst hce2; subst hmx2
          exact serializeNode_ne_nil t2 a2 tx2 ch2 l2 dd2 hch2 d ind hh
    rw [joinChar_append '\n' (serializeNode c [] d ind)
      (serializeChildren (c2 :: crest) [] d ind) hne1 hne2]
    rw [linkE c h1 d ind, linkL (c2 :: crest) h2 (by simp) d ind]
    rw [hsL_cons2]
end

/-- A non-`<` head cannot start a close tag. -/
theorem startsWith_close_false (c : Char) (r : Str) (h : ¬ c = '<') :
    startsWith (c :: r) (str "</") = false :=
  startsWith_cons_ne c '<' r (str "/") h

/-- A non-`<` head cannot start a comment. -/
theorem startsWith_comment_false (c : Char) (r : Str) (h : ¬ c = '<') :
    startsWith (c :: r) (str "<!--") = false :=
  startsWith_cons_ne c '<' r (str "!--") h

/-- `startsWith` fails on a second-character mismatch. -/
theorem startsWith_cons2_ne (a c d : Char) (r p : Str) (h : ¬ c = d) :
    startsWith (a :: c :: r) (a :: d :: p) = false := by
  unfold startsWith
  rw [show (a :: d :: p).length = p.length + 1 + 1 from by simp]
  rw [List.take_succ_cons, List.take_succ_cons]
  simp [h]

/-- The content scan stops right before a close tag. -/
theorem parseContentList_stop (f : Nat) (r : Str) :
    parseContentList (f + 1) ('<' :: '/' :: r) = some ([], '<' :: '/' :: r) := by
  rw [parseContentList_step]
  rw [if_pos (by simp [startsWith, str])]

/-- The content scan consumes a final whitespace run before the close
tag. -/
theorem parseContentList_trail (w rest : Str)
    (hw : ∀ c ∈ w, isJsWs c = true) : ∀ (fuel : Nat), 2 ≤ fuel →
    parseContentList fuel ('\n' :: (w ++ '<' :: '/' :: rest)) =
      some ([Dom.text ('\n' :: w)], '<' :: '/' :: rest) := by
  intro fuel hf
  match fuel, hf with
  | f + 2, _ =>
    rw [parseContentList_step]
    rw [if_neg (by simp [startsWith_close_false '\n' _ (by decide)])]
    rw [if_neg (by simp [startsWith_comment_false '\n' _ (by decide)])]
    rw [if_neg (by decide)]
    have hwsall : ∀ c ∈ ('\n' :: w), isJsWs c = true := by
      intro c hc
      rcases List.mem_cons.mp hc with h | h
      · subst h; decide
      · exact hw c h
    have htr := parseTextRun_escape ('\n' :: w)
      (('\n' :: (w ++ '<' :: '/' :: rest)).length.succ) ('<' :: '/' :: rest)
      (by
        simp only [List.length_cons, List.length_append, Nat.succ_eq_add_one]
        omega)
      (Or.inr ⟨'/' :: rest, rfl⟩)
    rw [escapeText_ws ('\n' :: w) hwsall] at htr
    have htr2 : parseTextRun (('\n' :: (w ++ '<' :: '/' :: rest)).length.succ)
        ('\n' :: (w ++ '<' :: '/' :: rest)) =
        some ('\n' :: w, '<' :: '/' :: rest) := htr
    rw [htr2]
    dsimp only
    rw [parseContentList_stop]

/-- The open tag of a well-formed node starts `<` then a name character. -/
theorem tagOpenStr_head2 (t : Str) (a : List (Str × Str))
    (ht : isName t = true) :
    ∃ c2 r2, tagOpenStr t a = '<' :: c2 :: r2 ∧ isNameChar c2 = true := by
  unfold isName at ht
  simp only [Bool.and_eq_true, List.all_eq_true] at ht
  obtain ⟨ht1, ht2⟩ := ht
  cases t with
  | nil => exact absurd ht1 (by simp)
  | cons th tt =>
    have hth : isNameChar th = true := ht2 th (List.mem_cons_self th tt)
    unfold tagOpenStr
    by_cases h : serializeAttrs a ≠ []
    · rw [if_pos h]
      exact ⟨th, tt ++ str " " ++ serializeAttrs a, by simp [str], hth⟩
    · rw [if_neg h]
      exact ⟨th, tt, rfl, hth⟩

/-- The headless serialization of a well-formed node starts `<` then a
name character. -/
theorem hsE_head2 : ∀ (n : ENode), wfPure n = true → ∀ (d : Nat) (ind : Str),
    ∃ c2 r2, hsE d ind n = '<' :: c2 :: r2 ∧ isNameChar c2 = true
  | ENode.mk t a cm tx mx ch l dd => by
    intro hwf d ind
    obtain ⟨ht, _⟩ := wfPure_fields t a cm tx mx ch l dd hwf
    obtain ⟨c2, r2, hto, hc2⟩ := tagOpenStr_head2 t a ht
    rw [hsE_eq]
    by_cases hb1 : (!(!ch.isEmpty) && !truthy tx && !false) = true
    · rw [if_pos hb1, hto]
      exact ⟨c2, r2 ++ str "/>", by simp, hc2⟩
    · rw [if_neg hb1]
      by_cases hb2 : (truthy tx && !(!ch.isEmpty)) = true
      · rw [if_pos hb2]
        by_cases hb3 : (serializeTextContent (tx.getD []) d ind).contains '\n' = true
        · rw [if_pos hb3, hto]
          simp only [List.cons_append]
          exact ⟨c2, _, rfl, hc2⟩
        · rw [if_neg hb3, hto]
          simp only [List.cons_append]
          exact ⟨c2, _, rfl, hc2⟩
      · rw [if_neg hb2, hto]
        simp only [List.cons_append]
        exact ⟨c2, _, rfl, hc2⟩

/-- The content scan consumes one decoded text run before a close tag. -/
theorem parseContentList_text_close (dec : Str) (r : Str)
    (hd : ∃ e0 er, escapeText dec = e0 :: er ∧ ¬ e0 = '<') :
    ∀ (f : Nat), 2 ≤ f →
    parseContentList f (escapeText dec ++ '<' :: '/' :: r) =
      some ([Dom.text dec], '<' :: '/' :: r) := by
  intro f hf
  match f, hf with
  | f2 + 2, _ =>
    obtain ⟨e0, er, he, hne⟩ := hd
    rw [he, List.cons_append]
    rw [parseContentList_step]
    rw [if_neg (by simp [startsWith_close_false e0 _ hne])]
    rw [if_neg (by simp [startsWith_comment_false e0 _ hne])]
    rw [if_neg (by simpa using hne)]
    have hlen : dec.length < (e0 :: (er ++ '<' :: '/' :: r)).length.succ := by
      have h1 := escapeText_length_ge dec
      rw [he] at h1
      simp only [List.length_cons, List.length_append] at h1 ⊢
      omega
    have htr := parseTextRun_escape dec
      ((e0 :: (er ++ '<' :: '/' :: r)).length.succ) ('<' :: '/' :: r)
      hlen (Or.inr ⟨'/' :: r, rfl⟩)
    have heq : (e0 :: (er ++ '<' :: '/' :: r) : Str) =
        escapeText dec ++ '<' :: '/' :: r := by
      rw [he, List.cons_append]
    have htr2 : parseTextRun ((e0 :: (er ++ '<' :: '/' :: r)).length.succ)
        (e0 :: (er ++ '<' :: '/' :: r)) = some (dec, '<' :: '/' :: r) := by
      nth_rewrite 2 [heq]
      exact htr
    rw [htr2]
    dsimp only
    rw [parseContentList_stop]

/-- The serializer's multiline text block is the escape of the padded
decoded text. -/
theorem escapeText_decoded (s0 : Str) (d : Nat) (ind : Str)
    (hind : indentOk ind = true)
    (l1 l2 : Str) (ls : List Str)
    (hsp : splitOnChar s0 '\n' = l1 :: l2 :: ls) :
    escapeText ('\n' :: (joinChar ((splitOnChar s0 '\n').map
        (fun l => repeatStr ind (d + 1) ++ l)) '\n' ++
      '\n' :: repeatStr ind d)) =
      '\n' :: (serializeTextContent s0 d ind ++ '\n' :: repeatStr ind d) := by
  obtain ⟨hw1, _⟩ := indent_repeat_ws ind hind (d + 1)
  obtain ⟨hw0, _⟩ := indent_repeat_ws ind hind d
  rw [serializeTextContent_multi s0 d ind l1 l2 ls hsp, hsp]
  rw [show ('\n' :: (joinChar ((l1 :: l2 :: ls).map
      (fun l => repeatStr ind (d + 1) ++ l)) '\n' ++
        '\n' :: repeatStr ind d) : Str) =
    ['\n'] ++ (joinChar ((l1 :: l2 :: ls).map
      (fun l => repeatStr ind (d + 1) ++ l)) '\n' ++
        (['\n'] ++ repeatStr ind d)) from rfl]
  rw [escapeText_append, escapeText_append, escapeText_append]
  rw [escapeText_ws ['\n'] (by intro c hc; simp at hc; subst hc; decide)]
  rw [escapeText_ws (repeatStr ind d) hw0]
  rw [escapeText_join '\n' (by decide) (by decide) (by decide)]
  rw [List.map_map]
  rw [show ((l1 :: l2 :: ls).map
      (escapeText ∘ fun l => repeatStr ind (d + 1) ++ l)) =
    ((l1 :: l2 :: ls).map
      (fun line => repeatStr ind (d + 1) ++ escapeText line)) from by
    apply List.map_congr_left
    intro l hl
    show escapeText (repeatStr ind (d + 1) ++ l) =
      repeatStr ind (d + 1) ++ escapeText l
    rw [escapeText_append, escapeText_ws (repeatStr ind (d + 1)) hw1]]
  rfl

/-- `parseElement` on a serialized self-closing tag. -/
theorem parseElement_self (t : Str) (a : List (Str × Str))
    (ht : isName t = true) (ha : attrNamesOk a = true) (f : Nat)
    (suffix : Str) :
    parseElement (f + 1) (tagOpenStr t a ++ ('/' :: '>' :: suffix)) =
      some (Dom.element t a [], suffix) := by
  rw [tagOpenStr_attrsTail]
  rw [parseElement_step]
  obtain ⟨c2, r2, hat, hc2⟩ := attrsTail_head a '/' ('>' :: suffix) (by decide)
  rw [parseXName_exact t (attrsTail a ('/' :: '>' :: suffix)) ht
    (Or.inr ⟨c2, r2, hat, hc2⟩)]
  dsimp only
  rw [parseAttrList_serialized a
    ((attrsTail a ('/' :: '>' :: suffix)).length.succ) []
    ('/' :: '>' :: suffix)
    (by have := attrsTail_length_ge a ('/' :: '>' :: suffix); omega)
    (by simpa using ha)
    ⟨'/', '>' :: suffix, rfl, Or.inl rfl⟩]
  dsimp only
  rw [List.nil_append]
  simp only []

/-- `parseElement` on a serialized open tag, content with a known parse,
and the matching close tag. -/
theorem parseElement_content (t : Str) (a : List (Str × Str))
    (ht : isName t = true) (ha : attrNamesOk a = true) (f : Nat)
    (CONTENT : Str) (kids : List Dom) (suffix : Str)
    (hcl : parseContentList f CONTENT =
      some (kids, '<' :: '/' :: (t ++ '>' :: suffix))) :
    parseElement (f + 1) (tagOpenStr t a ++ ('>' :: CONTENT)) =
      some (Dom.element t a kids, suffix) := by
  rw [tagOpenStr_attrsTail]
  rw [parseElement_step]
  obtain ⟨c2, r2, hat, hc2⟩ := attrsTail_head a '>' CONTENT (by decide)
  rw [parseXName_exact t (attrsTail a ('>' :: CONTENT)) ht
    (Or.inr ⟨c2, r2, hat, hc2⟩)]
  dsimp only
  rw [parseAttrList_serialized a ((attrsTail a ('>' :: CONTENT)).length.succ)
    [] ('>' :: CONTENT)
    (by have := attrsTail_length_ge a ('>' :: CONTENT); omega)
    (by simpa using ha)
    ⟨'>', CONTENT, rfl, Or.inr rfl⟩]
  dsimp only
  rw [List.nil_append]
  simp only []
  rw [hcl]
  simp only []
  rw [parseXName_exact t ('>' :: suffix) ht
    (Or.inr ⟨'>', suffix, rfl, by decide⟩)]
  dsimp only
  rw [if_pos rfl]
  rw [trimStart_cons_not_ws '>' suffix (by decide)]
  simp only []

mutual
/-- Reparsing the headless serialization of a pure node recovers its
DOM image and leaves the suffix untouched. -/
theorem parseElement_hsE : ∀ (n : ENode), wfPure n = true →
    ∀ (d : Nat) (ind : Str), indentOk ind = true →
    ∀ (fuel : Nat), needE n ≤ fuel → ∀ (suffix : Str),
    parseElement fuel (hsE d ind n ++ suffix) = some (toDom d ind n, suffix)
  | ENode.mk t a cm tx mx ch l dd => by
    intro hwf d ind hind fuel hfuel suffix
    obtain ⟨ht, ha, hcs, hce, hmx, htx, hl, hdd, hch⟩ :=
      wfPure_fields t a cm tx mx ch l dd hwf
    rw [needE_eq] at hfuel
    have hseq2 : 2 ≤ needSeq ch := by
      cases ch with
      | nil => exact Nat.le_refl 2
      | cons u v => rw [needSeq_cons]; omega
    cases fuel with
    | zero => omega
    | succ f =>
    have hfseq : needSeq ch ≤ f := by omega
    have hf2 : 2 ≤ f := by omega
    rw [hsE_eq, toDom_eq]
    by_cases hb1 : (!(!ch.isEmpty) && !truthy tx && !false) = true
    · -- self-closing tag
      rw [if_pos hb1, if_pos hb1]
      rw [show (tagOpenStr t a ++ str "/>") ++ suffix =
        tagOpenStr t a ++ ('/' :: '>' :: suffix) from by
        rw [List.append_assoc]
        rfl]
      rw [parseElement_self t a ht ha f suffix]
    · rw [if_neg hb1, if_neg hb1]
      by_cases hb2 : (truthy tx && !(!ch.isEmpty)) = true
      · -- text-only node
        rw [if_pos hb2, if_pos hb2]
        obtain ⟨s0, hs0, hns0, _⟩ :
            ∃ s, tx = some s ∧ normalText s = true ∧ ch = [] := by
          rcases htx with h | h
          · exfalso
            rw [h] at hb2
            simp [truthy] at hb2
          · exact h
        rw [hs0]
        simp only [Option.getD_some]
        have hs0ne : s0 ≠ [] := by
          unfold normalText at hns0
          simp only [Bool.and_eq_true] at hns0
          simpa using hns0.1.1
        by_cases hb3 : (serializeTextContent s0 d ind).contains '\n' = true
        · -- multiline text
          rw [if_pos hb3, if_pos hb3]
          cases hsp : splitOnChar s0 '\n' with
          | nil => exact absurd hsp (splitOnChar_ne_nil s0 '\n')
          | cons x xs =>
          cases xs with
          | nil =>
            exfalso
            rw [serializeTextContent_single s0 d ind x hsp] at hb3
            have hnm : '\n' ∉ s0 := by
              have hx := splitOnChar_not_mem '\n' s0 x (by rw [hsp]; simp)
              have hjs : s0 = x := by
                have hj := join_split s0 '\n'
                rw [hsp] at hj
                exact hj.symm
              rw [hjs]
              exact hx
            rw [contains_eq_false_of_not_mem s0 '\n' hnm] at hb3
            exact Bool.false_ne_true hb3
          | cons y ys =>
            have hesc := escapeText_decoded s0 d ind hind x y ys hsp
            rw [show (tagOpenStr t a ++ str ">" ++
                '\n' :: (serializeTextContent s0 d ind ++
                  '\n' :: (repeatStr ind d ++ str "</" ++ t ++ str ">"))) ++
                suffix =
              tagOpenStr t a ++
                ('>' :: ('\n' :: (serializeTextContent s0 d ind ++
                  '\n' :: (repeatStr ind d ++
                    ('<' :: '/' :: (t ++ '>' :: suffix)))))) from by
              simp [str, List.append_assoc]]
            have hctc := parseContentList_text_close
              ('\n' :: (joinChar ((splitOnChar s0 '\n').map
                (fun z => repeatStr ind (d + 1) ++ z)) '\n' ++
                '\n' :: repeatStr ind d))
              (t ++ '>' :: suffix)
              ⟨'\n', serializeTextContent s0 d ind ++
                '\n' :: repeatStr ind d, hesc, by decide⟩
              f hf2
            rw [hesc] at hctc
            have hctc2 : parseContentList f
                ('\n' :: (serializeTextContent s0 d ind ++
                  '\n' :: (repeatStr ind d ++
                    ('<' :: '/' :: (t ++ '>' :: suffix))))) =
                some ([Dom.text ('\n' :: (joinChar
                  ((splitOnChar s0 '\n').map
                    (fun z => repeatStr ind (d + 1) ++ z)) '\n' ++
                  '\n' :: repeatStr ind d))],
                  '<' :: '/' :: (t ++ '>' :: suffix)) := by
              rw [show ('\n' :: (serializeTextContent s0 d ind ++
                  '\n' :: (repeatStr ind d ++
                    ('<' :: '/' :: (t ++ '>' :: suffix)))) : Str) =
                ('\n' :: (serializeTextContent s0 d ind ++
                  '\n' :: repeatStr ind d)) ++
                  '<' :: '/' :: (t ++ '>' :: suffix) from by
                simp [List.append_assoc]]
              exact hctc
            rw [parseElement_content t a ht ha f _ _ suffix hctc2]
            rw [hsp]
        · -- single-line text
          rw [if_neg hb3, if_neg hb3]
          cases hsp : splitOnChar s0 '\n' with
          | nil => exact absurd hsp (splitOnChar_ne_nil s0 '\n')
          | cons x xs =>
          cases xs with
          | cons y ys =>
            exfalso
            rw [serializeTextContent_multi s0 d ind x y ys hsp] at hb3
            exact hb3 (joinChar_contains '\n' _ _ _)
          | nil =>
            rw [serializeTextContent_single s0 d ind x hsp]
            rw [show (tagOpenStr t a ++ str ">" ++ escapeText s0 ++
                str "</" ++ t ++ str ">") ++ suffix =
              tagOpenStr t a ++
                ('>' :: (escapeText s0 ++
                  ('<' :: '/' :: (t ++ '>' :: suffix)))) from by
              simp [str, List.append_assoc]]
            have hcl := parseContentList_text_close s0 (t ++ '>' :: suffix)
              (escapeText_head s0 hs0ne) f hf2
            rw [parseElement_content t a ht ha f _ _ suffix hcl]
      · -- children node
        rw [if_neg hb2, if_neg hb2]
        have hchne : ch ≠ [] := by
          intro hc
          subst hc
          cases htr2 : truthy tx with
          | false => exact hb1 (by simp [htr2])
          | true => exact hb2 (by simp [htr2])
        obtain ⟨hwD, _⟩ := indent_repeat_ws ind hind d
        rw [show (tagOpenStr t a ++ str ">" ++
            '\n' :: (hsL (d + 1) ind ch ++
              '\n' :: (repeatStr ind d ++ str "</" ++ t ++ str ">"))) ++
            suffix =
          tagOpenStr t a ++
            ('>' :: ('\n' :: (hsL (d + 1) ind ch ++
              '\n' :: (repeatStr ind d ++
                ('<' :: '/' :: (t ++ '>' :: suffix)))))) from by
          simp [str, List.append_assoc]]
        have hcl := parseContentList_hsL ch hch hchne (d + 1) ind hind
          (repeatStr ind d) (t ++ '>' :: suffix) hwD f hfseq
        rw [parseElement_content t a ht ha f _ _ suffix hcl]

/-- Reparsing a serialized pure child block produces the interleaved
whitespace/element DOM list. -/
theorem parseContentList_hsL : ∀ (cs : List ENode), wfPureList cs = true →
    cs ≠ [] → ∀ (d : Nat) (ind : Str), indentOk ind = true →
    ∀ (w rest : Str), (∀ c ∈ w, isJsWs c = true) →
    ∀ (fuel : Nat), needSeq cs ≤ fuel →
    parseContentList fuel
      ('\n' :: (hsL d ind cs ++ '\n' :: (w ++ '<' :: '/' :: rest))) =
      some (toDomList d ind w cs, '<' :: '/' :: rest)
  | [] => by
    intro _ h
    exact absurd rfl h
  | c :: cs' => by
    intro hwf _ d ind hind w rest hw fuel hfuel
    obtain ⟨h1, h2⟩ := wfPureList_cons c cs' hwf
    rw [needSeq_cons] at hfuel
    cases fuel with
    | zero => omega
    | succ f =>
    cases f with
    | zero => omega
    | succ f2 =>
    have hmax : max (needE c) (needSeq cs') ≤ f2 := by omega
    have hfc : needE c ≤ f2 := le_trans (le_max_left _ _) hmax
    have hfcs : needSeq cs' ≤ f2 := le_trans (le_max_right _ _) hmax
    have hf2b : 2 ≤ f2 := by
      have hs2 : 2 ≤ needSeq cs' := by
        cases cs' with
        | nil => exact Nat.le_refl 2
        | cons u v => rw [needSeq_cons]; omega
      omega
    obtain ⟨hwD, _⟩ := indent_repeat_ws ind hind d
    obtain ⟨c2, r2, hhs2, hc2⟩ := hsE_head2 c h1 d ind
    have hc2slash : ¬ c2 = '/' := by
      intro h
      subst h
      exact absurd hc2 (by decide)
    have hc2bang : ¬ c2 = '!' := by
      intro h
      subst h
      exact absurd hc2 (by decide)
    have hwsall : ∀ x ∈ ('\n' :: repeatStr ind d), isJsWs x = true := by
      intro x hx
      rcases List.mem_cons.mp hx with h | h
      · subst h; decide
      · exact hwD x h
    have hmain : ∀ (REST : Str),
        parseContentList f2 REST =
          some (toDomList d ind w cs' , '<' :: '/' :: rest) →
        parseContentList (f2 + 1 + 1)
          ('\n' :: (repeatStr ind d ++ hsE d ind c ++ REST)) =
          some (Dom.text ('\n' :: repeatStr ind d) :: toDom d ind c ::
            toDomList d ind w cs', '<' :: '/' :: rest) := by
      intro REST hrest
      rw [parseContentList_step]
      rw [if_neg (by simp [startsWith_close_false '\n' _ (by decide)])]
      rw [if_neg (by simp [startsWith_comment_false '\n' _ (by decide)])]
      rw [if_neg (by decide)]
      have hins : ('\n' :: (repeatStr ind d ++ hsE d ind c ++ REST) : Str) =
          escapeText ('\n' :: repeatStr ind d) ++
            ('<' :: (c2 :: r2 ++ REST)) := by
        rw [escapeText_ws ('\n' :: repeatStr ind d) hwsall]
        rw [hhs2]
        simp [List.append_assoc]
      have hlen : ('\n' :: repeatStr ind d).length <
          ('\n' :: (repeatStr ind d ++ hsE d ind c ++ REST)).length.succ := by
        simp only [List.length_cons, List.length_append]
        omega
      have htr := parseTextRun_escape ('\n' :: repeatStr ind d)
        (('\n' :: (repeatStr ind d ++ hsE d ind c ++ REST)).length.succ)
        ('<' :: (c2 :: r2 ++ REST)) hlen
        (Or.inr ⟨c2 :: r2 ++ REST, rfl⟩)
      have htr2 : parseTextRun
          (('\n' :: (repeatStr ind d ++ hsE d ind c ++ REST)).length.succ)
          ('\n' :: (repeatStr ind d ++ hsE d ind c ++ REST)) =
          some ('\n' :: repeatStr ind d, '<' :: (c2 :: r2 ++ REST)) := by
        nth_rewrite 2 [hins]
        exact htr
      rw [htr2]
      dsimp only
      rw [show ('<' :: (c2 :: r2 ++ REST) : Str) =
        '<' :: c2 :: (r2 ++ REST) from rfl]
      rw [parseContentList_step]
      rw [if_neg (by
        rw [show (str "</") = '<' :: '/' :: ([] : Str) from rfl]
        simp [startsWith_cons2_ne '<' c2 '/' (r2 ++ REST) [] hc2slash])]
      rw [if_neg (by
        rw [show (str "<!--") = '<' :: '!' :: str "--" from rfl]
        simp [startsWith_cons2_ne '<' c2 '!' (r2 ++ REST) (str "--") hc2bang])]
      rw [if_pos rfl]
      have hpe := parseElement_hsE c h1 d ind hind f2 hfc REST
      have hpe2 : parseElement f2 ('<' :: c2 :: (r2 ++ REST)) =
          some (toDom d ind c, REST) := by
        rw [show ('<' :: c2 :: (r2 ++ REST) : Str) =
          ('<' :: c2 :: r2) ++ REST from rfl]
        rw [← hhs2]
        exact hpe
      rw [hpe2]
      dsimp only
      rw [hrest]
    cases cs' with
    | nil =>
      rw [hsL_one, toDomList_cons]
      have hrest := parseContentList_trail w rest hw f2 hf2b
      have hm := hmain ('\n' :: (w ++ '<' :: '/' :: rest)) (by
        rw [hrest]
        rfl)
      rw [show ('\n' :: (repeatStr ind d ++ hsE d ind c ++
          '\n' :: (w ++ '<' :: '/' :: rest)) : Str) =
        '\n' :: ((repeatStr ind d ++ hsE d ind c) ++
          '\n' :: (w ++ '<' :: '/' :: rest)) from by
        simp [List.append_assoc]] at hm
      exact hm
    | cons c3 cs'' =>
      rw [hsL_cons2, toDomList_cons]
      have hrest := parseContentList_hsL (c3 :: cs'') h2 (by simp) d ind hind
        w rest hw f2 hfcs
      have hm := hmain
        ('\n' :: (hsL d ind (c3 :: cs'') ++ '\n' :: (w ++ '<' :: '/' :: rest)))
        hrest
      rw [show ('\n' :: (repeatStr ind d ++ hsE d ind c ++
          '\n' :: (hsL d ind (c3 :: cs'') ++
            '\n' :: (w ++ '<' :: '/' :: rest))) : Str) =
        '\n' :: ((repeatStr ind d ++ hsE d ind c ++
          '\n' :: hsL d ind (c3 :: cs'')) ++
            '\n' :: (w ++ '<' :: '/' :: rest)) from by
        simp [List.append_assoc]] at hm
      exact hm
end

/-- The image of `toDom` is always an element node. -/
theorem toDom_elem : ∀ (c : ENode) (d : Nat) (ind : Str),
    ∃ t2 a2 k2, toDom d ind c = Dom.element t2 a2 k2
  | ENode.mk t a cm tx mx ch l dd => by
    intro d ind
    rw [toDom_eq]
    by_cases hb1 : (!(!ch.isEmpty) && !truthy tx && !false) = true
    · rw [if_pos hb1]; exact ⟨t, a, [], rfl⟩
    · rw [if_neg hb1]
      by_cases hb2 : (truthy tx && !(!ch.isEmpty)) = true
      · rw [if_pos hb2]
        by_cases hb3 : (serializeTextContent (tx.getD []) d ind).contains '\n' = true
        · rw [if_pos hb3]; exact ⟨t, a, _, rfl⟩
        · rw [if_neg hb3]; exact ⟨t, a, _, rfl⟩
      · rw [if_neg hb2]; exact ⟨t, a, _, rfl⟩

/-- A nonempty line with no leading whitespace starts with a
non-whitespace character. -/
theorem line_head_not_ws (x : Str) (hx : x ≠ []) (hlw : leadingWsCount x = 0) :
    ∃ a xr, x = a :: xr ∧ isJsWs a = false := by
  cases x with
  | nil => exact absurd rfl hx
  | cons a xr =>
    refine ⟨a, xr, rfl, ?_⟩
    cases hw : isJsWs a with
    | false => rfl
    | true =>
      exfalso
      unfold leadingWsCount at hlw
      rw [List.takeWhile_cons, if_pos (by simp [hw])] at hlw
      simp at hlw

/-- Zeta-reduced one-step evaluation of `domToObject` on an element. -/
theorem domToObject_eq2 (t : Str) (a : List (Str × Str)) (kids : List Dom)
    (pc : Option Str) :
    domToObject (Dom.element t a kids) pc =
      ENode.mk t a { start := pc }
        (if (processChildNodes kids
              (DomState.mk [] [] none false false)).hasNonWhitespaceText &&
            (processChildNodes kids
              (DomState.mk [] [] none false false)).children.isEmpty &&
            !(processChildNodes kids
              (DomState.mk [] [] none false false)).hasComments then
          some (dedent (((processChildNodes kids
            (DomState.mk [] [] none false false)).mixedContent.filterMap
              (fun i => match i with
                | MixedItem.str s => some s
                | _ => none)).flatten))
        else none)
        (if (processChildNodes kids
              (DomState.mk [] [] none false false)).hasNonWhitespaceText &&
            (processChildNodes kids
              (DomState.mk [] [] none false false)).children.isEmpty &&
            !(processChildNodes kids
              (DomState.mk [] [] none false false)).hasComments then none
        else if (processChildNodes kids
              (DomState.mk [] [] none false false)).hasNonWhitespaceText ||
            (processChildNodes kids
              (DomState.mk [] [] none false false)).hasComments then
          some (processChildNodes kids
            (DomState.mk [] [] none false false)).mixedContent
        else none)
        (processChildNodes kids (DomState.mk [] [] none false false)).children
        (emptyLocation []) false := rfl

mutual
/-- `domToObject` undoes `toDom` on pure nodes. -/
theorem domToObject_toDom : ∀ (n : ENode), wfPure n = true →
    ∀ (d : Nat) (ind : Str), indentOk ind = true →
    domToObject (toDom d ind n) none = n
  | ENode.mk t a cm tx mx ch l dd => by
    intro hwf d ind hind
    obtain ⟨ht, ha, hcs, hce, hmx, htx, hl, hdd, hch⟩ :=
      wfPure_fields t a cm tx mx ch l dd hwf
    cases cm with
    | mk cst cen =>
    simp only at hcs hce
    subst hcs; subst hce; subst hmx; subst hl; subst hdd
    rw [toDom_eq]
    by_cases hb1 : (!(!ch.isEmpty) && !truthy tx && !false) = true
    · -- self-closing: no children, no text
      rw [if_pos hb1]
      have hche : ch = [] := by
        simp only [Bool.and_eq_true, Bool.not_eq_true'] at hb1
        simpa using hb1.1.1
      have htxe : tx = none := by
        rcases htx with h | h
        · exact h
        · exfalso
          obtain ⟨s0, hs0, hns0, _⟩ := h
          simp only [Bool.and_eq_true, Bool.not_eq_true'] at hb1
          have hft := hb1.1.2
          rw [hs0] at hft
          unfold truthy at hft
          unfold normalText at hns0
          simp only [Bool.and_eq_true] at hns0
          have hne : s0 ≠ [] := by simpa using hns0.1.1
          simp [hne] at hft
      subst hche
      subst htxe
      rfl
    · rw [if_neg hb1]
      by_cases hb2 : (truthy tx && !(!ch.isEmpty)) = true
      · -- text node
        rw [if_pos hb2]
        obtain ⟨s0, hs0, hns0, hche⟩ :
            ∃ s, tx = some s ∧ normalText s = true ∧ ch = [] := by
          rcases htx with h | h
          · exfalso
            rw [h] at hb2
            simp [truthy] at hb2
          · exact h
        subst hs0
        subst hche
        simp only [Option.getD_some]
        have hs0tr : trim s0 = s0 := by
          unfold normalText at hns0
          simp only [Bool.and_eq_true] at hns0
          exact of_decide_eq_true hns0.1.2
        have hs0ne : s0 ≠ [] := by
          unfold normalText at hns0
          simp only [Bool.and_eq_true] at hns0
          simpa using hns0.1.1
        by_cases hb3 : (serializeTextContent s0 d ind).contains '\n' = true
        · -- multiline text
          rw [if_pos hb3]
          obtain ⟨l0, ls, hsp, hlw, hpos⟩ := normalText_head s0 hns0
          have hl0ne : l0 ≠ [] := by
            intro h
            rw [h] at hpos
            simp [trim, trimStart, trimEnd] at hpos
          obtain ⟨a0, xr, hxa, ha0⟩ := line_head_not_ws l0 hl0ne hlw
          obtain ⟨hw1, hn1⟩ := indent_repeat_ws ind hind (d + 1)
          obtain ⟨hw0, hn0⟩ := indent_repeat_ws ind hind d
          have hin1ne : repeatStr ind (d + 1) ≠ [] := by
            apply repeatStr_ne_nil
            unfold indentOk at hind
            simp only [Bool.and_eq_true] at hind
            simpa using hind.1
          have hmem : a0 ∈ ('\n' :: (joinChar ((splitOnChar s0 '\n').map
              (fun z => repeatStr ind (d + 1) ++ z)) '\n' ++
              '\n' :: repeatStr ind d)) := by
            rw [hsp]
            apply List.mem_cons_of_mem
            apply List.mem_append.mpr
            left
            cases ls with
            | nil =>
              rw [show (([l0] : List Str).map
                (fun z => repeatStr ind (d + 1) ++ z)) =
                [repeatStr ind (d + 1) ++ l0] from rfl]
              rw [show joinChar [repeatStr ind (d + 1) ++ l0] '\n' =
                repeatStr ind (d + 1) ++ l0 from rfl]
              apply List.mem_append.mpr
              right
              rw [hxa]
              simp
            | cons l1 ls' =>
              rw [List.map_cons, List.map_cons]
              rw [show joinChar ((repeatStr ind (d + 1) ++ l0) ::
                (repeatStr ind (d + 1) ++ l1) ::
                (ls'.map (fun z => repeatStr ind (d + 1) ++ z))) '\n' =
                (repeatStr ind (d + 1) ++ l0) ++ '\n' ::
                  joinChar ((repeatStr ind (d + 1) ++ l1) ::
                    (ls'.map (fun z => repeatStr ind (d + 1) ++ z))) '\n'
                from rfl]
              apply List.mem_append.mpr
              left
              apply List.mem_append.mpr
              right
              rw [hxa]
              simp
          have hpos2 : 0 < (trim ('\n' :: (joinChar
              ((splitOnChar s0 '\n').map
                (fun z => repeatStr ind (d + 1) ++ z)) '\n' ++
              '\n' :: repeatStr ind d))).length := by
            have hmt := mem_trim_of_not_ws a0 _ hmem ha0
            cases htr : trim ('\n' :: (joinChar
                ((splitOnChar s0 '\n').map
                  (fun z => repeatStr ind (d + 1) ++ z)) '\n' ++
                '\n' :: repeatStr ind d)) with
            | nil => rw [htr] at hmt; simp at hmt
            | cons q qs => simp
          have hst : processChildNodes [Dom.text ('\n' :: (joinChar
              ((splitOnChar s0 '\n').map
                (fun z => repeatStr ind (d + 1) ++ z)) '\n' ++
              '\n' :: repeatStr ind d))]
              (DomState.mk [] [] none false false) =
            DomState.mk [] [MixedItem.str ('\n' :: (joinChar
              ((splitOnChar s0 '\n').map
                (fun z => repeatStr ind (d + 1) ++ z)) '\n' ++
              '\n' :: repeatStr ind d))] none true false := by
            rw [processChildNodes_text]
            show DomState.mk [] ([] ++ [MixedItem.str _]) none
              (false || decide (0 < (trim ('\n' :: (joinChar
                ((splitOnChar s0 '\n').map
                  (fun z => repeatStr ind (d + 1) ++ z)) '\n' ++
                '\n' :: repeatStr ind d))).length)) false = _
            simp only [List.nil_append, Bool.false_or]
            rw [decide_eq_true hpos2]
          rw [domToObject_eq2, hst]
          show ENode.mk t a { start := none, endc := none }
            (some (dedent (('\n' :: (joinChar ((splitOnChar s0 '\n').map
              (fun z => repeatStr ind (d + 1) ++ z)) '\n' ++
              '\n' :: repeatStr ind d)) ++ [])))
            none [] (emptyLocation []) false = _
          rw [List.append_nil]
          rw [dedent_padded s0 (repeatStr ind (d + 1)) (repeatStr ind d)
            hns0 hw1 hin1ne hn1 hw0 hn0]
        · -- single-line text
          rw [if_neg hb3]
          have hpos1 : 0 < (trim s0).length := by
            rw [hs0tr]
            cases s0 with
            | nil => exact absurd rfl hs0ne
            | cons q qs => simp
          have hst : processChildNodes [Dom.text s0]
              (DomState.mk [] [] none false false) =
            DomState.mk [] [MixedItem.str s0] none true false := by
            rw [processChildNodes_text]
            show DomState.mk [] ([] ++ [MixedItem.str s0]) none
              (false || decide (0 < (trim s0).length)) false = _
            simp only [List.nil_append, Bool.false_or]
            rw [decide_eq_true hpos1]
          rw [domToObject_eq2, hst]
          show ENode.mk t a { start := none, endc := none }
            (some (dedent (s0 ++ []))) none [] (emptyLocation []) false = _
          rw [List.append_nil]
          rw [dedent_fix s0 hns0]
      · -- children node
        rw [if_neg hb2]
        have hchne : ch ≠ [] := by
          intro hc
          subst hc
          cases htr2 : truthy tx with
          | false => exact hb1 (by simp [htr2])
          | true => exact hb2 (by simp [htr2])
        have htxe : tx = none := by
          rcases htx with h | h
          · exact h
          · obtain ⟨s9, _, _, hbad⟩ := h
            exact absurd hbad hchne
        subst htxe
        obtain ⟨hw0, _⟩ := indent_repeat_ws ind hind d
        have hrec := processChildNodes_toDomList ch hch (d + 1) ind
          hind (repeatStr ind d) hw0 [] [] false false
        rw [domToObject_eq2]
        rw [hrec.1, hrec.2.2.1, hrec.2.2.2]
        rw [if_neg (by simp), if_neg (by simp), if_neg (by simp)]
        rw [List.nil_append]

termination_by n => sizeOf n

/-- `processChildNodes` on the interleaved list collects exactly the
original pure children, leaving the flags and pending comment alone. -/
theorem processChildNodes_toDomList : ∀ (cs : List ENode),
    wfPureList cs = true →
    ∀ (d : Nat) (ind : Str), indentOk ind = true →
    ∀ (w : Str), (∀ c ∈ w, isJsWs c = true) →
    ∀ (sc : List ENode) (sm : List MixedItem) (sh shc : Bool),
    (processChildNodes (toDomList d ind w cs)
        (DomState.mk sc sm none sh shc)).children = sc ++ cs ∧
    (processChildNodes (toDomList d ind w cs)
        (DomState.mk sc sm none sh shc)).pendingComment = none ∧
    (processChildNodes (toDomList d ind w cs)
        (DomState.mk sc sm none sh shc)).hasNonWhitespaceText = sh ∧
    (processChildNodes (toDomList d ind w cs)
        (DomState.mk sc sm none sh shc)).hasComments = shc
  | [] => by
    intro _ d ind hind w hw sc sm sh shc
    have htw : trim ('\n' :: w) = [] := by
      apply all_ws_trim_nil
      intro q hq
      rcases List.mem_cons.mp hq with h | h
      · subst h; decide
      · exact hw q h
    have hst : processChildNodes (toDomList d ind w [])
        (DomState.mk sc sm none sh shc) =
        DomState.mk sc (sm ++ [MixedItem.str ('\n' :: w)]) none sh shc := by
      rw [show toDomList d ind w [] = [Dom.text ('\n' :: w)] from rfl]
      rw [processChildNodes_text]
      show DomState.mk sc (sm ++ [MixedItem.str ('\n' :: w)]) none
        (sh || decide (0 < (trim ('\n' :: w)).length)) shc = _
      rw [htw]
      simp
    rw [hst]
    exact ⟨by simp, rfl, rfl, rfl⟩
  | c :: cs' => by
    intro hwf d ind hind w hw sc sm sh shc
    obtain ⟨h1, h2⟩ := wfPureList_cons c cs' hwf
    have htw : trim ('\n' :: repeatStr ind d) = [] := by
      apply all_ws_trim_nil
      intro q hq
      rcases List.mem_cons.mp hq with h | h
      · subst h; decide
      · exact (indent_repeat_ws ind hind d).1 q h
    obtain ⟨t2, a2, k2, hde⟩ := toDom_elem c d ind
    have hback : domToObject (Dom.element t2 a2 k2) none = c := by
      rw [← hde]
      exact domToObject_toDom c h1 d ind hind
    have hst : processChildNodes (toDomList d ind w (c :: cs'))
        (DomState.mk sc sm none sh shc) =
        processChildNodes (toDomList d ind w cs')
          (DomState.mk (sc ++ [c])
            ((sm ++ [MixedItem.str ('\n' :: repeatStr ind d)]) ++
              [MixedItem.elem c])
            none sh shc) := by
      rw [toDomList_cons, processChildNodes_text, hde, processChildNodes_elem]
      show processChildNodes (toDomList d ind w cs')
        (DomState.mk (sc ++ [domToObject (Dom.element t2 a2 k2) none])
          ((sm ++ [MixedItem.str ('\n' :: repeatStr ind d)]) ++
            [MixedItem.elem (domToObject (Dom.element t2 a2 k2) none)])
          none (sh || decide (0 < (trim ('\n' :: repeatStr ind d)).length))
          shc) = _
      rw [hback, htw]
      simp only [List.length_nil, lt_self_iff_false, decide_False,
        Bool.or_false]
    have hrec := processChildNodes_toDomList cs' h2 d ind hind w hw
      (sc ++ [c])
      ((sm ++ [MixedItem.str ('\n' :: repeatStr ind d)]) ++
        [MixedItem.elem c])
      sh shc
    rw [hst]
    refine ⟨?_, hrec.2.1, hrec.2.2.1, hrec.2.2.2⟩
    rw [hrec.1]
    rw [List.append_assoc]
    rfl
termination_by cs => sizeOf cs
end

mutual
/-- The length of the headless serialization dominates the fuel needed
to reparse it. -/
theorem needE_le_hsE : ∀ (n : ENode), wfPure n = true →
    ∀ (d : Nat) (ind : Str),
    needE n ≤ (hsE d ind n).length ∧ 3 ≤ (hsE d ind n).length
  | ENode.mk t a cm tx mx ch l dd => by
    intro hwf d ind
    obtain ⟨ht, ha, hcs, hce, hmx, htx, hl, hdd, hch⟩ :=
      wfPure_fields t a cm tx mx ch l dd hwf
    rw [needE_eq, hsE_eq]
    have hto2 : 2 ≤ (tagOpenStr t a).length := by
      obtain ⟨c2, r2, hto, _⟩ := tagOpenStr_head2 t a ht
      rw [hto]
      simp only [List.length_cons]
      omega
    by_cases hb1 : (!(!ch.isEmpty) && !truthy tx && !false) = true
    · rw [if_pos hb1]
      have hche : ch = [] := by
        simp only [Bool.and_eq_true, Bool.not_eq_true'] at hb1
        simpa using hb1.1.1
      subst hche
      rw [show needSeq [] = 2 from rfl]
      simp only [List.length_append, show (str "/>").length = 2 from rfl]
      omega
    · rw [if_neg hb1]
      by_cases hb2 : (truthy tx && !(!ch.isEmpty)) = true
      · rw [if_pos hb2]
        have hche : ch = [] := by
          simp only [Bool.and_eq_true, Bool.not_eq_true'] at hb2
          simpa using hb2.2
        subst hche
        rw [show needSeq [] = 2 from rfl]
        by_cases hb3 : (serializeTextContent (tx.getD []) d ind).contains '\n' = true
        · rw [if_pos hb3]
          simp only [List.length_append, List.length_cons,
            show (str ">").length = 1 from rfl,
            show (str "</").length = 2 from rfl]
          omega
        · rw [if_neg hb3]
          simp only [List.length_append, List.length_cons,
            show (str ">").length = 1 from rfl,
            show (str "</").length = 2 from rfl,
            show (str ">").length = 1 from rfl]
          omega
      · rw [if_neg hb2]
        have hchne : ch ≠ [] := by
          intro hc
          subst hc
          cases htr2 : truthy tx with
          | false => exact hb1 (by simp [htr2])
          | true => exact hb2 (by simp [htr2])
        have hseq := needSeq_le_hsL ch hch (d + 1) ind
        simp only [List.length_append, List.length_cons,
          show (str ">").length = 1 from rfl,
          show (str "</").length = 2 from rfl]
        omega

/-- The length of a headless child block dominates its fuel need. -/
theorem needSeq_le_hsL : ∀ (cs : List ENode), wfPureList cs = true →
    ∀ (d : Nat) (ind : Str),
    needSeq cs ≤ (hsL d ind cs).length + 2
  | [] => by
    intro _ d ind
    rw [show needSeq [] = 2 from rfl]
    omega
  | [c] => by
    intro hwf d ind
    obtain ⟨h1, _⟩ := wfPureList_cons c [] hwf
    have he := needE_le_hsE c h1 d ind
    rw [needSeq_cons, hsL_one]
    rw [show needSeq [] = 2 from rfl]
    simp only [List.length_append]
    omega
  | c :: c2 :: rest => by
    intro hwf d ind
    obtain ⟨h1, h2⟩ := wfPureList_cons c (c2 :: rest) hwf
    have he := needE_le_hsE c h1 d ind
    have hl := needSeq_le_hsL (c2 :: rest) h2 d ind
    rw [needSeq_cons, hsL_cons2]
    simp only [List.length_append, List.length_cons]
    omega
end

/-- One-step evaluation of `skipMisc`. -/
theorem skipMisc_step (f : Nat) (s : Str) :
    skipMisc (f + 1) s =
      (if startsWith (trimStart s) (str "<!--") then
        match parseCommentBody (trimStart s).length ((trimStart s).drop 4) with
        | none => none
        | some (_, r) => skipMisc f r
      else some (trimStart s)) := rfl

/-- `skipDecl` is the identity without a `<?` opener. -/
theorem skipDecl_no (s : Str) (h : startsWith s (str "<?") = false) :
    skipDecl s = some s := by
  unfold skipDecl
  rw [if_neg (by simp [h])]

/-- The whole-document parse of a headless pure serialization. -/
theorem parseDomDoc_hsE (n : ENode) (hwf : wfPure n = true)
    (ind : Str) (hind : indentOk ind = true) :
    parseDomDoc (hsE 0 ind n) = some (toDom 0 ind n) := by
  obtain ⟨c2, r2, hh, hc2⟩ := hsE_head2 n hwf 0 ind
  have hc2q : ¬ c2 = '?' := by
    intro h
    subst h
    exact absurd hc2 (by decide)
  have hc2b : ¬ c2 = '!' := by
    intro h
    subst h
    exact absurd hc2 (by decide)
  have hne := needE_le_hsE n hwf 0 ind
  have hpe := parseElement_hsE n hwf 0 ind hind ((hsE 0 ind n).length.succ)
    (le_trans hne.1 (Nat.le_succ _)) []
  rw [List.append_nil] at hpe
  rw [hh] at hpe
  unfold parseDomDoc
  rw [hh]
  have hsm : skipMisc ('<' :: c2 :: r2).length.succ ('<' :: c2 :: r2) =
      some ('<' :: c2 :: r2) := by
    rw [skipMisc_step]
    rw [trimStart_cons_not_ws '<' (c2 :: r2) (by decide)]
    rw [if_neg (by
      rw [show (str "<!--") = '<' :: '!' :: str "--" from rfl]
      simp [startsWith_cons2_ne '<' c2 '!' r2 (str "--") hc2b])]
  rw [hsm]
  dsimp only
  rw [skipDecl_no ('<' :: c2 :: r2) (by
    rw [show (str "<?") = '<' :: '?' :: ([] : Str) from rfl]
    exact startsWith_cons2_ne '<' c2 '?' r2 [] hc2q)]
  dsimp only
  rw [hsm]
  dsimp only
  rw [hpe]
  dsimp only
  rw [show skipMisc (([] : Str)).length.succ ([] : Str) = some [] from rfl]

/-- The default serialization of a pure node is its headless form at
depth zero. -/
theorem serialize_hsE (n : ENode) (hwf : wfPure n = true) :
    serialize n {} = hsE 0 (str "  ") n := by
  show joinChar (serializeNode n [] 0 (str "  ")) '\n' = _
  rw [linkE n hwf 0 (str "  ")]
  rfl

/-- A successful `parseXml` implies the root version attribute (when
present) is empty or matches the version pattern. -/
theorem parseXml_ok_guard (X src : Str) (D : ENode)
    (h : parseXml X src = Except.ok D) :
    ∀ v, lookupAttr D.attrs (str "version") = some v →
      v = [] ∨ versionPattern v = true := by
  unfold parseXml at h
  cases hdom : parseDomDoc X with
  | none =>
    rw [hdom] at h
    exact absurd h (by simp)
  | some dom =>
    rw [hdom] at h
    dsimp only at h
    cases hla : lookupAttr (domToObject dom none).attrs (str "version") with
    | none =>
      rw [hla] at h
      have hD : domToObject dom none = D := by simpa using h
      intro v hv
      rw [← hD, hla] at hv
      exact absurd hv (by simp)
    | some v0 =>
      rw [hla] at h
      dsimp only at h
      by_cases hv0 : v0 ≠ []
      · rw [if_pos hv0] at h
        by_cases hp : versionPattern v0 = true
        · rw [if_pos hp] at h
          have hD : domToObject dom none = D := by simpa using h
          intro v hv
          rw [← hD, hla] at hv
          have hvv : v0 = v := by simpa using hv
          subst hvv
          exact Or.inr hp
        · rw [if_neg hp] at h
          exact absurd h (by simp)
      · rw [if_neg hv0] at h
        have hD : domToObject dom none = D := by simpa using h
        intro v hv
        rw [← hD, hla] at hv
        have hvv : v0 = v := by simpa using hv
        subst hvv
        exact Or.inl (by simpa using hv0)

/-- Core round-trip: reparsing the default serialization of a
well-formed pure parse result returns it exactly. -/
theorem parseXml_serialize_pure (X src : Str) (D : ENode)
    (hparse : parseXml X src = Except.ok D) (hpure : wfPure D = true) :
    parseXml (serialize D) src = Except.ok D := by
  have hg := parseXml_ok_guard X src D hparse
  have hdom : parseDomDoc (serialize D) = some (toDom 0 (str "  ") D) := by
    rw [serialize_hsE D hpure]
    exact parseDomDoc_hsE D hpure (str "  ") (by decide)
  have hback : domToObject (toDom 0 (str "  ") D) none = D :=
    domToObject_toDom D hpure 0 (str "  ") (by decide)
  unfold parseXml
  rw [hdom]
  dsimp only
  rw [hback]
  cases hla : lookupAttr D.attrs (str "version") with
  | none => rfl
  | some v =>
    dsimp only
    rcases hg v hla with hv | hv
    · subst hv
      rw [if_neg (by simp)]
    · by_cases hv0 : v ≠ []
      · rw [if_pos hv0, if_pos hv]
      · rw [if_neg hv0]

/-- C1 (amended): on the comment-free, mixed-free pure fragment (name-
shaped tags and attributes, dedent-normal leaf text, default locations,
clean nodes), the round trip is an identity: for every parse result `D`
of this shape, `parseXml (serialize D)` succeeds and returns `D` itself,
so tagName, attrs, text, children and fragment-kind structure are all
preserved exactly. -/
theorem C1_amended_theorem (X src : Str) (D : ENode)
    (hparse : parseXml X src = Except.ok D) (hpure : wfPure D = true) :
    parseXml (serialize D) src = Except.ok D :=
  parseXml_serialize_pure X src D hparse hpure

/-- C1 witness: a concrete document with attributes, single-line text,
multiline text and a self-closing child round-trips exactly. -/
theorem C1_amended_theorem_witness :
    parseXml C1X [] = Except.ok C1D ∧ wfPure C1D = true ∧
    parseXml (serialize C1D) [] = Except.ok C1D :=
  ⟨rfl, rfl, C1_amended_theorem C1X [] C1D rfl rfl⟩

end Cardworks
